import Mathlib

/-!
# Hexagonal queens: a verification development

A shallow embedding of `solve.cpp` (board geometry, coordinate conversions, capture bitmap,
board state and the backtracking loop) together with theorems about it.

Machine integers are natural numbers with explicit wrap-around.  Loops whose number of
iterations is not fixed by their header take a fuel argument and return `none` when the fuel
runs out; termination is proved separately.
-/

namespace Queens

/-! ## Machine arithmetic -/

/-- Modelled from the spec: `types.h` is not among the sources, so the width of `uint` is
taken to be the usual 32 bits; its arithmetic wraps modulo this number. -/
def UINT_MOD : Nat := 4294967296

/-- Arithmetic on `size_t` wraps modulo this number (64-bit platform, on which
`sizeof(size_t)` is 8, as in the comment of `get_array_size`). -/
def SIZE_MOD : Nat := 18446744073709551616

/-- The value of `sizeof(size_t)`. -/
def SIZEOF_SIZE_T : Nat := 8

/-- Unsigned addition `a + b` on `uint`. -/
def uint_add (a b : Nat) : Nat := (a + b) % UINT_MOD

/-- Unsigned subtraction `a - b` on `uint`. -/
def uint_sub (a b : Nat) : Nat := (a + UINT_MOD - b % UINT_MOD) % UINT_MOD

/-- Unsigned multiplication `a * b` on `uint`. -/
def uint_mul (a b : Nat) : Nat := (a * b) % UINT_MOD

/-- The conversion `static_cast<int>(a)` of a `uint`. -/
def to_int (a : Nat) : Int := if a < 2147483648 then (a : Int) else (a : Int) - 4294967296

/-- The conversion of an `int` to `uint` (done implicitly when an `int` is compared with a
`uint`). -/
def to_uint (i : Int) : Nat := (i % 4294967296).toNat

/-- The function `abs_of_diff`. -/
def abs_of_diff (a b : Nat) : Nat := if a ≥ b then uint_sub a b else uint_sub b a

/-! ## Board geometry -/

/-- The anonymous struct `borders`. -/
structure Borders where
  x_plus_y_max : Nat
  x_minus_y_min : Int
deriving DecidableEq

/-- The global `board`. -/
structure Board where
  size : Nat
  size_minus_1 : Nat
  horizontal_size : Nat
  cartesian_max_y : Nat
  cell_count : Nat
  borders : Borders
  cumulative_cell_count : List Nat
deriving DecidableEq

/-- The body of the `for` loop of `calculate_cumulative_cell_count`, run `n` more times from
column `x` with running total `cell_count`. -/
def cumulative_loop (size size_minus_1 : Nat) : Nat → Nat → Nat → List Nat → List Nat
  | 0, _, _, v => v
  | n + 1, x, cell_count, v =>
    let cells_in_column := uint_sub (uint_add size size_minus_1) (abs_of_diff size_minus_1 x)
    let cell_count := uint_add cell_count cells_in_column
    cumulative_loop size size_minus_1 n (uint_add x 1) cell_count (v.set (uint_add x 1) cell_count)

/-- The function `calculate_cumulative_cell_count`: the table it stores in the board. The
loop `for (x = 0; x < horizontal_size; x++)` runs `horizontal_size` times. -/
def calculate_cumulative_cell_count (size size_minus_1 horizontal_size : Nat) : List Nat :=
  cumulative_loop size size_minus_1 horizontal_size 0 0
    (List.replicate (uint_add horizontal_size 1) 0)

/-- The first part of `solve`: the board constants for a given size. -/
def make_board (size : Nat) : Board :=
  let size_minus_1 := uint_sub size 1
  let horizontal_size := uint_sub (uint_mul size 2) 1
  let cartesian_max_y := uint_mul (uint_sub size 1) 4
  { size := size
    size_minus_1 := size_minus_1
    horizontal_size := horizontal_size
    cartesian_max_y := cartesian_max_y
    cell_count := uint_add (uint_mul (uint_mul 3 size) (uint_sub size 1)) 1
    borders :=
      { x_plus_y_max := uint_add cartesian_max_y (uint_sub size 1)
        x_minus_y_min := to_int (uint_sub size 1) - to_int cartesian_max_y }
    cumulative_cell_count :=
      calculate_cumulative_cell_count size size_minus_1 horizontal_size }

/-! ## Coordinates -/

/-- The struct `cartesian_coords` (lattice coordinates). -/
structure cartesian_coords where
  x : Nat
  y : Nat
deriving DecidableEq

/-- The struct `hexagonal_coords`. -/
structure hexagonal_coords where
  x : Nat
  y : Nat
deriving DecidableEq

/-- The method `cartesian_coords::inside_board`. -/
def cartesian_coords.inside_board (b : Board) (c : cartesian_coords) : Bool :=
  let sum : Int := to_int (uint_add c.x c.y)
  let diff : Int := to_int c.x - to_int c.y
  decide (c.x ≥ 0) && decide (c.x < b.horizontal_size) &&
  decide (c.y ≥ 0) && decide (c.y ≤ b.cartesian_max_y) &&
  decide (sum % 2 = 1) &&
  decide (to_uint sum ≥ b.size_minus_1) && decide (to_uint sum ≤ b.borders.x_plus_y_max) &&
  decide (diff ≥ b.borders.x_minus_y_min) &&
  decide (diff ≤ to_int b.size_minus_1)

/-- What the binary search of `from_index` ends with. -/
inductive lookup where
  /-- The column was found: `return {middle, index - value}`. -/
  | found (h : hexagonal_coords)
  /-- The loop ended without a column: the `must not reach here` exit. -/
  | not_found
  /-- A read outside the cumulative table. -/
  | out_of_range
deriving DecidableEq

/-- The `while (left <= right)` loop of `hexagonal_coords::from_index`. -/
def from_index_loop (b : Board) (index : Nat) : Nat → Nat → Nat → Option lookup
  | 0, _, _ => none
  | fuel + 1, left, right =>
    if left ≤ right then
      let middle := (left + right) % SIZE_MOD / 2
      match b.cumulative_cell_count[middle]? with
      | none => some lookup.out_of_range
      | some value =>
        if index < value then
          from_index_loop b index fuel left ((middle + SIZE_MOD - 1) % SIZE_MOD)
        else
          match b.cumulative_cell_count[(middle + 1) % SIZE_MOD]? with
          | none => some lookup.out_of_range
          | some next =>
            if index ≥ next then
              from_index_loop b index fuel ((middle + 1) % SIZE_MOD) right
            else
              some (lookup.found ⟨middle % UINT_MOD, uint_sub index value⟩)
    else
      some lookup.not_found

/-- The binary search of `from_index`, started with `left = 0` and
`right = horizontal_size`. -/
def from_index_search (b : Board) (fuel index : Nat) : Option lookup :=
  from_index_loop b index fuel 0 b.horizontal_size

/-- The function `hexagonal_coords::from_index`. It is `none` when the fuel runs out or the
table is read out of range; the `must not reach here` exit returns the zero coordinates. -/
def from_index (b : Board) (fuel index : Nat) : Option hexagonal_coords :=
  match from_index_search b fuel index with
  | some (lookup.found h) => some h
  | some lookup.not_found => some ⟨0, 0⟩
  | _ => none

/-- The method `hexagonal_coords::to_index`. -/
def hexagonal_coords.to_index (b : Board) (h : hexagonal_coords) : Nat :=
  uint_add (b.cumulative_cell_count.getD h.x 0) h.y

/-- The conversion `hexagonal_coords::operator cartesian_coords` (hexagonal to lattice). -/
def hexagonal_coords.to_cartesian (b : Board) (h : hexagonal_coords) : cartesian_coords :=
  let cartesian_y :=
    uint_sub (uint_sub (uint_mul b.size_minus_1 4) (abs_of_diff h.x b.size_minus_1))
      (uint_mul 2 h.y)
  ⟨h.x, cartesian_y⟩

/-- The conversion `cartesian_coords::operator hexagonal_coords` (lattice to hexagonal). -/
def cartesian_coords.to_hexagonal (b : Board) (c : cartesian_coords) : hexagonal_coords :=
  let hexagonal_y :=
    uint_sub (uint_sub (uint_mul b.size_minus_1 4) (abs_of_diff c.x b.size_minus_1)) c.y / 2
  ⟨c.x, hexagonal_y⟩

/-! ## Capture bitmap -/

/-- The class `bitmap`: a vector of `size_t` words. -/
structure bitmap where
  _data : List Nat
deriving DecidableEq

/-- The function `bitmap::get_array_size`. -/
def bitmap.get_array_size (bit_count : Nat) : Nat :=
  (bit_count + SIZEOF_SIZE_T - 1) % SIZE_MOD / SIZEOF_SIZE_T

/-- The constructor `bitmap()`: `get_array_size(board.cell_count)` zero words. -/
def bitmap.new (b : Board) : bitmap :=
  ⟨List.replicate (bitmap.get_array_size b.cell_count) 0⟩

/-- The method `bitmap::get_bit`. A read outside the vector (undefined in the source) reads
a zero word. -/
def bitmap.get_bit (m : bitmap) (index : Nat) : Bool :=
  (m._data.getD (index / SIZEOF_SIZE_T) 0) &&& (1 <<< (index % SIZEOF_SIZE_T)) != 0

/-- The method `bitmap::set_bit`. A write outside the vector (undefined in the source)
changes nothing. -/
def bitmap.set_bit (m : bitmap) (index : Nat) : bitmap :=
  ⟨m._data.set (index / SIZEOF_SIZE_T)
    ((m._data.getD (index / SIZEOF_SIZE_T) 0) ||| (1 <<< (index % SIZEOF_SIZE_T)))⟩

/-- The method `bitmap::clear_bit`. The mask `~(1 << k)` is an `int` widened to `size_t`. -/
def bitmap.clear_bit (m : bitmap) (index : Nat) : bitmap :=
  ⟨m._data.set (index / SIZEOF_SIZE_T)
    ((m._data.getD (index / SIZEOF_SIZE_T) 0) &&&
      (SIZE_MOD - 1 - (1 <<< (index % SIZEOF_SIZE_T))))⟩

/-! ## Board state -/

/-- The struct `board_state`. -/
structure board_state where
  queens : List Nat
  cells : bitmap
  index : Nat
deriving DecidableEq

/-- The `while (coords.inside_board())` loop of `mark_captured_cells`. -/
def mark_loop (b : Board) (iterator : cartesian_coords → cartesian_coords) :
    Nat → cartesian_coords → bitmap → Option bitmap
  | 0, _, _ => none
  | fuel + 1, coords, cells =>
    if coords.inside_board b then
      let index := (coords.to_hexagonal b).to_index b
      mark_loop b iterator fuel (iterator coords) (cells.set_bit index)
    else
      some cells

/-- The method `board_state::mark_captured_cells`. -/
def board_state.mark_captured_cells (b : Board) (fuel : Nat) (st : board_state)
    (initial : cartesian_coords) (iterator : cartesian_coords → cartesian_coords) :
    Option board_state :=
  match mark_loop b iterator fuel (iterator initial) st.cells with
  | none => none
  | some cells => some { st with cells := cells }

/-- The lambda of the `up` ray. -/
def ray_up (c : cartesian_coords) : cartesian_coords := ⟨c.x, uint_sub c.y 2⟩
/-- The lambda of the `down` ray. -/
def ray_down (c : cartesian_coords) : cartesian_coords := ⟨c.x, uint_add c.y 2⟩
/-- The lambda of the `left` ray. -/
def ray_left (c : cartesian_coords) : cartesian_coords := ⟨uint_sub c.x 2, c.y⟩
/-- The lambda of the `right` ray. -/
def ray_right (c : cartesian_coords) : cartesian_coords := ⟨uint_add c.x 2, c.y⟩
/-- The lambda of the major diagonal `up-left`. -/
def major_up_left (c : cartesian_coords) : cartesian_coords := ⟨uint_sub c.x 1, uint_sub c.y 1⟩
/-- The lambda of the major diagonal `up-right`. -/
def major_up_right (c : cartesian_coords) : cartesian_coords := ⟨uint_add c.x 1, uint_sub c.y 1⟩
/-- The lambda of the major diagonal `down-left`. -/
def major_down_left (c : cartesian_coords) : cartesian_coords := ⟨uint_sub c.x 1, uint_add c.y 1⟩
/-- The lambda of the major diagonal `down-right`. -/
def major_down_right (c : cartesian_coords) : cartesian_coords :=
  ⟨uint_add c.x 1, uint_add c.y 1⟩
/-- The lambda of the minor diagonal `up-left`. -/
def minor_up_left (c : cartesian_coords) : cartesian_coords := ⟨uint_sub c.x 1, uint_sub c.y 3⟩
/-- The lambda of the minor diagonal `up-right`. -/
def minor_up_right (c : cartesian_coords) : cartesian_coords := ⟨uint_add c.x 1, uint_sub c.y 3⟩
/-- The lambda of the minor diagonal `down-left`. -/
def minor_down_left (c : cartesian_coords) : cartesian_coords := ⟨uint_sub c.x 1, uint_add c.y 3⟩
/-- The lambda of the minor diagonal `down-right`. -/
def minor_down_right (c : cartesian_coords) : cartesian_coords :=
  ⟨uint_add c.x 1, uint_add c.y 3⟩

/-- The loop of `board_state::advance_index` after the first increment. -/
def advance_loop (b : Board) : Nat → board_state → Option board_state
  | 0, _ => none
  | fuel + 1, st =>
    if st.index < b.cell_count && st.cells.get_bit st.index then
      advance_loop b fuel { st with index := uint_add st.index 1 }
    else
      some st

/-- The method `board_state::advance_index`. -/
def board_state.advance_index (b : Board) (fuel : Nat) (st : board_state) :
    Option board_state :=
  advance_loop b fuel { st with index := uint_add st.index 1 }

/-- The twelve ray walks of `place_queen`, in the order of the source. -/
def board_state.mark_all (b : Board) (fuel : Nat) (st : board_state)
    (queen_coords : cartesian_coords) : Option board_state := do
  let st ← st.mark_captured_cells b fuel queen_coords ray_up
  let st ← st.mark_captured_cells b fuel queen_coords ray_down
  let st ← st.mark_captured_cells b fuel queen_coords ray_left
  let st ← st.mark_captured_cells b fuel queen_coords ray_right
  let st ← st.mark_captured_cells b fuel queen_coords major_up_left
  let st ← st.mark_captured_cells b fuel queen_coords major_up_right
  let st ← st.mark_captured_cells b fuel queen_coords major_down_left
  let st ← st.mark_captured_cells b fuel queen_coords major_down_right
  let st ← st.mark_captured_cells b fuel queen_coords minor_up_left
  let st ← st.mark_captured_cells b fuel queen_coords minor_up_right
  let st ← st.mark_captured_cells b fuel queen_coords minor_down_left
  st.mark_captured_cells b fuel queen_coords minor_down_right

/-- The method `board_state::place_queen`. -/
def board_state.place_queen (b : Board) (fuel : Nat) (st : board_state) :
    Option board_state := do
  let st : board_state := { st with queens := st.queens ++ [st.index] }
  let st : board_state := { st with cells := st.cells.set_bit st.index }
  let h ← from_index b fuel st.index
  let queen_coords := h.to_cartesian b
  let st ← st.mark_all b fuel queen_coords
  st.advance_index b fuel

/-! ## Backtracking engine -/

/-- The two ways `solve` ends. -/
inductive outcome where
  /-- The exit `Solved!`, with the queens of the state that is printed. -/
  | solved (queens : List Nat)
  /-- The exit `No solution!`. -/
  | no_solution
deriving DecidableEq

/-- The `while (stack.size() > 0)` loop of `solve`; the head of the list is the top of the
stack. The loops inside one iteration run on the fuel `inner`. -/
def solve_loop (b : Board) (inner : Nat) : Nat → List board_state → Option outcome
  | 0, _ => none
  | _ + 1, [] => some outcome.no_solution
  | fuel + 1, st :: rest =>
    if st.index ≥ b.cell_count then
      match rest with
      | [] => solve_loop b inner fuel []
      | top :: below =>
        match top.advance_index b inner with
        | none => none
        | some top => solve_loop b inner fuel (top :: below)
    else
      match st.place_queen b inner with
      | none => none
      | some new_state =>
        if new_state.queens.length = b.horizontal_size then
          some (outcome.solved new_state.queens)
        else
          solve_loop b inner fuel (new_state :: st :: rest)

/-- The empty state `board_state{}` pushed first. -/
def board_state.empty (b : Board) : board_state := ⟨[], bitmap.new b, 0⟩

/-- The function `solve`. -/
def solve (fuel size : Nat) : Option outcome :=
  let b := make_board size
  solve_loop b fuel fuel [board_state.empty b]

/-! ## Specification-level notions -/

/-- The number of cells of column `x` on a board of size `n + 1`. -/
def col_count (n x : Nat) : Nat := n + 1 + n - ((n - x) + (x - n))

/-- The number of cells in the columns left of column `c` on a board of size `n + 1`. -/
def cum (n : Nat) : Nat → Nat
  | 0 => 0
  | c + 1 => cum n c + col_count n c

/-- A lattice point that is a cell of the board of size `n + 1`: it lies in the hexagon and
has the parity of the cells. -/
def is_cell (n : Nat) (c : cartesian_coords) : Prop :=
  c.x ≤ 2 * n ∧ (c.x + c.y + n) % 2 = 0 ∧ n ≤ c.x + c.y ∧ c.x + c.y ≤ 5 * n ∧
    c.x ≤ c.y + n ∧ c.y ≤ c.x + 3 * n

/-- The lattice coordinates of a linear index: `from_index` returns hexagonal coordinates
whose conversion to lattice coordinates is `c`. -/
def lattice_of (b : Board) (index : Nat) (c : cartesian_coords) : Prop :=
  ∃ fuel h, from_index b fuel index = some h ∧ h.to_cartesian b = c

/-- The twelve step vectors of a queen. -/
def steps : List (Int × Int) :=
  [(0, -2), (0, 2), (-2, 0), (2, 0), (-1, -1), (1, -1), (-1, 1), (1, 1),
   (-1, -3), (1, -3), (-1, 3), (1, 3)]

/-- The cells `i` and `j` attack each other: the difference of their lattice coordinates is a
positive multiple of a step vector. -/
def attacks (b : Board) (i j : Nat) : Prop :=
  ∃ ci cj, lattice_of b i ci ∧ lattice_of b j cj ∧
    ∃ d ∈ steps, ∃ k : Nat, 0 < k ∧
      (cj.x : Int) - ci.x = k * d.1 ∧ (cj.y : Int) - ci.y = k * d.2

/-- The round trip index, hexagonal, lattice, hexagonal, index. -/
def round_trip (b : Board) (fuel index : Nat) : Option Nat :=
  (from_index b fuel index).map
    (fun h => ((h.to_cartesian b).to_hexagonal b).to_index b)

/-- The twelve ray lambdas of `place_queen`, in the order of the source, each with the step
vector it adds. -/
def rays : List ((cartesian_coords → cartesian_coords) × (Int × Int)) :=
  [(ray_up, (0, -2)), (ray_down, (0, 2)), (ray_left, (-2, 0)), (ray_right, (2, 0)),
   (major_up_left, (-1, -1)), (major_up_right, (1, -1)),
   (major_down_left, (-1, 1)), (major_down_right, (1, 1)),
   (minor_up_left, (-1, -3)), (minor_up_right, (1, -3)),
   (minor_down_left, (-1, 3)), (minor_down_right, (1, 3))]

/-- The linear index that `mark_captured_cells` computes at the lattice coordinate `c`. -/
def index_at (b : Board) (c : cartesian_coords) : Nat := (c.to_hexagonal b).to_index b

/-- The bitmap after `set_bit` of each index of the list in turn. -/
def set_bits (cells : bitmap) (l : List Nat) : bitmap := l.foldl bitmap.set_bit cells

/-- The indices at the first `m` coordinates `c, iterator c, iterator (iterator c), ...`. -/
def visited (b : Board) (iterator : cartesian_coords → cartesian_coords)
    (c : cartesian_coords) (m : Nat) : List Nat :=
  (List.range m).map (fun i => index_at b (iterator^[i] c))

/-- The state `res` is `st` with more bits set, each new bit being a cell attacked by `q`. -/
def marks_only (b : Board) (q : Nat) (st res : board_state) : Prop :=
  res.queens = st.queens ∧ res.index = st.index ∧
  res.cells._data.length = st.cells._data.length ∧
  (∀ j, st.cells.get_bit j = true → res.cells.get_bit j = true) ∧
  (∀ j, res.cells.get_bit j = true → st.cells.get_bit j = true ∨
    (j < b.cell_count ∧ attacks b q j))

/-- What holds of every state on the stack of `solve` for size `n + 1`: fewer queens than
columns, queens and cursor within the cells, and every set bit is a queen or a cell attacked
by a queen of the state. -/
def state_ok (n : Nat) (st : board_state) : Prop :=
  st.queens.length < 2 * n + 1 ∧ (∀ q, q ∈ st.queens → q < 3 * (n + 1) * n + 1) ∧
  st.index ≤ 3 * (n + 1) * n + 1 ∧
  (∀ j, st.cells.get_bit j = true →
    j ∈ st.queens ∨ ∃ q, q ∈ st.queens ∧ attacks (make_board (n + 1)) q j)

/-- The invariant of the stack of `solve` for size `n + 1`: every state is as `state_ok`
says, and every state below the top has its cursor on a cell. -/
def stack_inv (n : Nat) (stack : List board_state) : Prop :=
  (∀ st, st ∈ stack → state_ok n st) ∧
  (∀ st, st ∈ stack.tail → st.index < 3 * (n + 1) * n + 1)

/-- The weight of a cursor position in the termination measure. -/
def weight (N i : Nat) : Nat := 3 ^ (N + 1 - i)

/-- The termination measure of the stack of `solve`. -/
def stack_measure (N : Nat) : List board_state → Nat
  | [] => 0
  | top :: rest => weight N top.index + (rest.map (fun s => weight N (s.index + 1))).sum

/-- A placement of one queen per column: `horizontal_size` cells of the board, no two of
which attack each other. -/
def is_solution (b : Board) (P : Finset Nat) : Prop :=
  P.card = b.horizontal_size ∧ (∀ p, p ∈ P → p < b.cell_count) ∧
  (∀ p, p ∈ P → ∀ q, q ∈ P → p ≠ q → ¬ attacks b p q)

/-- The set `P` contains the queens of `st`, and its other cells are at `lo` or after. -/
def extends_from (st : board_state) (lo : Nat) (P : Finset Nat) : Prop :=
  (∀ q, q ∈ st.queens → q ∈ P) ∧ (∀ p, p ∈ P → p ∉ st.queens → lo ≤ p)

/-- The set `P` is still ahead of the search: it extends the top state from its cursor on, or
a state below the top from the cell after its cursor on. -/
def tracked (stack : List board_state) (P : Finset Nat) : Prop :=
  match stack with
  | [] => False
  | top :: rest =>
    extends_from top top.index P ∨ ∃ st, st ∈ rest ∧ extends_from st (st.index + 1) P

/-- The numerator of the lattice-to-hexagonal conversion, as `to_hexagonal` computes it. -/
def to_hexagonal_numerator (b : Board) (c : cartesian_coords) : Nat :=
  uint_sub (uint_sub (uint_mul b.size_minus_1 4) (abs_of_diff c.x b.size_minus_1)) c.y

/-- What one iteration of the loop of `solve` does: it ends the loop with an outcome, or it
leaves a stack for the next iteration. -/
inductive step_result where
  /-- The loop ends (`return` or the loop condition fails). -/
  | finished (out : outcome)
  /-- The loop goes on with this stack. -/
  | next (stack : List board_state)
deriving DecidableEq

/-- The body of the `while (stack.size() > 0)` loop of `solve`, as one step on the stack; on
the empty stack the loop condition fails and `solve` prints `No solution!`. -/
def solve_step (b : Board) (inner : Nat) : List board_state → Option step_result
  | [] => some (step_result.finished outcome.no_solution)
  | st :: rest =>
    if st.index ≥ b.cell_count then
      match rest with
      | [] => some (step_result.next [])
      | top :: below =>
        match top.advance_index b inner with
        | none => none
        | some top => some (step_result.next (top :: below))
    else
      match st.place_queen b inner with
      | none => none
      | some new_state =>
        if new_state.queens.length = b.horizontal_size then
          some (step_result.finished (outcome.solved new_state.queens))
        else
          some (step_result.next (new_state :: st :: rest))

/-- The stack of `solve` after `k` iterations of its loop, when the loop runs that long. -/
def stack_after (b : Board) (inner : Nat) : Nat → Option (List board_state)
  | 0 => some [board_state.empty b]
  | k + 1 =>
    match stack_after b inner k with
    | none => none
    | some stack =>
      match solve_step b inner stack with
      | some (step_result.next stack2) => some stack2
      | _ => none

/-- The shape of one state of the stack for size `n + 1`: the queens are strictly
increasing, each of them is on a cell, below the cursor and has its bit set; the bitmap has
the allocated length; the cursor is at most the cell count and, when below it, rests on a
clear bit. -/
def state_shape (n : Nat) (st : board_state) : Prop :=
  List.Pairwise (fun a b => a < b) st.queens ∧
  (∀ q, q ∈ st.queens →
    q < st.index ∧ q < 3 * (n + 1) * n + 1 ∧ st.cells.get_bit q = true) ∧
  st.cells._data.length = (bitmap.new (make_board (n + 1)))._data.length ∧
  st.index ≤ 3 * (n + 1) * n + 1 ∧
  (st.index < 3 * (n + 1) * n + 1 → st.cells.get_bit st.index = false)

/-- The shape of the stack for size `n + 1` (top first): every state is as `state_shape`
says and has as many queens as there are states below it, and the queens of a state are those
of the state below it followed by the cursor of the state below it, which is on a cell. -/
def stack_shape (n : Nat) : List board_state → Prop
  | [] => True
  | st :: rest =>
    state_shape n st ∧ st.queens.length = rest.length ∧
    (∀ s, rest.head? = some s →
      st.queens = s.queens ++ [s.index] ∧ s.index < 3 * (n + 1) * n + 1) ∧
    stack_shape n rest

/-- A solution as a list: `horizontal_size` strictly increasing linear indices of cells, no
two of which attack each other. -/
def is_solution_list (b : Board) (p : List Nat) : Prop :=
  p.length = b.horizontal_size ∧ List.Pairwise (fun x y => x < y) p ∧
  (∀ x, x ∈ p → x < b.cell_count) ∧
  (∀ x, x ∈ p → ∀ y, y ∈ p → x ≠ y → ¬ attacks b x y)

/-- The list `p` starts with the queens of `st` and goes on with cells at `lo` or after. -/
def ahead (st : board_state) (lo : Nat) (p : List Nat) : Prop :=
  ∃ t, p = st.queens ++ t ∧ ∀ x, x ∈ t → lo ≤ x

/-- The list `p` is still ahead of the search: it continues the top state from its cursor
on, or a state below the top from the cell after its cursor on. -/
def tracked_list (stack : List board_state) (p : List Nat) : Prop :=
  match stack with
  | [] => False
  | top :: rest => ahead top top.index p ∨ ∃ s, s ∈ rest ∧ ahead s (s.index + 1) p

/-- Whether `cj - ci` is `k` times the step `d` for some `k` from 1 up to the sum of the
coordinates (a multiple of a step is at least as long as its factor). -/
def attack_step (ci cj : cartesian_coords) (d : Int × Int) : Bool :=
  (List.range (ci.x + ci.y + cj.x + cj.y + 1)).any (fun k =>
    decide (0 < k ∧ (cj.x : Int) - ci.x = k * d.1 ∧ (cj.y : Int) - ci.y = k * d.2))

/-- Whether two lattice coordinates differ by a positive multiple of a step vector. -/
def attack_coords (ci cj : cartesian_coords) : Bool := steps.any (attack_step ci cj)

/-- Whether the cells `i` and `j` attack each other, computed from `from_index`. -/
def attack_index (b : Board) (fuel i j : Nat) : Bool :=
  match from_index b fuel i, from_index b fuel j with
  | some hi, some hj => attack_coords (hi.to_cartesian b) (hj.to_cartesian b)
  | _, _ => false

/-! ## Machine arithmetic without overflow -/

theorem uint_add_eq {a b : Nat} (h : a + b < 4294967296) : uint_add a b = a + b := by
  unfold uint_add UINT_MOD; omega

theorem uint_sub_eq {a b : Nat} (h : b ≤ a) (ha : a < 4294967296) : uint_sub a b = a - b := by
  unfold uint_sub UINT_MOD; omega

theorem uint_mul_eq {a b : Nat} (h : a * b < 4294967296) : uint_mul a b = a * b := by
  unfold uint_mul UINT_MOD; exact Nat.mod_eq_of_lt h

theorem abs_of_diff_eq {a b : Nat} (ha : a < 4294967296) (hb : b < 4294967296) :
    abs_of_diff a b = (a - b) + (b - a) := by
  unfold abs_of_diff
  split
  · rw [uint_sub_eq (by omega) ha]; omega
  · rw [uint_sub_eq (by omega) hb]; omega

theorem to_int_eq {a : Nat} (h : a < 2147483648) : to_int a = (a : Int) := by
  unfold to_int; rw [if_pos h]

theorem to_uint_cast {a : Nat} (h : a < 4294967296) : to_uint (a : Int) = a := by
  unfold to_uint
  have : ((a : Int) % 4294967296) = (a : Int) := Int.emod_eq_of_lt (by omega) (by omega)
  rw [this]; exact Int.toNat_natCast a

theorem size_bound {n : Nat} (h : 3 * (n + 1) * n + 1 < 4294967296) : n < 37837 := by
  by_contra hc
  have h1 : 37837 ≤ n := by omega
  have h2 : 37837 * 37837 ≤ n * n := Nat.mul_le_mul h1 h1
  have h3 : 3 * (n + 1) * n = 3 * (n * n) + 3 * n := by ring
  omega

/-! ## The cumulative table -/

theorem col_count_pos (n x : Nat) (hx : x ≤ 2 * n) : 1 ≤ col_count n x := by
  unfold col_count; omega

theorem col_count_le (n x : Nat) : col_count n x ≤ 2 * n + 1 := by
  unfold col_count; omega

theorem cum_succ (n c : Nat) : cum n (c + 1) = cum n c + col_count n c := rfl

theorem cum_mono (n : Nat) {c d : Nat} (h : c ≤ d) : cum n c ≤ cum n d := by
  induction d with
  | zero => have : c = 0 := by omega
            subst this; exact le_refl _
  | succ d ih =>
    rcases Nat.lt_or_ge c (d + 1) with h1 | h1
    · have := ih (by omega)
      rw [cum_succ]; omega
    · have : c = d + 1 := by omega
      subst this; exact le_refl _

theorem cum_lt (n : Nat) {c d : Nat} (h : c < d) (hd : d ≤ 2 * n + 1) : cum n c < cum n d := by
  have h1 : cum n (c + 1) ≤ cum n d := cum_mono n h
  have h2 := col_count_pos n c (by omega)
  rw [cum_succ] at h1; omega

theorem cum_low (n c : Nat) (hc : c ≤ n + 1) : 2 * cum n c + c = 2 * c * (n + 1) + c * c := by
  induction c with
  | zero => simp [cum]
  | succ c ih =>
    have h := ih (by omega)
    have hcc : col_count n c = n + 1 + c := by
      unfold col_count; omega
    rw [cum_succ, hcc]
    have e1 : 2 * (c + 1) * (n + 1) + (c + 1) * (c + 1)
        = 2 * c * (n + 1) + c * c + (2 * (n + 1) + 2 * c + 1) := by ring
    omega

theorem cum_high (n j : Nat) (hj : j ≤ n) :
    2 * cum n (n + 1 + j) + j * j = (n + 1) * (3 * n + 2) + 4 * n * j + j := by
  induction j with
  | zero =>
    have h := cum_low n (n + 1) (le_refl _)
    have e1 : 2 * (n + 1) * (n + 1) + (n + 1) * (n + 1) = (n + 1) * (3 * n + 2) + (n + 1) := by
      ring
    simp only [Nat.add_zero, Nat.mul_zero]
    omega
  | succ j ih =>
    have h := ih (by omega)
    have hcc : col_count n (n + 1 + j) = 2 * n - j := by
      unfold col_count; omega
    have e0 : n + 1 + (j + 1) = (n + 1 + j) + 1 := by omega
    rw [e0, cum_succ, hcc]
    have e1 : (j + 1) * (j + 1) = j * j + 2 * j + 1 := by ring
    have e2 : 4 * n * (j + 1) = 4 * n * j + 4 * n := by ring
    omega

theorem cum_total (n : Nat) : cum n (2 * n + 1) = 3 * (n + 1) * n + 1 := by
  have h := cum_high n n (le_refl _)
  have e0 : n + 1 + n = 2 * n + 1 := by omega
  rw [e0] at h
  have e1 : (n + 1) * (3 * n + 2) + 4 * n * n + n = 2 * (3 * (n + 1) * n + 1) + n * n := by ring
  omega

theorem cum_le_total (n c : Nat) (hc : c ≤ 2 * n + 1) : cum n c ≤ 3 * (n + 1) * n + 1 := by
  rw [← cum_total n]; exact cum_mono n hc

theorem cumulative_loop_length (s s1 : Nat) :
    ∀ (m x t : Nat) (v : List Nat), (cumulative_loop s s1 m x t v).length = v.length := by
  intro m
  induction m with
  | zero => intro x t v; rfl
  | succ m ih => intro x t v; simp only [cumulative_loop, ih, List.length_set]

theorem cumulative_loop_get (n : Nat) (hfit : 3 * (n + 1) * n + 1 < 4294967296) :
    ∀ (m x : Nat) (v : List Nat), x + m = 2 * n + 1 → v.length = 2 * n + 2 →
      ∀ i, i < 2 * n + 2 →
        (cumulative_loop (n + 1) n m x (cum n x) v)[i]? =
          if i ≤ x then v[i]? else some (cum n i) := by
  have hn := size_bound hfit
  intro m
  induction m with
  | zero =>
    intro x v hx hv i hi
    simp only [cumulative_loop]
    rw [if_pos (by omega)]
  | succ m ih =>
    intro x v hx hv i hi
    have hcc : uint_sub (uint_add (n + 1) n) (abs_of_diff n x) = col_count n x := by
      rw [uint_add_eq (by omega), abs_of_diff_eq (by omega) (by omega)]
      unfold col_count
      exact uint_sub_eq (by omega) (by omega)
    have hle := cum_le_total n (x + 1) (by omega)
    rw [cum_succ] at hle
    have hsum : uint_add (cum n x) (col_count n x) = cum n (x + 1) := by
      rw [cum_succ]; exact uint_add_eq (by omega)
    have hx1 : uint_add x 1 = x + 1 := uint_add_eq (by omega)
    simp only [cumulative_loop, hcc, hsum, hx1]
    rw [ih (x + 1) _ (by omega) (by simp [hv]) i hi]
    by_cases h1 : i ≤ x
    · rw [if_pos (by omega), if_pos h1, List.getElem?_set_ne (by omega)]
    · by_cases h2 : i = x + 1
      · subst h2
        rw [if_pos (le_refl _), if_neg h1, List.getElem?_set_self (by omega)]
      · rw [if_neg (by omega), if_neg h1]

/-- The board constants in closed form, for size `n + 1`. -/
theorem make_board_eq (n : Nat) (hfit : 3 * (n + 1) * n + 1 < 4294967296) :
    make_board (n + 1) =
      { size := n + 1
        size_minus_1 := n
        horizontal_size := 2 * n + 1
        cartesian_max_y := 4 * n
        cell_count := 3 * (n + 1) * n + 1
        borders := { x_plus_y_max := 5 * n, x_minus_y_min := -(3 * (n : Int)) }
        cumulative_cell_count := (List.range (2 * n + 2)).map (cum n) } := by
  have hn := size_bound hfit
  have e1 : uint_sub (n + 1) 1 = n := by rw [uint_sub_eq (by omega) (by omega)]; omega
  have e2 : uint_mul (n + 1) 2 = 2 * n + 2 := by rw [uint_mul_eq (by omega)]; omega
  have e3 : uint_sub (2 * n + 2) 1 = 2 * n + 1 := by
    rw [uint_sub_eq (by omega) (by omega)]; omega
  have e4 : uint_mul n 4 = 4 * n := by rw [uint_mul_eq (by omega)]; omega
  have e5 : uint_mul 3 (n + 1) = 3 * (n + 1) := uint_mul_eq (by omega)
  have e6 : uint_mul (3 * (n + 1)) n = 3 * (n + 1) * n := uint_mul_eq (by omega)
  have e7 : uint_add (3 * (n + 1) * n) 1 = 3 * (n + 1) * n + 1 := uint_add_eq (by omega)
  have e8 : uint_add (4 * n) n = 5 * n := by rw [uint_add_eq (by omega)]; omega
  have e9 : to_int n - to_int (4 * n) = -(3 * (n : Int)) := by
    unfold to_int; rw [if_pos (by omega), if_pos (by omega)]; push_cast; ring
  have e10 : calculate_cumulative_cell_count (n + 1) n (2 * n + 1)
      = (List.range (2 * n + 2)).map (cum n) := by
    unfold calculate_cumulative_cell_count
    have hlen : uint_add (2 * n + 1) 1 = 2 * n + 2 := uint_add_eq (by omega)
    rw [hlen]
    apply List.ext_getElem?
    intro i
    by_cases hi : i < 2 * n + 2
    · have h0 : cum n 0 = 0 := rfl
      have := cumulative_loop_get n hfit (2 * n + 1) 0 (List.replicate (2 * n + 2) 0)
        (by omega) (by simp) i hi
      rw [h0] at this
      rw [this]
      by_cases hz : i = 0
      · subst hz; simp [cum]
      · rw [if_neg (by omega)]
        simp [List.getElem?_map, List.getElem?_range hi]
    · rw [List.getElem?_eq_none (by simp [cumulative_loop_length]; omega),
        List.getElem?_eq_none (by simp; omega)]
  simp only [make_board, e1, e2, e3, e4, e5, e6, e7, e8, e9, e10]

/-! ## Board fields in closed form -/

theorem board_size_minus_1 {n : Nat} (hfit : 3 * (n + 1) * n + 1 < 4294967296) : (make_board (n + 1)).size_minus_1 = n := by
  rw [make_board_eq n hfit]

theorem board_horizontal_size {n : Nat} (hfit : 3 * (n + 1) * n + 1 < 4294967296) : (make_board (n + 1)).horizontal_size = 2 * n + 1 := by
  rw [make_board_eq n hfit]

theorem board_cartesian_max_y {n : Nat} (hfit : 3 * (n + 1) * n + 1 < 4294967296) : (make_board (n + 1)).cartesian_max_y = 4 * n := by
  rw [make_board_eq n hfit]

theorem board_cell_count {n : Nat} (hfit : 3 * (n + 1) * n + 1 < 4294967296) : (make_board (n + 1)).cell_count = 3 * (n + 1) * n + 1 := by
  rw [make_board_eq n hfit]

theorem board_x_plus_y_max {n : Nat} (hfit : 3 * (n + 1) * n + 1 < 4294967296) : (make_board (n + 1)).borders.x_plus_y_max = 5 * n := by
  rw [make_board_eq n hfit]

theorem board_x_minus_y_min {n : Nat} (hfit : 3 * (n + 1) * n + 1 < 4294967296) :
    (make_board (n + 1)).borders.x_minus_y_min = -(3 * (n : Int)) := by
  rw [make_board_eq n hfit]

theorem board_table {n : Nat} (hfit : 3 * (n + 1) * n + 1 < 4294967296) :
    (make_board (n + 1)).cumulative_cell_count = (List.range (2 * n + 2)).map (cum n) := by
  rw [make_board_eq n hfit]

theorem board_table_get {n : Nat} (hfit : 3 * (n + 1) * n + 1 < 4294967296) (i : Nat) (hi : i < 2 * n + 2) :
    (make_board (n + 1)).cumulative_cell_count[i]? = some (cum n i) := by
  rw [board_table hfit]
  simp [List.getElem?_map, List.getElem?_range hi]

theorem board_table_getD {n : Nat} (hfit : 3 * (n + 1) * n + 1 < 4294967296) (i : Nat) (hi : i < 2 * n + 2) :
    (make_board (n + 1)).cumulative_cell_count.getD i 0 = cum n i := by
  rw [List.getD_eq_getElem?_getD, board_table_get hfit i hi]
  rfl


/-! ## The binary search of `from_index` -/

theorem from_index_loop_mono (b : Board) (index : Nat) :
    ∀ (fuel k left right : Nat) (r : lookup),
      from_index_loop b index fuel left right = some r →
      from_index_loop b index (fuel + k) left right = some r := by
  intro fuel
  induction fuel with
  | zero => intro k left right r h; simp [from_index_loop] at h
  | succ fuel ih =>
    intro k left right r h
    have e : fuel + 1 + k = (fuel + k) + 1 := by omega
    rw [e]
    simp only [from_index_loop] at h ⊢
    split
    · rename_i hlr
      rw [if_pos hlr] at h
      split
      · rename_i hm; rw [hm] at h; exact h
      · rename_i value hm
        rw [hm] at h
        simp only at h ⊢
        split
        · rename_i hlt; rw [if_pos hlt] at h; exact ih _ _ _ _ h
        · rename_i hlt
          rw [if_neg hlt] at h
          split
          · rename_i hm2; rw [hm2] at h; exact h
          · rename_i next hm2
            rw [hm2] at h
            simp only at h ⊢
            split
            · rename_i hge; rw [if_pos hge] at h; exact ih _ _ _ _ h
            · rename_i hge; rw [if_neg hge] at h; exact h
    · rename_i hlr
      rw [if_neg hlr] at h; exact h

/-- Every index below the cell count lies in the range of one column. -/
theorem column_exists (n : Nat) :
    ∀ (m index : Nat), index < cum n m → ∃ c, c < m ∧ cum n c ≤ index ∧ index < cum n (c + 1) := by
  intro m
  induction m with
  | zero => intro index h; simp [cum] at h
  | succ m ih =>
    intro index h
    by_cases h1 : index < cum n m
    · obtain ⟨c, hc, h2, h3⟩ := ih index h1
      exact ⟨c, by omega, h2, h3⟩
    · exact ⟨m, by omega, by omega, h⟩

theorem column_unique (n : Nat) {c d index : Nat}
    (h1 : cum n c ≤ index) (h2 : index < cum n (c + 1))
    (h3 : cum n d ≤ index) (h4 : index < cum n (d + 1)) : c = d := by
  rcases Nat.lt_trichotomy c d with h | h | h
  · have := cum_mono n (show c + 1 ≤ d by omega); omega
  · exact h
  · have := cum_mono n (show d + 1 ≤ c by omega); omega

theorem from_index_loop_correct {n : Nat} (hfit : 3 * (n + 1) * n + 1 < 4294967296)
    (index c : Nat) (hc : c ≤ 2 * n) (h1 : cum n c ≤ index) (h2 : index < cum n (c + 1)) :
    ∀ (fuel left right : Nat), left ≤ c → c ≤ right → right ≤ 2 * n + 1 →
      right - left < fuel →
      from_index_loop (make_board (n + 1)) index fuel left right
        = some (lookup.found ⟨c, index - cum n c⟩) := by
  have hn := size_bound hfit
  have htot := cum_le_total n (c + 1) (by omega)
  intro fuel
  induction fuel with
  | zero => intro left right _ _ _ hf; omega
  | succ fuel ih =>
    intro left right hl hr hr2 hf
    rw [from_index_loop, if_pos (by omega)]
    have hmid : (left + right) % SIZE_MOD / 2 = (left + right) / 2 := by
      unfold SIZE_MOD; omega
    rw [hmid]
    dsimp only
    have hm1 : (left + right) / 2 < 2 * n + 2 := by omega
    rw [board_table_get hfit _ hm1]
    simp only
    by_cases hlt : index < cum n ((left + right) / 2)
    · rw [if_pos hlt]
      have hcm : c < (left + right) / 2 := by
        by_contra hcon
        have := cum_mono n (show (left + right) / 2 ≤ c by omega)
        omega
      have e : ((left + right) / 2 + SIZE_MOD - 1) % SIZE_MOD = (left + right) / 2 - 1 := by
        unfold SIZE_MOD; omega
      rw [e]
      exact ih _ _ hl (by omega) (by omega) (by omega)
    · rw [if_neg hlt]
      have hm2 : (left + right) / 2 ≤ 2 * n := by
        by_contra hcon
        have := cum_mono n (show c + 1 ≤ (left + right) / 2 by omega)
        omega
      have e : ((left + right) / 2 + 1) % SIZE_MOD = (left + right) / 2 + 1 := by
        unfold SIZE_MOD; omega
      rw [e, board_table_get hfit _ (by omega)]
      simp only
      by_cases hge : index ≥ cum n ((left + right) / 2 + 1)
      · rw [if_pos hge]
        have hcm : (left + right) / 2 < c := by
          by_contra hcon
          have := cum_mono n (show c + 1 ≤ (left + right) / 2 + 1 by omega)
          omega
        exact ih _ _ (by omega) hr hr2 (by omega)
      · rw [if_neg hge]
        have hceq : (left + right) / 2 = c :=
          column_unique n (by omega) (by omega) h1 h2
        have e2 : (left + right) / 2 % UINT_MOD = (left + right) / 2 := by
          unfold UINT_MOD; omega
        rw [e2, hceq, uint_sub_eq h1 (by omega)]

/-- With fuel for one pass over the columns `from_index` returns the column of the index and
the offset inside it. -/
theorem from_index_eq {n : Nat} (hfit : 3 * (n + 1) * n + 1 < 4294967296)
    (index c : Nat) (hc : c ≤ 2 * n) (h1 : cum n c ≤ index) (h2 : index < cum n (c + 1))
    (fuel : Nat) (hf : 2 * n + 2 ≤ fuel) :
    from_index (make_board (n + 1)) fuel index = some ⟨c, index - cum n c⟩ := by
  unfold from_index from_index_search
  rw [board_horizontal_size hfit,
    from_index_loop_correct hfit index c hc h1 h2 fuel 0 (2 * n + 1) (by omega) (by omega)
      (by omega) (by omega)]

theorem from_index_mono (b : Board) (fuel k index : Nat) (h : hexagonal_coords)
    (hr : from_index b fuel index = some h) : from_index b (fuel + k) index = some h := by
  unfold from_index from_index_search at hr ⊢
  cases hs : from_index_loop b index fuel 0 b.horizontal_size with
  | none => rw [hs] at hr; simp at hr
  | some r =>
    rw [from_index_loop_mono b index fuel k _ _ r hs]
    rw [hs] at hr
    exact hr

/-- Whatever fuel `from_index` returns with, it returns the column and offset of the index. -/
theorem from_index_some {n : Nat} (hfit : 3 * (n + 1) * n + 1 < 4294967296)
    (index c : Nat) (hc : c ≤ 2 * n) (h1 : cum n c ≤ index) (h2 : index < cum n (c + 1))
    (fuel : Nat) (h : hexagonal_coords)
    (hr : from_index (make_board (n + 1)) fuel index = some h) :
    h = ⟨c, index - cum n c⟩ := by
  have e1 := from_index_mono _ fuel (2 * n + 2) index h hr
  rw [from_index_eq hfit index c hc h1 h2 _ (by omega)] at e1
  exact (Option.some.inj e1).symm

/-! ## Coordinate conversions -/

theorem to_cartesian_eq {n : Nat} (hfit : 3 * (n + 1) * n + 1 < 4294967296)
    (c r : Nat) (hc : c ≤ 2 * n) (hr : r < col_count n c) :
    (⟨c, r⟩ : hexagonal_coords).to_cartesian (make_board (n + 1))
      = ⟨c, 4 * n - ((c - n) + (n - c)) - 2 * r⟩ := by
  have hn := size_bound hfit
  unfold col_count at hr
  unfold hexagonal_coords.to_cartesian
  rw [board_size_minus_1 hfit]
  dsimp only
  have e1 : uint_sub (n * 4) (c - n + (n - c)) = n * 4 - (c - n + (n - c)) :=
    uint_sub_eq (by omega) (by omega)
  rw [uint_mul_eq (by omega), abs_of_diff_eq (by omega) (by omega),
    uint_mul_eq (by omega), e1, uint_sub_eq (by omega) (by omega)]
  congr 1; omega

theorem to_cartesian_is_cell (n c r : Nat) (hc : c ≤ 2 * n) (hr : r < col_count n c) :
    is_cell n ⟨c, 4 * n - ((c - n) + (n - c)) - 2 * r⟩ := by
  unfold col_count at hr
  unfold is_cell
  dsimp only
  omega

theorem to_hexagonal_eq {n : Nat} (hfit : 3 * (n + 1) * n + 1 < 4294967296)
    (c : cartesian_coords) (hcell : is_cell n c) :
    c.to_hexagonal (make_board (n + 1))
      = ⟨c.x, (4 * n - ((c.x - n) + (n - c.x)) - c.y) / 2⟩ := by
  have hn := size_bound hfit
  obtain ⟨h1, h2, h3, h4, h5, h6⟩ := hcell
  unfold cartesian_coords.to_hexagonal
  rw [board_size_minus_1 hfit]
  dsimp only
  have e1 : uint_sub (n * 4) (c.x - n + (n - c.x)) = n * 4 - (c.x - n + (n - c.x)) :=
    uint_sub_eq (by omega) (by omega)
  rw [uint_mul_eq (by omega), abs_of_diff_eq (by omega) (by omega), e1,
    uint_sub_eq (by omega) (by omega)]
  congr 2; omega

/-- The hexagonal row of a cell lies inside its column. -/
theorem cell_row_lt (n : Nat) (c : cartesian_coords) (hcell : is_cell n c) :
    (4 * n - ((c.x - n) + (n - c.x)) - c.y) / 2 < col_count n c.x := by
  obtain ⟨h1, h2, h3, h4, h5, h6⟩ := hcell
  unfold col_count
  omega

/-- The lattice coordinates of a cell are recovered from its hexagonal row. -/
theorem cell_row_back (n : Nat) (c : cartesian_coords) (hcell : is_cell n c) :
    4 * n - ((c.x - n) + (n - c.x))
      - 2 * ((4 * n - ((c.x - n) + (n - c.x)) - c.y) / 2) = c.y := by
  obtain ⟨h1, h2, h3, h4, h5, h6⟩ := hcell
  omega

theorem to_index_eq {n : Nat} (hfit : 3 * (n + 1) * n + 1 < 4294967296)
    (c r : Nat) (hc : c ≤ 2 * n) (hr : r < col_count n c) :
    (⟨c, r⟩ : hexagonal_coords).to_index (make_board (n + 1)) = cum n c + r := by
  have htot := cum_le_total n (c + 1) (by omega)
  rw [cum_succ] at htot
  unfold hexagonal_coords.to_index
  dsimp only
  rw [board_table_getD hfit c (by omega), uint_add_eq (by omega)]

theorem inside_board_iff {n : Nat} (hfit : 3 * (n + 1) * n + 1 < 4294967296)
    (c : cartesian_coords) :
    c.inside_board (make_board (n + 1)) = true ↔
      c.x ≤ 2 * n ∧ c.y ≤ 4 * n ∧ (c.x + c.y) % 2 = 1 ∧ n ≤ c.x + c.y ∧ c.x + c.y ≤ 5 * n ∧
        c.x ≤ c.y + n ∧ c.y ≤ c.x + 3 * n := by
  have hn := size_bound hfit
  unfold cartesian_coords.inside_board
  rw [board_size_minus_1 hfit, board_horizontal_size hfit, board_cartesian_max_y hfit,
    board_x_plus_y_max hfit, board_x_minus_y_min hfit]
  simp only [Bool.and_eq_true, decide_eq_true_eq]
  have key : c.x < 2 * n + 1 → c.y ≤ 4 * n →
      to_int (uint_add c.x c.y) = ((c.x + c.y : Nat) : Int) ∧
      to_uint ((c.x + c.y : Nat) : Int) = c.x + c.y ∧
      to_int c.x = (c.x : Int) ∧ to_int c.y = (c.y : Int) ∧ to_int n = (n : Int) := by
    intro h1 h2
    refine ⟨?_, to_uint_cast (by omega), to_int_eq (by omega), to_int_eq (by omega),
      to_int_eq (by omega)⟩
    rw [uint_add_eq (by omega), to_int_eq (by omega)]
  constructor
  · rintro ⟨⟨⟨⟨⟨⟨⟨⟨-, h1⟩, -⟩, h2⟩, h3⟩, h4⟩, h5⟩, h6⟩, h7⟩
    obtain ⟨e1, e2, e3, e4, e5⟩ := key h1 h2
    rw [e1] at h3 h4 h5
    rw [e2] at h4 h5
    rw [e3, e4] at h6 h7
    rw [e5] at h7
    refine ⟨?_, ?_, ?_, ?_, ?_, ?_, ?_⟩ <;> omega
  · rintro ⟨h1, h2, h3, h4, h5, h6, h7⟩
    obtain ⟨e1, e2, e3, e4, e5⟩ := key (by omega) h2
    rw [e1, e2, e3, e4, e5]
    refine ⟨⟨⟨⟨⟨⟨⟨⟨?_, ?_⟩, ?_⟩, ?_⟩, ?_⟩, ?_⟩, ?_⟩, ?_⟩, ?_⟩ <;> omega

/-- What `inside_board` accepts, at the parity of the cells, is a cell. -/
theorem is_cell_of_inside {n : Nat} (hfit : 3 * (n + 1) * n + 1 < 4294967296)
    (c : cartesian_coords) (hin : c.inside_board (make_board (n + 1)) = true)
    (hpar : (c.x + c.y + n) % 2 = 0) : is_cell n c := by
  obtain ⟨h1, h2, h3, h4, h5, h6, h7⟩ := (inside_board_iff hfit c).1 hin
  exact ⟨h1, hpar, h4, h5, h6, h7⟩

/-- On a board of even size `inside_board` accepts every cell. -/
theorem inside_of_is_cell {n : Nat} (hfit : 3 * (n + 1) * n + 1 < 4294967296)
    (c : cartesian_coords) (hcell : is_cell n c) (hodd : (c.x + c.y) % 2 = 1) :
    c.inside_board (make_board (n + 1)) = true := by
  obtain ⟨h1, h2, h3, h4, h5, h6⟩ := hcell
  exact (inside_board_iff hfit c).2 ⟨h1, by omega, hodd, h3, h4, h5, h6⟩

/-! ## Cells and linear indices -/

/-- The column and row of an index below the cell count. -/
theorem index_split (n index : Nat) (hi : index < 3 * (n + 1) * n + 1) :
    ∃ c r, c ≤ 2 * n ∧ r < col_count n c ∧ index = cum n c + r := by
  rw [← cum_total n] at hi
  obtain ⟨c, hc, h1, h2⟩ := column_exists n _ index hi
  refine ⟨c, index - cum n c, by omega, ?_, by omega⟩
  rw [cum_succ] at h2; omega

theorem from_index_split {n : Nat} (hfit : 3 * (n + 1) * n + 1 < 4294967296)
    (c r : Nat) (hc : c ≤ 2 * n) (hr : r < col_count n c) (fuel : Nat)
    (hf : 2 * n + 2 ≤ fuel) :
    from_index (make_board (n + 1)) fuel (cum n c + r) = some ⟨c, r⟩ := by
  have := from_index_eq hfit (cum n c + r) c hc (by omega) (by rw [cum_succ]; omega) fuel hf
  rw [this]; congr 2; omega

theorem from_index_split_some {n : Nat} (hfit : 3 * (n + 1) * n + 1 < 4294967296)
    (c r : Nat) (hc : c ≤ 2 * n) (hr : r < col_count n c) (fuel : Nat) (h : hexagonal_coords)
    (hres : from_index (make_board (n + 1)) fuel (cum n c + r) = some h) : h = ⟨c, r⟩ := by
  have := from_index_some hfit (cum n c + r) c hc (by omega) (by rw [cum_succ]; omega) fuel h
    hres
  rw [this]; congr 1; omega

/-- The lattice coordinates of the cell in column `c` and row `r`. -/
theorem lattice_of_split {n : Nat} (hfit : 3 * (n + 1) * n + 1 < 4294967296)
    (c r : Nat) (hc : c ≤ 2 * n) (hr : r < col_count n c) (p : cartesian_coords) :
    lattice_of (make_board (n + 1)) (cum n c + r) p ↔
      p = ⟨c, 4 * n - ((c - n) + (n - c)) - 2 * r⟩ := by
  constructor
  · rintro ⟨fuel, h, h1, h2⟩
    rw [from_index_split_some hfit c r hc hr fuel h h1, to_cartesian_eq hfit c r hc hr] at h2
    exact h2.symm
  · intro hp
    exact ⟨2 * n + 2, ⟨c, r⟩, from_index_split hfit c r hc hr _ (le_refl _),
      by rw [to_cartesian_eq hfit c r hc hr, hp]⟩

/-- The index computed from the lattice coordinates of the cell in column `c`, row `r`. -/
theorem index_of_split {n : Nat} (hfit : 3 * (n + 1) * n + 1 < 4294967296)
    (c r : Nat) (hc : c ≤ 2 * n) (hr : r < col_count n c) :
    (((⟨c, 4 * n - ((c - n) + (n - c)) - 2 * r⟩ : cartesian_coords).to_hexagonal
      (make_board (n + 1))).to_index (make_board (n + 1))) = cum n c + r := by
  have hcell := to_cartesian_is_cell n c r hc hr
  rw [to_hexagonal_eq hfit _ hcell]
  dsimp only
  have e : (4 * n - ((c - n) + (n - c)) - (4 * n - ((c - n) + (n - c)) - 2 * r)) / 2 = r := by
    unfold col_count at hr; omega
  rw [e, to_index_eq hfit c r hc hr]

/-- Every index below the cell count has lattice coordinates; they are a cell, and the
index is computed back from them. -/
theorem lattice_of_index {n : Nat} (hfit : 3 * (n + 1) * n + 1 < 4294967296)
    (index : Nat) (hi : index < 3 * (n + 1) * n + 1) :
    ∃ p, lattice_of (make_board (n + 1)) index p ∧ is_cell n p ∧
      (p.to_hexagonal (make_board (n + 1))).to_index (make_board (n + 1)) = index := by
  obtain ⟨c, r, hc, hr, rfl⟩ := index_split n index hi
  exact ⟨_, (lattice_of_split hfit c r hc hr _).2 rfl, to_cartesian_is_cell n c r hc hr,
    index_of_split hfit c r hc hr⟩

theorem lattice_of_unique {n : Nat} (hfit : 3 * (n + 1) * n + 1 < 4294967296)
    (index : Nat) (hi : index < 3 * (n + 1) * n + 1) (p q : cartesian_coords)
    (hp : lattice_of (make_board (n + 1)) index p)
    (hq : lattice_of (make_board (n + 1)) index q) : p = q := by
  obtain ⟨c, r, hc, hr, rfl⟩ := index_split n index hi
  rw [(lattice_of_split hfit c r hc hr p).1 hp, (lattice_of_split hfit c r hc hr q).1 hq]

theorem lattice_of_props {n : Nat} (hfit : 3 * (n + 1) * n + 1 < 4294967296)
    (index : Nat) (hi : index < 3 * (n + 1) * n + 1) (p : cartesian_coords)
    (hp : lattice_of (make_board (n + 1)) index p) :
    is_cell n p ∧
      (p.to_hexagonal (make_board (n + 1))).to_index (make_board (n + 1)) = index := by
  obtain ⟨q, hq, h1, h2⟩ := lattice_of_index hfit index hi
  rw [lattice_of_unique hfit index hi p q hp hq]
  exact ⟨h1, h2⟩

/-- A cell is the lattice coordinate of the index computed from it. -/
theorem lattice_of_cell {n : Nat} (hfit : 3 * (n + 1) * n + 1 < 4294967296)
    (p : cartesian_coords) (hcell : is_cell n p) :
    (p.to_hexagonal (make_board (n + 1))).to_index (make_board (n + 1))
        < 3 * (n + 1) * n + 1 ∧
      lattice_of (make_board (n + 1))
        ((p.to_hexagonal (make_board (n + 1))).to_index (make_board (n + 1))) p := by
  have hx : p.x ≤ 2 * n := hcell.1
  have hr := cell_row_lt n p hcell
  have hback := cell_row_back n p hcell
  rw [to_hexagonal_eq hfit p hcell, to_index_eq hfit _ _ hx hr]
  constructor
  · have := cum_le_total n (p.x + 1) (by omega)
    rw [cum_succ] at this; omega
  · rw [lattice_of_split hfit _ _ hx hr, hback]

/-- Two indices with the same lattice coordinates are equal. -/
theorem lattice_of_inj {n : Nat} (hfit : 3 * (n + 1) * n + 1 < 4294967296)
    (i j : Nat) (hi : i < 3 * (n + 1) * n + 1) (hj : j < 3 * (n + 1) * n + 1)
    (p : cartesian_coords) (h1 : lattice_of (make_board (n + 1)) i p)
    (h2 : lattice_of (make_board (n + 1)) j p) : i = j := by
  rw [← (lattice_of_props hfit i hi p h1).2, ← (lattice_of_props hfit j hj p h2).2]

theorem size_succ {size : Nat} (hsize : 1 ≤ size)
    (hfit : 3 * size * (size - 1) + 1 < 4294967296) :
    ∃ n, size = n + 1 ∧ 3 * (n + 1) * n + 1 < 4294967296 := by
  refine ⟨size - 1, by omega, ?_⟩
  have e : size - 1 + 1 = size := by omega
  rw [e]; exact hfit

/-- Two different cells of one column attack each other. -/
theorem same_column_attacks {n : Nat} (hfit : 3 * (n + 1) * n + 1 < 4294967296)
    (c r s : Nat) (hc : c ≤ 2 * n) (hr : r < col_count n c) (hs : s < col_count n c)
    (hne : r ≠ s) : attacks (make_board (n + 1)) (cum n c + r) (cum n c + s) := by
  refine ⟨_, _, (lattice_of_split hfit c r hc hr _).2 rfl,
    (lattice_of_split hfit c s hc hs _).2 rfl, ?_⟩
  unfold col_count at hr hs
  dsimp only
  rcases Nat.lt_or_gt_of_ne hne with h | h
  · refine ⟨(0, -2), by simp [steps], s - r, by omega, by simp, ?_⟩
    dsimp only
    omega
  · refine ⟨(0, 2), by simp [steps], r - s, by omega, by simp, ?_⟩
    dsimp only
    omega

/-- More cells than columns cannot be pairwise non-attacking. -/
theorem card_le_columns {n : Nat} (hfit : 3 * (n + 1) * n + 1 < 4294967296)
    (P : Finset Nat) (hP : ∀ p ∈ P, p < 3 * (n + 1) * n + 1)
    (hna : ∀ p ∈ P, ∀ q ∈ P, p ≠ q → ¬ attacks (make_board (n + 1)) p q) :
    P.card ≤ 2 * n + 1 := by
  by_contra hcard
  have hex : ∀ p : Nat, ∃ c, p < 3 * (n + 1) * n + 1 →
      c ≤ 2 * n ∧ ∃ r, r < col_count n c ∧ p = cum n c + r := by
    intro p
    by_cases h : p < 3 * (n + 1) * n + 1
    · obtain ⟨c, r, hc, hr, he⟩ := index_split n p h
      exact ⟨c, fun _ => ⟨hc, r, hr, he⟩⟩
    · exact ⟨0, fun h2 => absurd h2 h⟩
  choose f hf using hex
  have hmaps : ∀ p ∈ P, f p ∈ Finset.range (2 * n + 1) := by
    intro p hp
    have := (hf p (hP p hp)).1
    simp only [Finset.mem_range]; omega
  have hlt : (Finset.range (2 * n + 1)).card < P.card := by
    rw [Finset.card_range]; omega
  obtain ⟨p, hp, q, hq, hpq, hfeq⟩ := Finset.exists_ne_map_eq_of_card_lt_of_maps_to hlt hmaps
  obtain ⟨hc, r, hr, hpe⟩ := hf p (hP p hp)
  obtain ⟨-, s, hs, hqe⟩ := hf q (hP q hq)
  rw [← hfeq] at hs hqe
  have hrs : r ≠ s := by
    intro h; apply hpq; rw [hpe, hqe, h]
  have := same_column_attacks hfit (f p) r s hc hr hs hrs
  rw [← hpe, ← hqe] at this
  exact hna p hp q hq hpq this

/-! ## The capture bitmap -/

theorem and_two_pow_ne_zero (w k : Nat) : (w &&& 2 ^ k != 0) = w.testBit k := by
  cases h : w.testBit k with
  | true =>
    have h1 : (w &&& 2 ^ k).testBit k = true := by
      rw [Nat.testBit_and, h, Nat.testBit_two_pow_self]; rfl
    have h2 : w &&& 2 ^ k ≠ 0 := by
      intro h0; rw [h0, Nat.zero_testBit] at h1; exact Bool.noConfusion h1
    simpa using h2
  | false =>
    have h2 : w &&& 2 ^ k = 0 := by
      apply Nat.eq_of_testBit_eq
      intro i
      rw [Nat.testBit_and, Nat.zero_testBit, Nat.testBit_two_pow]
      by_cases hki : k = i
      · subst hki; rw [h]; rfl
      · simp [hki]
    simp [h2]

theorem get_bit_eq (m : bitmap) (j : Nat) :
    m.get_bit j = (m._data.getD (j / 8) 0).testBit (j % 8) := by
  unfold bitmap.get_bit SIZEOF_SIZE_T
  rw [Nat.one_shiftLeft, and_two_pow_ne_zero]

theorem set_bit_getD (m : bitmap) (i a : Nat) :
    (m.set_bit i)._data.getD a 0 =
      if a = i / 8 ∧ a < m._data.length then m._data.getD (i / 8) 0 ||| 2 ^ (i % 8)
      else m._data.getD a 0 := by
  unfold bitmap.set_bit SIZEOF_SIZE_T
  dsimp only
  rw [Nat.one_shiftLeft, List.getD_eq_getElem?_getD, List.getD_eq_getElem?_getD,
    List.getD_eq_getElem?_getD, List.getElem?_set]
  by_cases h1 : i / 8 = a
  · subst h1
    by_cases h2 : i / 8 < m._data.length
    · simp [h2]
    · simp [h2, List.getElem?_eq_none (Nat.le_of_not_lt h2)]
  · rw [if_neg h1, if_neg (by intro h; exact h1 h.1.symm)]

theorem get_bit_new (b : Board) (j : Nat) : (bitmap.new b).get_bit j = false := by
  rw [get_bit_eq]
  unfold bitmap.new
  dsimp only
  rw [List.getD_eq_getElem?_getD]
  rw [List.getElem?_replicate]
  split <;> simp

/-- A bit that is set after `set_bit(i)` is bit `i` or was set before. -/
theorem get_bit_set_bit (m : bitmap) (i j : Nat) (h : (m.set_bit i).get_bit j = true) :
    j = i ∨ m.get_bit j = true := by
  rw [get_bit_eq, set_bit_getD] at h
  rw [get_bit_eq]
  by_cases hc : j / 8 = i / 8 ∧ j / 8 < m._data.length
  · rw [if_pos hc, Nat.testBit_or, Nat.testBit_two_pow, Bool.or_eq_true] at h
    rcases h with h | h
    · right; rw [hc.1]; exact h
    · left
      have := of_decide_eq_true h
      have h8 := hc.1
      omega
  · rw [if_neg hc] at h; right; exact h

/-- A bit that was set stays set after `set_bit(i)`. -/
theorem get_bit_set_bit_of_get_bit (m : bitmap) (i j : Nat) (h : m.get_bit j = true) :
    (m.set_bit i).get_bit j = true := by
  rw [get_bit_eq, set_bit_getD]
  rw [get_bit_eq] at h
  by_cases hc : j / 8 = i / 8 ∧ j / 8 < m._data.length
  · rw [if_pos hc, Nat.testBit_or, Bool.or_eq_true]
    left; rw [← hc.1]; exact h
  · rw [if_neg hc]; exact h

/-- Inside the vector `set_bit(i)` sets bit `i`. -/
theorem get_bit_set_bit_self (m : bitmap) (i : Nat) (h : i / 8 < m._data.length) :
    (m.set_bit i).get_bit i = true := by
  rw [get_bit_eq, set_bit_getD, if_pos ⟨rfl, h⟩, Nat.testBit_or, Nat.testBit_two_pow_self]
  simp

theorem set_bit_length (m : bitmap) (i : Nat) :
    (m.set_bit i)._data.length = m._data.length := by
  unfold bitmap.set_bit; simp

theorem new_length {n : Nat} (hfit : 3 * (n + 1) * n + 1 < 4294967296) (i : Nat)
    (hi : i < 3 * (n + 1) * n + 1) : i / 8 < (bitmap.new (make_board (n + 1)))._data.length := by
  unfold bitmap.new bitmap.get_array_size SIZEOF_SIZE_T SIZE_MOD
  rw [board_cell_count hfit]
  simp only [List.length_replicate]
  omega

/-! ## The ray walks -/

theorem visited_succ (b : Board) (it : cartesian_coords → cartesian_coords)
    (c : cartesian_coords) (m : Nat) :
    visited b it c (m + 1) = index_at b c :: visited b it (it c) m := by
  unfold visited
  rw [List.range_succ_eq_map, List.map_cons, List.map_map]
  rfl

theorem mem_visited (b : Board) (it : cartesian_coords → cartesian_coords)
    (c : cartesian_coords) (m j : Nat) :
    j ∈ visited b it c m ↔ ∃ i, i < m ∧ index_at b (it^[i] c) = j := by
  unfold visited
  simp [List.mem_map, List.mem_range]

/-- With enough fuel the loop of `mark_captured_cells` stops at the first coordinate that
`inside_board` rejects, having set the bits of the coordinates before it. -/
theorem mark_loop_exact (b : Board) (it : cartesian_coords → cartesian_coords) :
    ∀ (fuel m : Nat) (c : cartesian_coords) (cells : bitmap),
      (∀ i, i < m → (it^[i] c).inside_board b = true) →
      (it^[m] c).inside_board b = false → m < fuel →
      mark_loop b it fuel c cells = some (set_bits cells (visited b it c m)) := by
  intro fuel
  induction fuel with
  | zero => intro m c cells _ _ hf; omega
  | succ fuel ih =>
    intro m c cells hin hout hf
    cases m with
    | zero =>
      have h0 : c.inside_board b = false := hout
      simp [mark_loop, h0, set_bits, visited]
    | succ m =>
      have h0 : c.inside_board b = true := hin 0 (by omega)
      have h1 : ∀ i, i < m → (it^[i] (it c)).inside_board b = true := by
        intro i hi
        have := hin (i + 1) (by omega)
        rwa [Function.iterate_succ_apply] at this
      have h2 : (it^[m] (it c)).inside_board b = false := by
        rwa [Function.iterate_succ_apply] at hout
      simp only [mark_loop, h0, if_true]
      rw [ih m (it c) _ h1 h2 (by omega), visited_succ]
      rfl

/-- Whenever the loop of `mark_captured_cells` returns, it has stopped at the first
coordinate that `inside_board` rejects. -/
theorem mark_loop_some (b : Board) (it : cartesian_coords → cartesian_coords) :
    ∀ (fuel : Nat) (c : cartesian_coords) (cells res : bitmap),
      mark_loop b it fuel c cells = some res →
      ∃ m, m < fuel ∧ (∀ i, i < m → (it^[i] c).inside_board b = true) ∧
        (it^[m] c).inside_board b = false ∧ res = set_bits cells (visited b it c m) := by
  intro fuel
  induction fuel with
  | zero => intro c cells res h; simp [mark_loop] at h
  | succ fuel ih =>
    intro c cells res h
    by_cases h0 : c.inside_board b = true
    · simp only [mark_loop, h0, if_true] at h
      obtain ⟨m, hm, h1, h2, h3⟩ := ih (it c) _ res h
      refine ⟨m + 1, by omega, ?_, ?_, ?_⟩
      · intro i hi
        cases i with
        | zero => exact h0
        | succ i => rw [Function.iterate_succ_apply]; exact h1 i (by omega)
      · rw [Function.iterate_succ_apply]; exact h2
      · rw [h3, visited_succ]; rfl
    · have h0f : c.inside_board b = false := by simpa using h0
      simp only [mark_loop, h0f] at h
      refine ⟨0, by omega, ?_, h0f, ?_⟩
      · intro i hi; omega
      · simp only [Bool.false_eq_true, if_false] at h
        rw [← Option.some.inj h]; simp [set_bits, visited]

theorem get_bit_set_bits (l : List Nat) :
    ∀ (cells : bitmap) (j : Nat), (set_bits cells l).get_bit j = true →
      cells.get_bit j = true ∨ j ∈ l := by
  induction l with
  | nil => intro cells j h; left; exact h
  | cons a l ih =>
    intro cells j h
    have h1 : set_bits cells (a :: l) = set_bits (cells.set_bit a) l := rfl
    rw [h1] at h
    rcases ih _ j h with h2 | h2
    · rcases get_bit_set_bit cells a j h2 with h3 | h3
      · right; rw [h3]; exact List.mem_cons_self _ _
      · left; exact h3
    · right; exact List.mem_cons_of_mem _ h2

theorem get_bit_set_bits_of_get_bit (l : List Nat) :
    ∀ (cells : bitmap) (j : Nat), cells.get_bit j = true →
      (set_bits cells l).get_bit j = true := by
  induction l with
  | nil => intro cells j h; exact h
  | cons a l ih =>
    intro cells j h
    exact ih _ j (get_bit_set_bit_of_get_bit cells a j h)

theorem set_bits_length (l : List Nat) :
    ∀ (cells : bitmap), (set_bits cells l)._data.length = cells._data.length := by
  induction l with
  | nil => intro cells; rfl
  | cons a l ih =>
    intro cells
    have h1 : set_bits cells (a :: l) = set_bits (cells.set_bit a) l := rfl
    rw [h1, ih, set_bit_length]

theorem get_bit_set_bits_of_mem (l : List Nat) :
    ∀ (cells : bitmap) (j : Nat), j ∈ l → j / 8 < cells._data.length →
      (set_bits cells l).get_bit j = true := by
  induction l with
  | nil => intro cells j h; simp at h
  | cons a l ih =>
    intro cells j h hlen
    have h1 : set_bits cells (a :: l) = set_bits (cells.set_bit a) l := rfl
    rw [h1]
    rcases List.mem_cons.1 h with h2 | h2
    · subst h2
      exact get_bit_set_bits_of_get_bit l _ j (get_bit_set_bit_self cells j hlen)
    · exact ih _ j h2 (by rw [set_bit_length]; exact hlen)

theorem ray_mem (it : cartesian_coords → cartesian_coords) (d : Int × Int)
    (h : (it, d) ∈ rays) :
    (it = ray_up ∧ d = (0, -2)) ∨ (it = ray_down ∧ d = (0, 2)) ∨
    (it = ray_left ∧ d = (-2, 0)) ∨ (it = ray_right ∧ d = (2, 0)) ∨
    (it = major_up_left ∧ d = (-1, -1)) ∨ (it = major_up_right ∧ d = (1, -1)) ∨
    (it = major_down_left ∧ d = (-1, 1)) ∨ (it = major_down_right ∧ d = (1, 1)) ∨
    (it = minor_up_left ∧ d = (-1, -3)) ∨ (it = minor_up_right ∧ d = (1, -3)) ∨
    (it = minor_down_left ∧ d = (-1, 3)) ∨ (it = minor_down_right ∧ d = (1, 3)) := by
  unfold rays at h
  simp only [List.mem_cons, Prod.mk.injEq, List.mem_singleton, List.not_mem_nil,
    or_false] at h
  exact h

/-- Each ray lambda adds its step vector modulo the width of `uint`. -/
theorem ray_step (it : cartesian_coords → cartesian_coords) (d : Int × Int)
    (h : (it, d) ∈ rays) (c : cartesian_coords) (hx : c.x < 4294967296)
    (hy : c.y < 4294967296) :
    ((it c).x : Int) = ((c.x : Int) + d.1) % 4294967296 ∧
    ((it c).y : Int) = ((c.y : Int) + d.2) % 4294967296 := by
  rcases ray_mem it d h with h | h | h | h | h | h | h | h | h | h | h | h <;>
    obtain ⟨rfl, rfl⟩ := h
  · unfold ray_up uint_sub UINT_MOD
    refine ⟨?_, ?_⟩ <;> dsimp only <;> omega
  · unfold ray_down uint_add UINT_MOD
    refine ⟨?_, ?_⟩ <;> dsimp only <;> omega
  · unfold ray_left uint_sub UINT_MOD
    refine ⟨?_, ?_⟩ <;> dsimp only <;> omega
  · unfold ray_right uint_add UINT_MOD
    refine ⟨?_, ?_⟩ <;> dsimp only <;> omega
  · unfold major_up_left uint_sub UINT_MOD
    refine ⟨?_, ?_⟩ <;> dsimp only <;> omega
  · unfold major_up_right uint_add uint_sub UINT_MOD
    refine ⟨?_, ?_⟩ <;> dsimp only <;> omega
  · unfold major_down_left uint_add uint_sub UINT_MOD
    refine ⟨?_, ?_⟩ <;> dsimp only <;> omega
  · unfold major_down_right uint_add UINT_MOD
    refine ⟨?_, ?_⟩ <;> dsimp only <;> omega
  · unfold minor_up_left uint_sub UINT_MOD
    refine ⟨?_, ?_⟩ <;> dsimp only <;> omega
  · unfold minor_up_right uint_add uint_sub UINT_MOD
    refine ⟨?_, ?_⟩ <;> dsimp only <;> omega
  · unfold minor_down_left uint_add uint_sub UINT_MOD
    refine ⟨?_, ?_⟩ <;> dsimp only <;> omega
  · unfold minor_down_right uint_add UINT_MOD
    refine ⟨?_, ?_⟩ <;> dsimp only <;> omega

/-- The step vectors are not zero, are small, and keep the parity of `x + y`. -/
theorem ray_vector (it : cartesian_coords → cartesian_coords) (d : Int × Int)
    (h : (it, d) ∈ rays) :
    -2 ≤ d.1 ∧ d.1 ≤ 2 ∧ -3 ≤ d.2 ∧ d.2 ≤ 3 ∧ (d.1 ≠ 0 ∨ d.2 ≠ 0) ∧ (d.1 + d.2) % 2 = 0 := by
  rcases ray_mem it d h with h | h | h | h | h | h | h | h | h | h | h | h <;>
    obtain ⟨-, rfl⟩ := h <;> decide

/-- While the coordinates reached from a point of the bounding rectangle are accepted by
`inside_board`, no step has wrapped around: the coordinates are the integer ones. -/
theorem iterate_exact {n : Nat} (hfit : 3 * (n + 1) * n + 1 < 4294967296)
    (it : cartesian_coords → cartesian_coords) (d : Int × Int) (h : (it, d) ∈ rays)
    (a : cartesian_coords) (hax : a.x ≤ 2 * n) (hay : a.y ≤ 4 * n) :
    ∀ k : Nat, (∀ i, 1 ≤ i → i ≤ k → (it^[i] a).inside_board (make_board (n + 1)) = true) →
      ((it^[k] a).x : Int) = (a.x : Int) + k * d.1 ∧
      ((it^[k] a).y : Int) = (a.y : Int) + k * d.2 := by
  have hn := size_bound hfit
  obtain ⟨hd1, hd2, hd3, hd4, -, -⟩ := ray_vector it d h
  intro k
  induction k with
  | zero => intro _; simp
  | succ k ih =>
    intro hin
    obtain ⟨ihx, ihy⟩ := ih (fun i h1 h2 => hin i h1 (by omega))
    have hrect : (it^[k] a).x ≤ 2 * n ∧ (it^[k] a).y ≤ 4 * n := by
      rcases Nat.eq_zero_or_pos k with hk | hk
      · subst hk; exact ⟨hax, hay⟩
      · have := (inside_board_iff hfit _).1 (hin k hk (by omega))
        exact ⟨this.1, this.2.1⟩
    have hnext := (inside_board_iff hfit _).1 (hin (k + 1) (by omega) (le_refl _))
    rw [Function.iterate_succ_apply'] at hnext ⊢
    obtain ⟨sx, sy⟩ := ray_step it d h (it^[k] a) (by omega) (by omega)
    have e1 : ((k + 1 : Nat) : Int) * d.1 = k * d.1 + d.1 := by push_cast; ring
    have e2 : ((k + 1 : Nat) : Int) * d.2 = k * d.2 + d.2 := by push_cast; ring
    rw [e1, e2]
    have b1 := hnext.1
    have b2 := hnext.2.1
    constructor <;> omega

/-- A walk stays on the board for at most `4 * n` steps. -/
theorem walk_bound {n : Nat} (hfit : 3 * (n + 1) * n + 1 < 4294967296)
    (it : cartesian_coords → cartesian_coords) (d : Int × Int) (h : (it, d) ∈ rays)
    (a : cartesian_coords) (hax : a.x ≤ 2 * n) (hay : a.y ≤ 4 * n) (k : Nat)
    (hin : ∀ i, 1 ≤ i → i ≤ k → (it^[i] a).inside_board (make_board (n + 1)) = true) :
    k ≤ 4 * n := by
  obtain ⟨ex, ey⟩ := iterate_exact hfit it d h a hax hay k hin
  obtain ⟨hd1, hd2, hd3, hd4, hd5, -⟩ := ray_vector it d h
  by_contra hk
  have hk1 : 1 ≤ k := by omega
  have hlast := (inside_board_iff hfit _).1 (hin k hk1 (le_refl _))
  have b1 := hlast.1
  have b2 := hlast.2.1
  rcases hd5 with h0 | h0
  · have hc : d.1 = -2 ∨ d.1 = -1 ∨ d.1 = 1 ∨ d.1 = 2 := by omega
    rcases hc with hc | hc | hc | hc <;> rw [hc] at ex <;> omega
  · have hc : d.2 = -3 ∨ d.2 = -2 ∨ d.2 = -1 ∨ d.2 = 1 ∨ d.2 = 2 ∨ d.2 = 3 := by omega
    rcases hc with hc | hc | hc | hc | hc | hc <;> rw [hc] at ey <;> omega

/-- A decidable property fails first somewhere below `K`, unless it holds all the way. -/
theorem first_exit (p : Nat → Bool) :
    ∀ K : Nat, (∀ i, i < K → p i = true) ∨
      ∃ m, m < K ∧ (∀ i, i < m → p i = true) ∧ p m = false := by
  intro K
  induction K with
  | zero => left; intro i hi; omega
  | succ K ih =>
    rcases ih with h | ⟨m, hm, h1, h2⟩
    · cases hp : p K with
      | true =>
        left; intro i hi
        rcases Nat.lt_or_ge i K with h3 | h3
        · exact h i h3
        · have : i = K := by omega
          rw [this]; exact hp
      | false => right; exact ⟨K, by omega, h, hp⟩
    · right; exact ⟨m, by omega, h1, h2⟩

/-- The walk from a point of the bounding rectangle leaves the board after at most `4 * n`
marked cells. -/
theorem walk_exit {n : Nat} (hfit : 3 * (n + 1) * n + 1 < 4294967296)
    (it : cartesian_coords → cartesian_coords) (d : Int × Int) (h : (it, d) ∈ rays)
    (a : cartesian_coords) (hax : a.x ≤ 2 * n) (hay : a.y ≤ 4 * n) :
    ∃ m, m ≤ 4 * n ∧
      (∀ i, i < m → (it^[i] (it a)).inside_board (make_board (n + 1)) = true) ∧
      (it^[m] (it a)).inside_board (make_board (n + 1)) = false := by
  rcases first_exit (fun i => (it^[i] (it a)).inside_board (make_board (n + 1))) (4 * n + 1)
    with hall | ⟨m, hm, h1, h2⟩
  · exfalso
    have := walk_bound hfit it d h a hax hay (4 * n + 1) (by
      intro i hi1 hi2
      have := hall (i - 1) (by omega)
      simp only at this
      rw [← Function.iterate_succ_apply] at this
      have e : (i - 1).succ = i := by omega
      rw [e] at this; exact this)
    omega
  · exact ⟨m, by omega, h1, h2⟩

theorem ray_vector_mem_steps (it : cartesian_coords → cartesian_coords) (d : Int × Int)
    (h : (it, d) ∈ rays) : d ∈ steps := by
  rcases ray_mem it d h with h | h | h | h | h | h | h | h | h | h | h | h <;>
    obtain ⟨-, rfl⟩ := h <;> decide

theorem is_cell_rect {n : Nat} {a : cartesian_coords} (h : is_cell n a) :
    a.x ≤ 2 * n ∧ a.y ≤ 4 * n := by
  obtain ⟨h1, h2, h3, h4, h5, h6⟩ := h
  constructor <;> omega

/-- The coordinates that a walk from the cell of `q` visits while on the board are cells
that `q` attacks. -/
theorem visited_attacks {n : Nat} (hfit : 3 * (n + 1) * n + 1 < 4294967296)
    (it : cartesian_coords → cartesian_coords) (d : Int × Int) (h : (it, d) ∈ rays)
    (q : Nat) (hq : q < 3 * (n + 1) * n + 1) (a : cartesian_coords)
    (ha : lattice_of (make_board (n + 1)) q a) (k : Nat) (hk : 1 ≤ k)
    (hin : ∀ i, 1 ≤ i → i ≤ k → (it^[i] a).inside_board (make_board (n + 1)) = true) :
    index_at (make_board (n + 1)) (it^[k] a) < 3 * (n + 1) * n + 1 ∧
    lattice_of (make_board (n + 1)) (index_at (make_board (n + 1)) (it^[k] a)) (it^[k] a) ∧
    attacks (make_board (n + 1)) q (index_at (make_board (n + 1)) (it^[k] a)) := by
  have hcell := (lattice_of_props hfit q hq a ha).1
  obtain ⟨hax, hay⟩ := is_cell_rect hcell
  obtain ⟨ex, ey⟩ := iterate_exact hfit it d h a hax hay k hin
  obtain ⟨-, -, -, -, -, hpar⟩ := ray_vector it d h
  have hins := hin k hk (le_refl _)
  have hparity : ((it^[k] a).x + (it^[k] a).y + n) % 2 = 0 := by
    have hpa := hcell.2.1
    have e : (k : Int) * d.1 + k * d.2 = 2 * (k * ((d.1 + d.2) / 2)) := by
      have : d.1 + d.2 = 2 * ((d.1 + d.2) / 2) := by omega
      calc (k : Int) * d.1 + k * d.2 = k * (d.1 + d.2) := by ring
        _ = k * (2 * ((d.1 + d.2) / 2)) := by rw [← this]
        _ = 2 * (k * ((d.1 + d.2) / 2)) := by ring
    omega
  have hc := is_cell_of_inside hfit _ hins hparity
  obtain ⟨h1, h2⟩ := lattice_of_cell hfit _ hc
  refine ⟨h1, h2, a, it^[k] a, ha, h2, d, ray_vector_mem_steps it d h, k, hk, ?_, ?_⟩
  · omega
  · omega

theorem mark_loop_mono (b : Board) (it : cartesian_coords → cartesian_coords)
    (fuel k : Nat) (c : cartesian_coords) (cells res : bitmap)
    (h : mark_loop b it fuel c cells = some res) :
    mark_loop b it (fuel + k) c cells = some res := by
  obtain ⟨m, hm, h1, h2, h3⟩ := mark_loop_some b it fuel c cells res h
  rw [h3]
  exact mark_loop_exact b it (fuel + k) m c cells h1 h2 (by omega)

theorem mark_captured_cells_mono (b : Board) (it : cartesian_coords → cartesian_coords)
    (fuel k : Nat) (a : cartesian_coords) (st res : board_state)
    (h : st.mark_captured_cells b fuel a it = some res) :
    st.mark_captured_cells b (fuel + k) a it = some res := by
  unfold board_state.mark_captured_cells at h ⊢
  cases hm : mark_loop b it fuel (it a) st.cells with
  | none => rw [hm] at h; simp at h
  | some cells => rw [mark_loop_mono b it fuel k _ _ _ hm]; rw [hm] at h; exact h

/-- A ray walk changes only the bitmap. The bits it adds are cells attacked by the queen. -/
theorem mark_captured_cells_some {n : Nat} (hfit : 3 * (n + 1) * n + 1 < 4294967296)
    (it : cartesian_coords → cartesian_coords) (d : Int × Int) (h : (it, d) ∈ rays)
    (q : Nat) (hq : q < 3 * (n + 1) * n + 1) (a : cartesian_coords)
    (ha : lattice_of (make_board (n + 1)) q a) (fuel : Nat) (st res : board_state)
    (hres : st.mark_captured_cells (make_board (n + 1)) fuel a it = some res) :
    res.queens = st.queens ∧ res.index = st.index ∧
    res.cells._data.length = st.cells._data.length ∧
    (∀ j, st.cells.get_bit j = true → res.cells.get_bit j = true) ∧
    (∀ j, res.cells.get_bit j = true → st.cells.get_bit j = true ∨
      (j < 3 * (n + 1) * n + 1 ∧ attacks (make_board (n + 1)) q j)) := by
  unfold board_state.mark_captured_cells at hres
  cases hm : mark_loop (make_board (n + 1)) it fuel (it a) st.cells with
  | none => rw [hm] at hres; simp at hres
  | some cells =>
    rw [hm] at hres
    have hr : res = { st with cells := cells } := (Option.some.inj hres).symm
    obtain ⟨m, -, h1, -, h3⟩ := mark_loop_some _ it fuel _ _ _ hm
    subst hr
    refine ⟨rfl, rfl, ?_, ?_, ?_⟩
    · show cells._data.length = _
      rw [h3, set_bits_length]
    · intro j hj
      show cells.get_bit j = true
      rw [h3]; exact get_bit_set_bits_of_get_bit _ _ j hj
    · intro j hj
      have hj2 : cells.get_bit j = true := hj
      rw [h3] at hj2
      rcases get_bit_set_bits _ _ j hj2 with h4 | h4
      · left; exact h4
      · right
        obtain ⟨i, hi, hij⟩ := (mem_visited _ it _ m j).1 h4
        rw [← Function.iterate_succ_apply] at hij
        have := visited_attacks hfit it d h q hq a ha (i + 1) (by omega) (by
          intro i2 h5 h6
          have := h1 (i2 - 1) (by omega)
          rw [← Function.iterate_succ_apply] at this
          have e : (i2 - 1).succ = i2 := by omega
          rw [e] at this; exact this)
        rw [← hij]
        exact ⟨this.1, this.2.2⟩

/-- With fuel above `4 * n` a ray walk from a point of the bounding rectangle returns. -/
theorem mark_captured_cells_terminates {n : Nat} (hfit : 3 * (n + 1) * n + 1 < 4294967296)
    (it : cartesian_coords → cartesian_coords) (d : Int × Int) (h : (it, d) ∈ rays)
    (a : cartesian_coords) (hax : a.x ≤ 2 * n) (hay : a.y ≤ 4 * n) (fuel : Nat)
    (hf : 4 * n + 1 ≤ fuel) (st : board_state) :
    ∃ res, st.mark_captured_cells (make_board (n + 1)) fuel a it = some res := by
  obtain ⟨m, hm, h1, h2⟩ := walk_exit hfit it d h a hax hay
  unfold board_state.mark_captured_cells
  rw [mark_loop_exact _ it fuel m _ _ h1 h2 (by omega)]
  exact ⟨_, rfl⟩

/-! ## The twelve walks of a queen -/

theorem marks_only_refl (b : Board) (q : Nat) (st : board_state) : marks_only b q st st :=
  ⟨rfl, rfl, rfl, fun _ h => h, fun _ h => Or.inl h⟩

theorem marks_only_trans (b : Board) (q : Nat) (s1 s2 s3 : board_state)
    (h12 : marks_only b q s1 s2) (h23 : marks_only b q s2 s3) : marks_only b q s1 s3 := by
  obtain ⟨a1, a2, a3, a4, a5⟩ := h12
  obtain ⟨b1, b2, b3, b4, b5⟩ := h23
  refine ⟨b1.trans a1, b2.trans a2, b3.trans a3, fun j h => b4 j (a4 j h), ?_⟩
  intro j h
  rcases b5 j h with h1 | h1
  · exact a5 j h1
  · exact Or.inr h1

theorem mark_all_eq (b : Board) (fuel : Nat) (st : board_state) (a : cartesian_coords) :
    st.mark_all b fuel a =
      (rays.map Prod.fst).foldlM (fun s it => s.mark_captured_cells b fuel a it) st := by
  unfold board_state.mark_all rays
  simp only [List.map_cons, List.map_nil, List.foldlM_cons, List.foldlM_nil, bind_pure]

theorem mark_fold_some {n : Nat} (hfit : 3 * (n + 1) * n + 1 < 4294967296)
    (q : Nat) (hq : q < 3 * (n + 1) * n + 1) (a : cartesian_coords)
    (ha : lattice_of (make_board (n + 1)) q a) (fuel : Nat) :
    ∀ (l : List (cartesian_coords → cartesian_coords)),
      (∀ it, it ∈ l → ∃ d, (it, d) ∈ rays) → ∀ (st res : board_state),
      l.foldlM (fun s it => s.mark_captured_cells (make_board (n + 1)) fuel a it) st
        = some res →
      marks_only (make_board (n + 1)) q st res := by
  intro l
  induction l with
  | nil =>
    intro _ st res h
    rw [List.foldlM_nil] at h
    rw [← Option.some.inj h]
    exact marks_only_refl _ _ _
  | cons it l ih =>
    intro hl st res h
    rw [List.foldlM_cons] at h
    obtain ⟨d, hd⟩ := hl it (List.mem_cons_self _ _)
    cases h1 : st.mark_captured_cells (make_board (n + 1)) fuel a it with
    | none => rw [h1] at h; simp at h
    | some s1 =>
      rw [h1] at h
      have h2 := ih (fun it2 h3 => hl it2 (List.mem_cons_of_mem _ h3)) s1 res h
      have h3 := mark_captured_cells_some hfit it d hd q hq a ha fuel st s1 h1
      refine marks_only_trans _ _ st s1 res ?_ h2
      unfold marks_only
      rw [board_cell_count hfit]
      exact h3

theorem mark_fold_mono (b : Board) (a : cartesian_coords) (fuel k : Nat) :
    ∀ (l : List (cartesian_coords → cartesian_coords)) (st res : board_state),
      l.foldlM (fun s it => s.mark_captured_cells b fuel a it) st = some res →
      l.foldlM (fun s it => s.mark_captured_cells b (fuel + k) a it) st = some res := by
  intro l
  induction l with
  | nil => intro st res h; exact h
  | cons it l ih =>
    intro st res h
    rw [List.foldlM_cons] at h ⊢
    cases h1 : st.mark_captured_cells b fuel a it with
    | none => rw [h1] at h; simp at h
    | some s1 =>
      rw [h1] at h
      rw [mark_captured_cells_mono b it fuel k a st s1 h1]
      exact ih s1 res h

theorem mark_fold_terminates {n : Nat} (hfit : 3 * (n + 1) * n + 1 < 4294967296)
    (a : cartesian_coords) (hax : a.x ≤ 2 * n) (hay : a.y ≤ 4 * n) (fuel : Nat)
    (hf : 4 * n + 1 ≤ fuel) :
    ∀ (l : List (cartesian_coords → cartesian_coords)),
      (∀ it, it ∈ l → ∃ d, (it, d) ∈ rays) → ∀ (st : board_state),
      ∃ res, l.foldlM (fun s it => s.mark_captured_cells (make_board (n + 1)) fuel a it) st
        = some res := by
  intro l
  induction l with
  | nil => intro _ st; exact ⟨st, rfl⟩
  | cons it l ih =>
    intro hl st
    obtain ⟨d, hd⟩ := hl it (List.mem_cons_self _ _)
    obtain ⟨s1, h1⟩ := mark_captured_cells_terminates hfit it d hd a hax hay fuel hf st
    obtain ⟨res, h2⟩ := ih (fun it2 h3 => hl it2 (List.mem_cons_of_mem _ h3)) s1
    refine ⟨res, ?_⟩
    rw [List.foldlM_cons, h1]
    exact h2

theorem rays_fst (it : cartesian_coords → cartesian_coords)
    (h : it ∈ rays.map Prod.fst) : ∃ d, (it, d) ∈ rays := by
  obtain ⟨p, hp, rfl⟩ := List.mem_map.1 h
  exact ⟨p.2, hp⟩

/-- The twelve walks of `place_queen` add only bits of cells attacked by the queen. -/
theorem mark_all_some {n : Nat} (hfit : 3 * (n + 1) * n + 1 < 4294967296)
    (q : Nat) (hq : q < 3 * (n + 1) * n + 1) (a : cartesian_coords)
    (ha : lattice_of (make_board (n + 1)) q a) (fuel : Nat) (st res : board_state)
    (h : st.mark_all (make_board (n + 1)) fuel a = some res) :
    marks_only (make_board (n + 1)) q st res := by
  rw [mark_all_eq] at h
  exact mark_fold_some hfit q hq a ha fuel _ rays_fst st res h

theorem mark_all_mono (b : Board) (a : cartesian_coords) (fuel k : Nat)
    (st res : board_state) (h : st.mark_all b fuel a = some res) :
    st.mark_all b (fuel + k) a = some res := by
  rw [mark_all_eq] at h ⊢
  exact mark_fold_mono b a fuel k _ st res h

theorem mark_all_terminates {n : Nat} (hfit : 3 * (n + 1) * n + 1 < 4294967296)
    (a : cartesian_coords) (hax : a.x ≤ 2 * n) (hay : a.y ≤ 4 * n) (fuel : Nat)
    (hf : 4 * n + 1 ≤ fuel) (st : board_state) :
    ∃ res, st.mark_all (make_board (n + 1)) fuel a = some res := by
  rw [mark_all_eq]
  exact mark_fold_terminates hfit a hax hay fuel hf _ rays_fst st

/-! ## The cursor -/

/-- What the loop of `advance_index` returns: the cursor has moved over set bits only and
rests at the cell count or on a clear bit. -/
theorem advance_loop_some {n : Nat} (hfit : 3 * (n + 1) * n + 1 < 4294967296) :
    ∀ (fuel : Nat) (st res : board_state),
      advance_loop (make_board (n + 1)) fuel st = some res →
      st.index ≤ 3 * (n + 1) * n + 1 →
      res.queens = st.queens ∧ res.cells = st.cells ∧ st.index ≤ res.index ∧
      res.index ≤ 3 * (n + 1) * n + 1 ∧
      (∀ j, st.index ≤ j → j < res.index → st.cells.get_bit j = true) ∧
      (res.index < 3 * (n + 1) * n + 1 → st.cells.get_bit res.index = false) := by
  intro fuel
  induction fuel with
  | zero => intro st res h; simp [advance_loop] at h
  | succ fuel ih =>
    intro st res h hle
    rw [advance_loop, board_cell_count hfit] at h
    by_cases hc : (decide (st.index < 3 * (n + 1) * n + 1) && st.cells.get_bit st.index) = true
    · rw [if_pos hc] at h
      rw [Bool.and_eq_true, decide_eq_true_eq] at hc
      have e : uint_add st.index 1 = st.index + 1 := uint_add_eq (by omega)
      rw [e] at h
      obtain ⟨h1, h2, h3, h4, h5, h6⟩ := ih _ res h (by dsimp only; omega)
      dsimp only at h1 h2 h3 h4 h5 h6
      refine ⟨h1, h2, by omega, h4, ?_, h6⟩
      intro j hj1 hj2
      rcases Nat.eq_or_lt_of_le hj1 with h7 | h7
      · rw [← h7]; exact hc.2
      · exact h5 j (by omega) hj2
    · rw [if_neg hc] at h
      have hr : res = st := (Option.some.inj h).symm
      subst hr
      refine ⟨rfl, rfl, le_refl _, hle, fun j h1 h2 => by omega, ?_⟩
      intro hlt
      rw [Bool.and_eq_true, decide_eq_true_eq] at hc
      cases hb : res.cells.get_bit res.index with
      | false => rfl
      | true => exact absurd ⟨hlt, hb⟩ hc

theorem advance_loop_mono (b : Board) :
    ∀ (fuel k : Nat) (st res : board_state), advance_loop b fuel st = some res →
      advance_loop b (fuel + k) st = some res := by
  intro fuel
  induction fuel with
  | zero => intro k st res h; simp [advance_loop] at h
  | succ fuel ih =>
    intro k st res h
    have e : fuel + 1 + k = (fuel + k) + 1 := by omega
    rw [e]
    rw [advance_loop] at h ⊢
    split
    · rename_i hc; rw [if_pos hc] at h; exact ih k _ res h
    · rename_i hc; rw [if_neg hc] at h; exact h

theorem advance_loop_terminates {n : Nat} (hfit : 3 * (n + 1) * n + 1 < 4294967296) :
    ∀ (fuel : Nat) (st : board_state), st.index ≤ 3 * (n + 1) * n + 1 →
      3 * (n + 1) * n + 1 - st.index < fuel →
      ∃ res, advance_loop (make_board (n + 1)) fuel st = some res := by
  intro fuel
  induction fuel with
  | zero => intro st _ h; omega
  | succ fuel ih =>
    intro st hle hf
    rw [advance_loop, board_cell_count hfit]
    by_cases hc : (decide (st.index < 3 * (n + 1) * n + 1) && st.cells.get_bit st.index) = true
    · rw [if_pos hc]
      rw [Bool.and_eq_true, decide_eq_true_eq] at hc
      have e : uint_add st.index 1 = st.index + 1 := uint_add_eq (by omega)
      rw [e]
      exact ih _ (by dsimp only; omega) (by dsimp only; omega)
    · rw [if_neg hc]; exact ⟨st, rfl⟩

/-- What `advance_index` returns, for a cursor below the cell count. -/
theorem advance_index_some {n : Nat} (hfit : 3 * (n + 1) * n + 1 < 4294967296)
    (fuel : Nat) (st res : board_state) (hidx : st.index < 3 * (n + 1) * n + 1)
    (h : st.advance_index (make_board (n + 1)) fuel = some res) :
    res.queens = st.queens ∧ res.cells = st.cells ∧ st.index < res.index ∧
    res.index ≤ 3 * (n + 1) * n + 1 ∧
    (∀ j, st.index < j → j < res.index → st.cells.get_bit j = true) ∧
    (res.index < 3 * (n + 1) * n + 1 → st.cells.get_bit res.index = false) := by
  unfold board_state.advance_index at h
  have e : uint_add st.index 1 = st.index + 1 := uint_add_eq (by omega)
  rw [e] at h
  obtain ⟨h1, h2, h3, h4, h5, h6⟩ := advance_loop_some hfit fuel _ res h (by dsimp only; omega)
  dsimp only at h1 h2 h3 h4 h5 h6
  exact ⟨h1, h2, by omega, h4, fun j hj1 hj2 => h5 j (by omega) hj2, h6⟩

theorem advance_index_mono (b : Board) (fuel k : Nat) (st res : board_state)
    (h : st.advance_index b fuel = some res) : st.advance_index b (fuel + k) = some res := by
  unfold board_state.advance_index at h ⊢
  exact advance_loop_mono b fuel k _ res h

theorem advance_index_terminates {n : Nat} (hfit : 3 * (n + 1) * n + 1 < 4294967296)
    (fuel : Nat) (st : board_state) (hidx : st.index < 3 * (n + 1) * n + 1)
    (hf : 3 * (n + 1) * n + 1 ≤ fuel) :
    ∃ res, st.advance_index (make_board (n + 1)) fuel = some res := by
  unfold board_state.advance_index
  have e : uint_add st.index 1 = st.index + 1 := uint_add_eq (by omega)
  rw [e]
  exact advance_loop_terminates hfit fuel _ (by dsimp only; omega) (by dsimp only; omega)

/-! ## Placing a queen -/

theorem place_queen_eq (b : Board) (fuel : Nat) (st : board_state) :
    st.place_queen b fuel =
      (from_index b fuel st.index).bind (fun h =>
        ((⟨st.queens ++ [st.index], st.cells.set_bit st.index, st.index⟩ :
          board_state).mark_all b fuel (h.to_cartesian b)).bind
          (fun s => s.advance_index b fuel)) := by
  unfold board_state.place_queen
  rfl

/-- What `place_queen` returns, for a cursor below the cell count. -/
theorem place_queen_some {n : Nat} (hfit : 3 * (n + 1) * n + 1 < 4294967296)
    (fuel : Nat) (st res : board_state) (hidx : st.index < 3 * (n + 1) * n + 1)
    (h : st.place_queen (make_board (n + 1)) fuel = some res) :
    res.queens = st.queens ++ [st.index] ∧
    res.cells._data.length = st.cells._data.length ∧
    (∀ j, st.cells.get_bit j = true → res.cells.get_bit j = true) ∧
    (st.index / 8 < st.cells._data.length → res.cells.get_bit st.index = true) ∧
    (∀ j, res.cells.get_bit j = true → st.cells.get_bit j = true ∨ j = st.index ∨
      (j < 3 * (n + 1) * n + 1 ∧ attacks (make_board (n + 1)) st.index j)) ∧
    st.index < res.index ∧ res.index ≤ 3 * (n + 1) * n + 1 ∧
    (∀ j, st.index < j → j < res.index → res.cells.get_bit j = true) ∧
    (res.index < 3 * (n + 1) * n + 1 → res.cells.get_bit res.index = false) := by
  rw [place_queen_eq] at h
  cases h1 : from_index (make_board (n + 1)) fuel st.index with
  | none => rw [h1] at h; simp at h
  | some hx =>
    rw [h1, Option.some_bind] at h
    cases h2 : (⟨st.queens ++ [st.index], st.cells.set_bit st.index, st.index⟩ :
        board_state).mark_all (make_board (n + 1)) fuel (hx.to_cartesian (make_board (n + 1)))
      with
    | none => rw [h2] at h; simp at h
    | some s3 =>
      rw [h2, Option.some_bind] at h
      have hlat : lattice_of (make_board (n + 1)) st.index
          (hx.to_cartesian (make_board (n + 1))) := ⟨fuel, hx, h1, rfl⟩
      obtain ⟨m1, m2, m3, m4, m5⟩ := mark_all_some hfit st.index hidx _ hlat fuel _ s3 h2
      dsimp only at m1 m2 m3 m4 m5
      rw [board_cell_count hfit] at m5
      rw [set_bit_length] at m3
      obtain ⟨a1, a2, a3, a4, a5, a6⟩ := advance_index_some hfit fuel s3 res (by omega) h
      rw [m2] at a3 a5
      refine ⟨a1.trans m1, by rw [a2]; exact m3, ?_, ?_, ?_, a3, a4, ?_, ?_⟩
      · intro j hj
        rw [a2]; exact m4 j (get_bit_set_bit_of_get_bit _ _ j hj)
      · intro hlen
        rw [a2]; exact m4 _ (get_bit_set_bit_self _ _ hlen)
      · intro j hj
        rw [a2] at hj
        rcases m5 j hj with h3 | h3
        · rcases get_bit_set_bit _ _ j h3 with h4 | h4
          · right; left; exact h4
          · left; exact h4
        · right; right; exact h3
      · intro j hj1 hj2
        rw [a2]; exact a5 j hj1 hj2
      · intro hlt
        rw [a2]; exact a6 hlt

theorem place_queen_mono (b : Board) (fuel k : Nat) (st res : board_state)
    (h : st.place_queen b fuel = some res) : st.place_queen b (fuel + k) = some res := by
  rw [place_queen_eq] at h ⊢
  cases h1 : from_index b fuel st.index with
  | none => rw [h1] at h; simp at h
  | some hx =>
    rw [h1, Option.some_bind] at h
    rw [from_index_mono b fuel k _ hx h1, Option.some_bind]
    cases h2 : (⟨st.queens ++ [st.index], st.cells.set_bit st.index, st.index⟩ :
        board_state).mark_all b fuel (hx.to_cartesian b) with
    | none => rw [h2] at h; simp at h
    | some s3 =>
      rw [h2, Option.some_bind] at h
      rw [mark_all_mono b _ fuel k _ s3 h2, Option.some_bind]
      exact advance_index_mono b fuel k s3 res h

/-- With fuel for the binary search, for a ray and for a pass over the cells, `place_queen`
returns. -/
theorem place_queen_terminates {n : Nat} (hfit : 3 * (n + 1) * n + 1 < 4294967296)
    (fuel : Nat) (st : board_state) (hidx : st.index < 3 * (n + 1) * n + 1)
    (hf1 : 2 * n + 2 ≤ fuel) (hf2 : 4 * n + 1 ≤ fuel) (hf3 : 3 * (n + 1) * n + 1 ≤ fuel) :
    ∃ res, st.place_queen (make_board (n + 1)) fuel = some res := by
  obtain ⟨c, r, hc, hr, he⟩ := index_split n st.index hidx
  rw [place_queen_eq, he, from_index_split hfit c r hc hr fuel hf1, Option.some_bind,
    to_cartesian_eq hfit c r hc hr]
  obtain ⟨hax, hay⟩ := is_cell_rect (to_cartesian_is_cell n c r hc hr)
  obtain ⟨s3, h3⟩ := mark_all_terminates hfit _ hax hay fuel hf2
    (⟨st.queens ++ [cum n c + r], st.cells.set_bit (cum n c + r), cum n c + r⟩ : board_state)
  rw [h3, Option.some_bind]
  have hm := mark_all_some hfit (cum n c + r) (by omega) _
    ((lattice_of_split hfit c r hc hr _).2 rfl) fuel _ s3 h3
  exact advance_index_terminates hfit fuel s3 (by rw [hm.2.1]; dsimp only; omega) hf3

/-! ## The invariant of the stack -/

theorem state_ok_empty {n : Nat} :
    state_ok n (board_state.empty (make_board (n + 1))) := by
  refine ⟨by simp [board_state.empty], ?_, by simp [board_state.empty], ?_⟩
  · intro q hq; simp [board_state.empty] at hq
  · intro j hj
    have : (bitmap.new (make_board (n + 1))).get_bit j = true := hj
    rw [get_bit_new] at this
    exact Bool.noConfusion this

theorem stack_inv_initial {n : Nat} :
    stack_inv n [board_state.empty (make_board (n + 1))] := by
  constructor
  · intro st hst
    rw [List.mem_singleton] at hst
    rw [hst]; exact state_ok_empty
  · intro st hst; simp at hst

/-- The state that `place_queen` returns keeps the invariant, unless it is a solution. -/
theorem state_ok_place {n : Nat} (hfit : 3 * (n + 1) * n + 1 < 4294967296)
    (fuel : Nat) (st res : board_state) (hok : state_ok n st)
    (hidx : st.index < 3 * (n + 1) * n + 1)
    (h : st.place_queen (make_board (n + 1)) fuel = some res)
    (hlen : res.queens.length ≠ 2 * n + 1) : state_ok n res := by
  obtain ⟨p1, p2, p3, p4, p5, p6, p7, p8, p9⟩ := place_queen_some hfit fuel st res hidx h
  obtain ⟨o1, o2, o3, o4⟩ := hok
  refine ⟨?_, ?_, p7, ?_⟩
  · rw [p1, List.length_append, List.length_singleton] at hlen ⊢
    omega
  · intro q hq
    rw [p1, List.mem_append, List.mem_singleton] at hq
    rcases hq with hq | hq
    · exact o2 q hq
    · rw [hq]; exact hidx
  · intro j hj
    rw [p1]
    rcases p5 j hj with h1 | h1 | h1
    · rcases o4 j h1 with h2 | ⟨q, hq, h2⟩
      · left; exact List.mem_append_left _ h2
      · right; exact ⟨q, List.mem_append_left _ hq, h2⟩
    · left; rw [h1]; simp
    · right; exact ⟨st.index, by simp, h1.2⟩

theorem state_ok_advance {n : Nat} (hfit : 3 * (n + 1) * n + 1 < 4294967296)
    (fuel : Nat) (st res : board_state) (hok : state_ok n st)
    (hidx : st.index < 3 * (n + 1) * n + 1)
    (h : st.advance_index (make_board (n + 1)) fuel = some res) : state_ok n res := by
  obtain ⟨a1, a2, a3, a4, a5, a6⟩ := advance_index_some hfit fuel st res hidx h
  obtain ⟨o1, o2, o3, o4⟩ := hok
  refine ⟨by rw [a1]; exact o1, by rw [a1]; exact o2, a4, ?_⟩
  rw [a1, a2]; exact o4

theorem stack_inv_push {n : Nat} (hfit : 3 * (n + 1) * n + 1 < 4294967296)
    (fuel : Nat) (st res : board_state) (rest : List board_state)
    (hinv : stack_inv n (st :: rest)) (hidx : st.index < 3 * (n + 1) * n + 1)
    (h : st.place_queen (make_board (n + 1)) fuel = some res)
    (hlen : res.queens.length ≠ 2 * n + 1) : stack_inv n (res :: st :: rest) := by
  obtain ⟨i1, i2⟩ := hinv
  constructor
  · intro s hs
    rcases List.mem_cons.1 hs with h1 | h1
    · rw [h1]
      exact state_ok_place hfit fuel st res (i1 st (List.mem_cons_self _ _)) hidx h hlen
    · exact i1 s h1
  · intro s hs
    rcases List.mem_cons.1 hs with h1 | h1
    · rw [h1]; exact hidx
    · exact i2 s h1

theorem stack_inv_pop {n : Nat} (hfit : 3 * (n + 1) * n + 1 < 4294967296)
    (fuel : Nat) (st top res : board_state) (below : List board_state)
    (hinv : stack_inv n (st :: top :: below))
    (h : top.advance_index (make_board (n + 1)) fuel = some res) :
    stack_inv n (res :: below) := by
  obtain ⟨i1, i2⟩ := hinv
  have htop : top.index < 3 * (n + 1) * n + 1 := i2 top (List.mem_cons_self _ _)
  constructor
  · intro s hs
    rcases List.mem_cons.1 hs with h1 | h1
    · rw [h1]
      exact state_ok_advance hfit fuel top res
        (i1 top (List.mem_cons_of_mem _ (List.mem_cons_self _ _))) htop h
    · exact i1 s (List.mem_cons_of_mem _ (List.mem_cons_of_mem _ h1))
  · intro s hs
    exact i2 s (List.mem_cons_of_mem _ hs)

theorem stack_inv_top_lt {n : Nat} (st top : board_state) (below : List board_state)
    (hinv : stack_inv n (st :: top :: below)) : top.index < 3 * (n + 1) * n + 1 :=
  hinv.2 top (List.mem_cons_self _ _)

/-! ## The backtracking loop -/

/-- A solution reported by the loop has one queen per column, each on a cell. -/
theorem solve_loop_solved {n : Nat} (hfit : 3 * (n + 1) * n + 1 < 4294967296) (inner : Nat) :
    ∀ (fuel : Nat) (stack : List board_state) (qs : List Nat), stack_inv n stack →
      solve_loop (make_board (n + 1)) inner fuel stack = some (outcome.solved qs) →
      qs.length = 2 * n + 1 ∧ ∀ q, q ∈ qs → q < 3 * (n + 1) * n + 1 := by
  intro fuel
  induction fuel with
  | zero => intro stack qs _ h; simp [solve_loop] at h
  | succ fuel ih =>
    intro stack qs hinv h
    cases stack with
    | nil => simp [solve_loop] at h
    | cons st rest =>
      unfold solve_loop at h
      rw [board_cell_count hfit, board_horizontal_size hfit] at h
      by_cases hc : st.index ≥ 3 * (n + 1) * n + 1
      · rw [if_pos hc] at h
        cases rest with
        | nil => exact ih [] qs ⟨by simp, by simp⟩ h
        | cons top below =>
          dsimp only at h
          cases ha : top.advance_index (make_board (n + 1)) inner with
          | none => rw [ha] at h; simp at h
          | some res =>
            rw [ha] at h
            exact ih _ qs (stack_inv_pop hfit inner st top res below hinv ha) h
      · rw [if_neg hc] at h
        cases hp : st.place_queen (make_board (n + 1)) inner with
        | none => rw [hp] at h; simp at h
        | some res =>
          rw [hp] at h
          dsimp only at h
          by_cases hl : res.queens.length = 2 * n + 1
          · rw [if_pos hl] at h
            have hq : res.queens = qs := by
              have := Option.some.inj h
              exact outcome.solved.inj this
            rw [← hq]
            refine ⟨hl, ?_⟩
            obtain ⟨p1, -⟩ := place_queen_some hfit inner st res (by omega) hp
            intro q hq2
            rw [p1, List.mem_append, List.mem_singleton] at hq2
            rcases hq2 with h1 | h1
            · exact (hinv.1 st (List.mem_cons_self _ _)).2.1 q h1
            · rw [h1]; omega
          · rw [if_neg hl] at h
            exact ih _ qs (stack_inv_push hfit inner st res rest hinv (by omega) hp hl) h

theorem weight_pos (N i : Nat) : 1 ≤ weight N i := by
  unfold weight; exact Nat.one_le_pow _ _ (by omega)

theorem weight_anti (N : Nat) {i j : Nat} (h : i ≤ j) : weight N j ≤ weight N i := by
  unfold weight; exact Nat.pow_le_pow_right (by omega) (by omega)

theorem weight_succ (N : Nat) {i : Nat} (h : i ≤ N) : weight N i = 3 * weight N (i + 1) := by
  unfold weight
  have e : N + 1 - i = (N + 1 - (i + 1)) + 1 := by omega
  rw [e, Nat.pow_succ]; ring

/-- With inner fuel for `place_queen` and `advance_index`, and outer fuel above the measure
of the stack, the loop of `solve` ends. -/
theorem solve_loop_terminates {n : Nat} (hfit : 3 * (n + 1) * n + 1 < 4294967296)
    (inner : Nat) (hf1 : 2 * n + 2 ≤ inner) (hf2 : 4 * n + 1 ≤ inner)
    (hf3 : 3 * (n + 1) * n + 1 ≤ inner) :
    ∀ (fuel : Nat) (stack : List board_state), stack_inv n stack →
      stack_measure (3 * (n + 1) * n + 1) stack < fuel →
      ∃ out, solve_loop (make_board (n + 1)) inner fuel stack = some out := by
  intro fuel
  induction fuel with
  | zero => intro stack _ h; omega
  | succ fuel ih =>
    intro stack hinv hm
    cases stack with
    | nil => exact ⟨outcome.no_solution, by simp [solve_loop]⟩
    | cons st rest =>
      unfold solve_loop
      rw [board_cell_count hfit, board_horizontal_size hfit]
      by_cases hc : st.index ≥ 3 * (n + 1) * n + 1
      · rw [if_pos hc]
        cases rest with
        | nil =>
          dsimp only
          have := weight_pos (3 * (n + 1) * n + 1) st.index
          simp only [stack_measure, List.map_nil, List.sum_nil] at hm
          exact ih [] ⟨by simp, by simp⟩ (by simp only [stack_measure]; omega)
        | cons top below =>
          dsimp only
          have htop := stack_inv_top_lt st top below hinv
          obtain ⟨res, ha⟩ := advance_index_terminates hfit inner top htop hf3
          rw [ha]
          dsimp only
          obtain ⟨a1, a2, a3, a4, a5, a6⟩ := advance_index_some hfit inner top res htop ha
          apply ih _ (stack_inv_pop hfit inner st top res below hinv ha)
          have w1 := weight_pos (3 * (n + 1) * n + 1) st.index
          have w2 : weight (3 * (n + 1) * n + 1) res.index
              ≤ weight (3 * (n + 1) * n + 1) (top.index + 1) := weight_anti _ (by omega)
          simp only [stack_measure, List.map_cons, List.sum_cons] at hm ⊢
          omega
      · rw [if_neg hc]
        obtain ⟨res, hp⟩ := place_queen_terminates hfit inner st (by omega) hf1 hf2 hf3
        rw [hp]
        dsimp only
        by_cases hl : res.queens.length = 2 * n + 1
        · rw [if_pos hl]; exact ⟨_, rfl⟩
        · rw [if_neg hl]
          obtain ⟨p1, p2, p3, p4, p5, p6, p7, p8, p9⟩ :=
            place_queen_some hfit inner st res (by omega) hp
          apply ih _ (stack_inv_push hfit inner st res rest hinv (by omega) hp hl)
          have w1 := weight_pos (3 * (n + 1) * n + 1) (st.index + 1)
          have w2 : weight (3 * (n + 1) * n + 1) res.index
              ≤ weight (3 * (n + 1) * n + 1) (st.index + 1) := weight_anti _ (by omega)
          have w3 := weight_succ (3 * (n + 1) * n + 1) (show st.index ≤ _ by omega)
          simp only [stack_measure, List.map_cons, List.sum_cons] at hm ⊢
          omega

theorem solve_loop_mono (b : Board) (inner k : Nat) :
    ∀ (fuel m : Nat) (stack : List board_state) (out : outcome),
      solve_loop b inner fuel stack = some out →
      solve_loop b (inner + k) (fuel + m) stack = some out := by
  intro fuel
  induction fuel with
  | zero => intro m stack out h; simp [solve_loop] at h
  | succ fuel ih =>
    intro m stack out h
    have e : fuel + 1 + m = (fuel + m) + 1 := by omega
    rw [e]
    cases stack with
    | nil => simp only [solve_loop] at h ⊢; exact h
    | cons st rest =>
      unfold solve_loop at h
      unfold solve_loop
      by_cases hc : st.index ≥ b.cell_count
      · rw [if_pos hc] at h ⊢
        cases rest with
        | nil => dsimp only at h ⊢; exact ih m [] out h
        | cons top below =>
          dsimp only at h ⊢
          cases ha : top.advance_index b inner with
          | none => rw [ha] at h; simp at h
          | some res =>
            rw [ha] at h
            rw [advance_index_mono b inner k top res ha]
            exact ih m _ out h
      · rw [if_neg hc] at h ⊢
        cases hp : st.place_queen b inner with
        | none => rw [hp] at h; simp at h
        | some res =>
          rw [hp] at h
          rw [place_queen_mono b inner k st res hp]
          dsimp only at h ⊢
          by_cases hl : res.queens.length = b.horizontal_size
          · rw [if_pos hl] at h ⊢; exact h
          · rw [if_neg hl] at h ⊢; exact ih m _ out h

/-! ## Completeness of the search -/

/-- A state whose cursor has passed the last cell has no solution ahead. -/
theorem not_extends_of_exhausted {n : Nat} (hfit : 3 * (n + 1) * n + 1 < 4294967296)
    (st : board_state) (hok : state_ok n st) (hidx : st.index ≥ 3 * (n + 1) * n + 1)
    (P : Finset Nat) (hP : is_solution (make_board (n + 1)) P) :
    ¬ extends_from st st.index P := by
  rintro ⟨-, e2⟩
  obtain ⟨s1, s2, -⟩ := hP
  rw [board_horizontal_size hfit] at s1
  rw [board_cell_count hfit] at s2
  have hsub : P ⊆ st.queens.toFinset := by
    intro p hp
    rw [List.mem_toFinset]
    by_contra hnot
    have := e2 p hp hnot
    have := s2 p hp
    omega
  have h1 := Finset.card_le_card hsub
  have h2 := List.toFinset_card_le st.queens
  have h3 := hok.1
  omega

/-- A cell of a solution that is not a queen of the state has a clear bit in it. -/
theorem solution_bit_clear {n : Nat} (st : board_state) (hok : state_ok n st)
    (P : Finset Nat) (hP : is_solution (make_board (n + 1)) P)
    (hsub : ∀ q, q ∈ st.queens → q ∈ P) (p : Nat) (hp : p ∈ P) (hnot : p ∉ st.queens) :
    st.cells.get_bit p = false := by
  cases hb : st.cells.get_bit p with
  | false => rfl
  | true =>
    exfalso
    rcases hok.2.2.2 p hb with h1 | ⟨q, hq, h1⟩
    · exact hnot h1
    · have hne : q ≠ p := by
        intro h2; rw [h2] at hq; exact hnot hq
      exact hP.2.2 q (hsub q hq) p hp hne h1

theorem tracked_push {n : Nat} (hfit : 3 * (n + 1) * n + 1 < 4294967296)
    (fuel : Nat) (st res : board_state) (rest : List board_state)
    (hidx : st.index < 3 * (n + 1) * n + 1)
    (h : st.place_queen (make_board (n + 1)) fuel = some res)
    (hres : state_ok n res)
    (P : Finset Nat) (hP : is_solution (make_board (n + 1)) P)
    (ht : tracked (st :: rest) P) : tracked (res :: st :: rest) P := by
  obtain ⟨p1, p2, p3, p4, p5, p6, p7, p8, p9⟩ := place_queen_some hfit fuel st res hidx h
  rcases ht with ⟨e1, e2⟩ | ⟨s, hs, he⟩
  · by_cases hin : st.index ∈ P
    · left
      have hsub : ∀ q, q ∈ res.queens → q ∈ P := by
        intro q hq
        rw [p1, List.mem_append, List.mem_singleton] at hq
        rcases hq with h1 | h1
        · exact e1 q h1
        · rw [h1]; exact hin
      refine ⟨hsub, ?_⟩
      intro p hp hnot
      by_contra hlt
      have hnot2 : p ∉ st.queens ∧ p ≠ st.index := by
        rw [p1, List.mem_append, List.mem_singleton] at hnot
        exact ⟨fun h1 => hnot (Or.inl h1), fun h1 => hnot (Or.inr h1)⟩
      have h1 := e2 p hp hnot2.1
      have h2 := p8 p (by omega) (by omega)
      rw [solution_bit_clear res hres P hP hsub p hp hnot] at h2
      exact Bool.noConfusion h2
    · right
      refine ⟨st, List.mem_cons_self _ _, e1, ?_⟩
      intro p hp hnot
      have h1 := e2 p hp hnot
      have h2 : p ≠ st.index := by intro h3; rw [h3] at hp; exact hin hp
      omega
  · right
    exact ⟨s, List.mem_cons_of_mem _ hs, he⟩

theorem tracked_pop {n : Nat} (hfit : 3 * (n + 1) * n + 1 < 4294967296)
    (fuel : Nat) (st top res : board_state) (below : List board_state)
    (hinv : stack_inv n (st :: top :: below)) (hidx : st.index ≥ 3 * (n + 1) * n + 1)
    (h : top.advance_index (make_board (n + 1)) fuel = some res)
    (P : Finset Nat) (hP : is_solution (make_board (n + 1)) P)
    (ht : tracked (st :: top :: below) P) : tracked (res :: below) P := by
  have htop := stack_inv_top_lt st top below hinv
  obtain ⟨a1, a2, a3, a4, a5, a6⟩ := advance_index_some hfit fuel top res htop h
  have hoktop := hinv.1 top (List.mem_cons_of_mem _ (List.mem_cons_self _ _))
  rcases ht with he | ⟨s, hs, e1, e2⟩
  · exact absurd he
      (not_extends_of_exhausted hfit st (hinv.1 st (List.mem_cons_self _ _)) hidx P hP)
  · rcases List.mem_cons.1 hs with h1 | h1
    · left
      rw [h1] at e1 e2
      refine ⟨by rw [a1]; exact e1, ?_⟩
      intro p hp hnot
      rw [a1] at hnot
      by_contra hlt
      have h2 := e2 p hp hnot
      have h3 := a5 p (by omega) (by omega)
      rw [solution_bit_clear top hoktop P hP e1 p hp hnot] at h3
      exact Bool.noConfusion h3
    · right
      exact ⟨s, h1, e1, e2⟩

/-- When the loop ends with `No solution!`, no solution was ahead of the stack. -/
theorem solve_loop_no_solution {n : Nat} (hfit : 3 * (n + 1) * n + 1 < 4294967296)
    (inner : Nat) (P : Finset Nat) (hP : is_solution (make_board (n + 1)) P) :
    ∀ (fuel : Nat) (stack : List board_state), stack_inv n stack →
      solve_loop (make_board (n + 1)) inner fuel stack = some outcome.no_solution →
      ¬ tracked stack P := by
  intro fuel
  induction fuel with
  | zero => intro stack _ h; simp [solve_loop] at h
  | succ fuel ih =>
    intro stack hinv h
    cases stack with
    | nil => intro ht; exact ht
    | cons st rest =>
      unfold solve_loop at h
      rw [board_cell_count hfit, board_horizontal_size hfit] at h
      by_cases hc : st.index ≥ 3 * (n + 1) * n + 1
      · rw [if_pos hc] at h
        cases rest with
        | nil =>
          intro ht
          rcases ht with he | ⟨s, hs, -⟩
          · exact not_extends_of_exhausted hfit st (hinv.1 st (List.mem_cons_self _ _)) hc P hP
              he
          · simp at hs
        | cons top below =>
          dsimp only at h
          cases ha : top.advance_index (make_board (n + 1)) inner with
          | none => rw [ha] at h; simp at h
          | some res =>
            rw [ha] at h
            intro ht
            exact ih _ (stack_inv_pop hfit inner st top res below hinv ha) h
              (tracked_pop hfit inner st top res below hinv hc ha P hP ht)
      · rw [if_neg hc] at h
        cases hp : st.place_queen (make_board (n + 1)) inner with
        | none => rw [hp] at h; simp at h
        | some res =>
          rw [hp] at h
          dsimp only at h
          by_cases hl : res.queens.length = 2 * n + 1
          · rw [if_pos hl] at h
            exact absurd (Option.some.inj h) (by intro h2; exact outcome.noConfusion h2)
          · rw [if_neg hl] at h
            have hinv2 := stack_inv_push hfit inner st res rest hinv (by omega) hp hl
            intro ht
            exact ih _ hinv2 h
              (tracked_push hfit inner st res rest (by omega) hp
                (hinv2.1 res (List.mem_cons_self _ _)) P hP ht)

theorem tracked_initial (b : Board) (P : Finset Nat) : tracked [board_state.empty b] P := by
  left
  constructor
  · intro q hq; simp [board_state.empty] at hq
  · intro p _ _; exact Nat.zero_le _

/-! ## The claims on the geometry -/

/-- C5 (failing input). On the board of size 3 the lattice coordinate of index 0 is `(0, 6)`,
which `inside_board` rejects, and `inside_board` accepts `(0, 3)`, which is the lattice
coordinate of no index: the parity test of `inside_board` is the one of even sizes. -/
theorem C5_odd_size_parity :
    from_index (make_board 3) 6 0 = some ⟨0, 0⟩ ∧
    (⟨0, 0⟩ : hexagonal_coords).to_cartesian (make_board 3) = ⟨0, 6⟩ ∧
    (⟨0, 6⟩ : cartesian_coords).inside_board (make_board 3) = false ∧
    (⟨0, 3⟩ : cartesian_coords).inside_board (make_board 3) = true ∧
    (∀ i, i < (make_board 3).cell_count →
      (from_index (make_board 3) 6 i).map (fun h => h.to_cartesian (make_board 3))
        ≠ some ⟨0, 3⟩) := by
  decide

/-- C6. For every size from 1 on (with a cell count that fits `uint`) and every index below
the cell count, `from_index` followed by the conversion to lattice coordinates, the
conversion back to hexagonal coordinates and `to_index` gives the index again: with fuel
`2 * size` the round trip returns the index, and with any fuel it returns nothing else. -/
theorem C6_round_trip (size : Nat) (hsize : 1 ≤ size)
    (hfit : 3 * size * (size - 1) + 1 < 4294967296)
    (index : Nat) (hi : index < (make_board size).cell_count) :
    (∀ fuel, 2 * size ≤ fuel → round_trip (make_board size) fuel index = some index) ∧
    (∀ fuel r, round_trip (make_board size) fuel index = some r → r = index) := by
  obtain ⟨n, rfl, hfit'⟩ := size_succ hsize hfit
  rw [board_cell_count hfit'] at hi
  obtain ⟨c, r, hc, hr, rfl⟩ := index_split n index hi
  constructor
  · intro fuel hf
    unfold round_trip
    rw [from_index_split hfit' c r hc hr fuel (by omega)]
    simp only [Option.map_some']
    rw [to_cartesian_eq hfit' c r hc hr, index_of_split hfit' c r hc hr]
  · intro fuel res hres
    unfold round_trip at hres
    cases hfi : from_index (make_board (n + 1)) fuel (cum n c + r) with
    | none => rw [hfi] at hres; simp at hres
    | some h =>
      rw [hfi, from_index_split_some hfit' c r hc hr fuel h hfi] at hres
      simp only [Option.map_some'] at hres
      rw [to_cartesian_eq hfit' c r hc hr, index_of_split hfit' c r hc hr] at hres
      exact (Option.some.inj hres).symm

/-- Witness of C6: size 2, index 5. -/
theorem C6_round_trip_witness :
    (∀ fuel, 2 * 2 ≤ fuel → round_trip (make_board 2) fuel 5 = some 5) ∧
    (∀ fuel r, round_trip (make_board 2) fuel 5 = some r → r = 5) :=
  C6_round_trip 2 (by decide) (by decide) 5 (by decide)

/-- C8. For every size from 1 on whose cell count fits `uint`, the table of
`calculate_cumulative_cell_count` has `2 * size` entries, starts with 0, grows from column
`c` to `c + 1` by `size + (size - 1) - |size - 1 - c|`, is non-decreasing, and ends with the
cell count `3 * size * (size - 1) + 1` that `solve` computes. -/
theorem C8_cumulative_table (size : Nat) (hsize : 1 ≤ size)
    (hfit : 3 * size * (size - 1) + 1 < 4294967296) :
    (make_board size).cumulative_cell_count.length = 2 * size ∧
    (make_board size).cumulative_cell_count[0]? = some 0 ∧
    (∀ c, c < 2 * size - 1 → ∃ t t',
      (make_board size).cumulative_cell_count[c]? = some t ∧
      (make_board size).cumulative_cell_count[c + 1]? = some t' ∧
      (t' : Int) - t = (size : Int) + ((size : Int) - 1) - |(size : Int) - 1 - c|) ∧
    List.Pairwise (fun s t => s ≤ t) (make_board size).cumulative_cell_count ∧
    (make_board size).cumulative_cell_count.getLast? = some (make_board size).cell_count ∧
    (make_board size).cell_count = 3 * size * (size - 1) + 1 := by
  obtain ⟨n, rfl, hfit'⟩ := size_succ hsize hfit
  refine ⟨?_, ?_, ?_, ?_, ?_, ?_⟩
  · rw [board_table hfit']; simp; omega
  · rw [board_table_get hfit' 0 (by omega)]; rfl
  · intro c hc
    refine ⟨cum n c, cum n (c + 1), board_table_get hfit' c (by omega),
      board_table_get hfit' (c + 1) (by omega), ?_⟩
    rw [cum_succ]
    have hcc : col_count n c + ((n - c) + (c - n)) = 2 * n + 1 := by
      unfold col_count; omega
    push_cast
    rcases le_total c n with h | h
    · rw [abs_of_nonneg (by omega)]; omega
    · rw [abs_of_nonpos (by omega)]; omega
  · rw [board_table hfit', List.pairwise_map]
    exact (List.pairwise_lt_range _).imp (fun h => cum_mono n (le_of_lt h))
  · rw [board_table hfit', List.getLast?_map, List.getLast?_range, board_cell_count hfit']
    simp only [if_neg (show ¬ (2 * n + 2 = 0) by omega), Option.map_some']
    have e : 2 * n + 2 - 1 = 2 * n + 1 := by omega
    rw [e, cum_total]
  · rw [board_cell_count hfit']; simp

/-- Witness of C8: size 2. -/
theorem C8_cumulative_table_witness :
    (make_board 2).cumulative_cell_count.length = 2 * 2 ∧
    (make_board 2).cumulative_cell_count[0]? = some 0 ∧
    (∀ c : Nat, c < 2 * 2 - 1 → ∃ t t' : Nat,
      (make_board 2).cumulative_cell_count[c]? = some t ∧
      (make_board 2).cumulative_cell_count[c + 1]? = some t' ∧
      (t' : Int) - t = ((2 : Nat) : Int) + (((2 : Nat) : Int) - 1)
        - |((2 : Nat) : Int) - 1 - c|) ∧
    List.Pairwise (fun s t => s ≤ t) (make_board 2).cumulative_cell_count ∧
    (make_board 2).cumulative_cell_count.getLast? = some (make_board 2).cell_count ∧
    (make_board 2).cell_count = 3 * 2 * (2 - 1) + 1 :=
  C8_cumulative_table 2 (by decide) (by decide)

/-- C9 (as stated, refuted). For size 2 the table of `calculate_cumulative_cell_count` is not
`[0, 3, 6, 7]`. -/
theorem C9_table_counterexample : (make_board 2).cumulative_cell_count ≠ [0, 3, 6, 7] := by
  decide

/-- C9 (amended). For size 2 the table of `calculate_cumulative_cell_count` is
`[0, 2, 5, 7]`: the three columns hold 2, 3 and 2 cells, as the column formula
`size + (size - 1) - |size - 1 - c|` gives. -/
theorem C9_table_size_two :
    (make_board 2).cumulative_cell_count = [0, 2, 5, 7] ∧
    (List.range 3).map (fun c => uint_sub (uint_add 2 1) (abs_of_diff 1 c)) = [2, 3, 2] := by
  decide

/-- C10. For every size from 1 on (cell count fitting `uint`), a set of cells of the board that
is pairwise non-attacking under the twelve-direction rule has at most `2 * size - 1`
elements, the number `horizontal_size` of queens that `solve` asks for. -/
theorem C10_maximum (size : Nat) (hsize : 1 ≤ size)
    (hfit : 3 * size * (size - 1) + 1 < 4294967296) (P : Finset Nat)
    (hP : ∀ p ∈ P, p < (make_board size).cell_count)
    (hna : ∀ p ∈ P, ∀ q ∈ P, p ≠ q → ¬ attacks (make_board size) p q) :
    P.card ≤ 2 * size - 1 ∧ (make_board size).horizontal_size = 2 * size - 1 := by
  obtain ⟨n, rfl, hfit'⟩ := size_succ hsize hfit
  rw [board_cell_count hfit'] at hP
  rw [board_horizontal_size hfit']
  have := card_le_columns hfit' P hP hna
  omega

/-! ## The claims on the search -/

theorem three_pow_gt (m : Nat) : m < 3 ^ m := by
  induction m with
  | zero => simp
  | succ m ih => rw [Nat.pow_succ]; omega

theorem cell_count_ge (n : Nat) : 4 * n + 1 ≤ 3 * (n + 1) * n + 1 := by
  have : 3 * (n + 1) * n = 3 * (n * n) + 3 * n := by ring
  have h2 : n ≤ n * n := Nat.le_mul_self n
  omega

set_option maxRecDepth 1000000 in
/-- C1 (failing input). For size 3 `solve` ends with `Solved!` and the queens
`[0, 1, 2, 3, 4]`, and the queens 0 and 1 (lattice coordinates `(0, 6)` and `(0, 4)`, one
step `(0, -2)` apart) attack each other. The same happens for size 17, inside the range
`size >= 16` of the comment on `solve`: the queens are `0, ..., 32`, and 0 and 1 (lattice
coordinates `(0, 48)` and `(0, 46)`) attack each other. -/
theorem C1_odd_size_attacking :
    (solve 5 3 = some (outcome.solved [0, 1, 2, 3, 4]) ∧ attacks (make_board 3) 0 1) ∧
    (solve 34 17 = some (outcome.solved (List.range 33)) ∧ attacks (make_board 17) 0 1) := by
  refine ⟨⟨by decide, ⟨0, 6⟩, ⟨0, 4⟩, ⟨3, ⟨0, 0⟩, by decide, by decide⟩,
    ⟨3, ⟨0, 1⟩, by decide, by decide⟩, (0, -2), by decide, 1, by decide, by decide,
    by decide⟩, ⟨by decide, ⟨0, 48⟩, ⟨0, 46⟩, ⟨7, ⟨0, 0⟩, by decide, by decide⟩,
    ⟨7, ⟨0, 1⟩, by decide, by decide⟩, (0, -2), by decide, 1, by decide, by decide,
    by decide⟩⟩

/-- C2. For every size from 1 on (cell count fitting `uint`): when `solve` ends with
`No solution!`, there is no set of `2 * size - 1` cells of the board that are pairwise
non-attacking under the twelve-direction rule. -/
theorem C2_exhaustion_correct (size : Nat) (hsize : 1 ≤ size)
    (hfit : 3 * size * (size - 1) + 1 < 4294967296) (fuel : Nat)
    (h : solve fuel size = some outcome.no_solution) :
    ¬ ∃ P : Finset Nat, P.card = 2 * size - 1 ∧
      (∀ p, p ∈ P → p < (make_board size).cell_count) ∧
      (∀ p, p ∈ P → ∀ q, q ∈ P → p ≠ q → ¬ attacks (make_board size) p q) := by
  obtain ⟨n, rfl, hfit'⟩ := size_succ hsize hfit
  rintro ⟨P, h1, h2, h3⟩
  have hP : is_solution (make_board (n + 1)) P := by
    refine ⟨?_, h2, h3⟩
    rw [board_horizontal_size hfit', h1]; omega
  exact solve_loop_no_solution hfit' fuel P hP fuel _ stack_inv_initial h
    (tracked_initial _ P)

/-- Witness of C2: size 2, where the search ends with `No solution!`. -/
theorem C2_exhaustion_correct_witness :
    ¬ ∃ P : Finset Nat, P.card = 2 * 2 - 1 ∧
      (∀ p, p ∈ P → p < (make_board 2).cell_count) ∧
      (∀ p, p ∈ P → ∀ q, q ∈ P → p ≠ q → ¬ attacks (make_board 2) p q) :=
  C2_exhaustion_correct 2 (by decide) (by decide) 16 (by decide)

/-- C3. For every size from 1 on (cell count fitting `uint`): the queens that `solve` reports
with `Solved!` are exactly `2 * size - 1` (the value of `horizontal_size`), each a linear
index below the cell count. -/
theorem C3_solution_complete (size : Nat) (hsize : 1 ≤ size)
    (hfit : 3 * size * (size - 1) + 1 < 4294967296) (fuel : Nat) (qs : List Nat)
    (h : solve fuel size = some (outcome.solved qs)) :
    qs.length = 2 * size - 1 ∧ (make_board size).horizontal_size = 2 * size - 1 ∧
    ∀ q, q ∈ qs → q < (make_board size).cell_count := by
  obtain ⟨n, rfl, hfit'⟩ := size_succ hsize hfit
  obtain ⟨h1, h2⟩ := solve_loop_solved hfit' fuel fuel _ qs stack_inv_initial h
  rw [board_horizontal_size hfit', board_cell_count hfit']
  exact ⟨by omega, by omega, h2⟩

set_option maxRecDepth 1000000 in
/-- The run of `solve` for size 4. -/
theorem solve_size_four : solve 241 4 = some (outcome.solved [1, 8, 9, 18, 27, 28, 35]) := by
  decide

/-- Witness of C3: size 4, where the search reports seven queens. -/
theorem C3_solution_complete_witness :
    [1, 8, 9, 18, 27, 28, 35].length = 2 * 4 - 1 ∧
    (make_board 4).horizontal_size = 2 * 4 - 1 ∧
    ∀ q, q ∈ [1, 8, 9, 18, 27, 28, 35] → q < (make_board 4).cell_count :=
  C3_solution_complete 4 (by decide) (by decide) 241 [1, 8, 9, 18, 27, 28, 35]
    solve_size_four

/-- C4. For every size from 1 on (cell count fitting `uint`) the loop of `solve` ends: from some
amount of fuel on, `solve` returns one and the same outcome, `Solved!` or `No solution!`, so
neither the backtracking loop nor a ray walk of `mark_captured_cells`, a loop of
`advance_index` or the binary search of `from_index` inside it runs out of fuel. -/
theorem C4_termination (size : Nat) (hsize : 1 ≤ size)
    (hfit : 3 * size * (size - 1) + 1 < 4294967296) :
    ∃ fuel out, ∀ fuel', fuel ≤ fuel' → solve fuel' size = some out := by
  obtain ⟨n, rfl, hfit'⟩ := size_succ hsize hfit
  have hge := cell_count_ge n
  have hpow := three_pow_gt (3 * (n + 1) * n + 1 + 1)
  have hm : stack_measure (3 * (n + 1) * n + 1) [board_state.empty (make_board (n + 1))]
      = 3 ^ (3 * (n + 1) * n + 1 + 1) := by
    simp [stack_measure, weight, board_state.empty]
  obtain ⟨out, hout⟩ := solve_loop_terminates hfit' (3 ^ (3 * (n + 1) * n + 1 + 1) + 1)
    (by omega) (by omega) (by omega) (3 ^ (3 * (n + 1) * n + 1 + 1) + 1) _ stack_inv_initial
    (by rw [hm]; omega)
  refine ⟨3 ^ (3 * (n + 1) * n + 1 + 1) + 1, out, ?_⟩
  intro fuel' hf
  obtain ⟨k, rfl⟩ := Nat.exists_eq_add_of_le hf
  exact solve_loop_mono _ _ k _ k _ out hout

/-- Witness of C4: size 2. -/
theorem C4_termination_witness :
    ∃ fuel out, ∀ fuel', fuel ≤ fuel' → solve fuel' 2 = some out :=
  C4_termination 2 (by decide) (by decide)

/-! ## Capture symmetry -/

theorem coords_ext (p q : cartesian_coords) (hx : p.x = q.x) (hy : p.y = q.y) : p = q := by
  cases p; cases q; simp only at hx hy; rw [hx, hy]

/-- Walking back along the opposite ray retraces the coordinates of a walk. -/
theorem iterate_back {n : Nat} (hfit : 3 * (n + 1) * n + 1 < 4294967296)
    (it it2 : cartesian_coords → cartesian_coords) (d : Int × Int) (hd : (it, d) ∈ rays)
    (hd2 : (it2, (-d.1, -d.2)) ∈ rays)
    (a : cartesian_coords) (hax : a.x ≤ 2 * n) (hay : a.y ≤ 4 * n) (k : Nat)
    (hin : ∀ i, 1 ≤ i → i ≤ k → (it^[i] a).inside_board (make_board (n + 1)) = true) :
    ∀ i, i ≤ k → it2^[i] (it^[k] a) = it^[k - i] a := by
  have hn := size_bound hfit
  intro i
  induction i with
  | zero => intro _; rfl
  | succ i ih =>
    intro hi
    rw [Function.iterate_succ_apply', ih (by omega)]
    obtain ⟨j, hj⟩ : ∃ j, k - i = j + 1 := ⟨k - i - 1, by omega⟩
    have hj2 : k - (i + 1) = j := by omega
    rw [hj, hj2]
    have hin1 : ∀ i2, 1 ≤ i2 → i2 ≤ j + 1 →
        (it^[i2] a).inside_board (make_board (n + 1)) = true :=
      fun i2 h1 h2 => hin i2 h1 (by omega)
    obtain ⟨cx, cy⟩ := iterate_exact hfit it d hd a hax hay (j + 1) hin1
    obtain ⟨tx, ty⟩ := iterate_exact hfit it d hd a hax hay j
      (fun i2 h1 h2 => hin i2 h1 (by omega))
    have hc := (inside_board_iff hfit _).1 (hin (j + 1) (by omega) (by omega))
    have c1 := hc.1
    have c2 := hc.2.1
    obtain ⟨sx, sy⟩ := ray_step it2 _ hd2 (it^[j + 1] a) (by omega) (by omega)
    dsimp only at sx sy
    have e1 : ((j + 1 : Nat) : Int) * d.1 = j * d.1 + d.1 := by push_cast; ring
    have e2 : ((j + 1 : Nat) : Int) * d.2 = j * d.2 + d.2 := by push_cast; ring
    rw [e1] at cx
    rw [e2] at cy
    have hrect : (it^[j] a).x ≤ 2 * n ∧ (it^[j] a).y ≤ 4 * n := by
      rcases Nat.eq_zero_or_pos j with h0 | h0
      · subst h0; exact ⟨hax, hay⟩
      · have := (inside_board_iff hfit _).1 (hin j h0 (by omega))
        exact ⟨this.1, this.2.1⟩
    obtain ⟨r1, r2⟩ := hrect
    clear hc hin hin1 ih
    apply coords_ext <;> omega

/-- The cell of an index from which a ray walk marks something is accepted by
`inside_board`. -/
theorem inside_of_first_step {n : Nat} (hfit : 3 * (n + 1) * n + 1 < 4294967296)
    (it : cartesian_coords → cartesian_coords) (d : Int × Int) (hd : (it, d) ∈ rays)
    (a : cartesian_coords) (hcell : is_cell n a)
    (h1 : (it^[1] a).inside_board (make_board (n + 1)) = true) :
    a.inside_board (make_board (n + 1)) = true := by
  obtain ⟨hax, hay⟩ := is_cell_rect hcell
  obtain ⟨ex, ey⟩ := iterate_exact hfit it d hd a hax hay 1 (by
    intro i h2 h3
    have : i = 1 := by omega
    rw [this]; exact h1)
  obtain ⟨-, -, -, -, -, hpar⟩ := ray_vector it d hd
  have hodd := ((inside_board_iff hfit _).1 h1).2.2.1
  apply inside_of_is_cell hfit a hcell
  omega

/-- C7. For every size from 1 on (cell count fitting `uint`) and all cells `A`, `B`: if the ray
walk of `place_queen` with step `d` from the lattice coordinates of `A`, run on the empty
board, sets the bit of `B`, then the walk with the opposite step from the lattice
coordinates of `B`, run on the empty board, returns and sets the bit of `A`. -/
theorem C7_capture_symmetry (size : Nat) (hsize : 1 ≤ size)
    (hfit : 3 * size * (size - 1) + 1 < 4294967296) (A B : Nat)
    (hA : A < (make_board size).cell_count) (hB : B < (make_board size).cell_count)
    (it it2 : cartesian_coords → cartesian_coords) (d : Int × Int) (hd : (it, d) ∈ rays)
    (hd2 : (it2, (-d.1, -d.2)) ∈ rays) (fuel : Nat) (hexA : hexagonal_coords)
    (st : board_state)
    (h1 : from_index (make_board size) fuel A = some hexA)
    (h2 : (board_state.empty (make_board size)).mark_captured_cells (make_board size) fuel
      (hexA.to_cartesian (make_board size)) it = some st)
    (h3 : st.cells.get_bit B = true) :
    ∃ fuel2 hexB st2, from_index (make_board size) fuel2 B = some hexB ∧
      (board_state.empty (make_board size)).mark_captured_cells (make_board size) fuel2
        (hexB.to_cartesian (make_board size)) it2 = some st2 ∧
      st2.cells.get_bit A = true := by
  obtain ⟨n, rfl, hfit'⟩ := size_succ hsize hfit
  rw [board_cell_count hfit'] at hA hB
  have hlatA : lattice_of (make_board (n + 1)) A (hexA.to_cartesian (make_board (n + 1))) :=
    ⟨fuel, hexA, h1, rfl⟩
  generalize hexA.to_cartesian (make_board (n + 1)) = a at h2 hlatA
  obtain ⟨hcellA, hidxA⟩ := lattice_of_props hfit' A hA a hlatA
  obtain ⟨hax, hay⟩ := is_cell_rect hcellA
  -- what the walk from `A` has visited
  unfold board_state.mark_captured_cells at h2
  cases hm : mark_loop (make_board (n + 1)) it fuel (it a)
      (board_state.empty (make_board (n + 1))).cells with
  | none => rw [hm] at h2; simp at h2
  | some cells =>
    rw [hm] at h2
    have hst : st.cells = cells := by rw [← Option.some.inj h2]
    obtain ⟨m, -, hpre, -, hres⟩ := mark_loop_some _ it fuel _ _ _ hm
    rw [hst, hres] at h3
    rcases get_bit_set_bits _ _ B h3 with h4 | h4
    · have : (bitmap.new (make_board (n + 1))).get_bit B = true := h4
      rw [get_bit_new] at this
      exact Bool.noConfusion this
    · obtain ⟨i, hi, hiB⟩ := (mem_visited _ it _ m B).1 h4
      rw [← Function.iterate_succ_apply] at hiB
      have hin : ∀ i2, 1 ≤ i2 → i2 ≤ i + 1 →
          (it^[i2] a).inside_board (make_board (n + 1)) = true := by
        intro i2 h5 h6
        have := hpre (i2 - 1) (by omega)
        rw [← Function.iterate_succ_apply] at this
        have e : (i2 - 1).succ = i2 := by omega
        rw [e] at this; exact this
      obtain ⟨-, hlatB, -⟩ := visited_attacks hfit' it d hd A hA a hlatA (i + 1) (by omega) hin
      rw [show i.succ = i + 1 from rfl] at hiB
      rw [hiB] at hlatB
      -- the walk back from `B`
      have hback := iterate_back hfit' it it2 d hd hd2 a hax hay (i + 1) hin
      have hinA : a.inside_board (make_board (n + 1)) = true :=
        inside_of_first_step hfit' it d hd a hcellA (hin 1 (by omega) (by omega))
      have hin2 : ∀ i2, 1 ≤ i2 → i2 ≤ i + 1 →
          (it2^[i2] (it^[i + 1] a)).inside_board (make_board (n + 1)) = true := by
        intro i2 h5 h6
        rw [hback i2 h6]
        rcases Nat.eq_zero_or_pos (i + 1 - i2) with h7 | h7
        · rw [h7]; exact hinA
        · exact hin _ h7 (by omega)
      obtain ⟨hcellB, -⟩ := lattice_of_props hfit' B hB _ hlatB
      obtain ⟨hbx, hby⟩ := is_cell_rect hcellB
      obtain ⟨m2, hm2, hpre2, hexit2⟩ := walk_exit hfit' it2 _ hd2 (it^[i + 1] a) hbx hby
      have hlt : i < m2 := by
        by_contra hcon
        have := hin2 (m2 + 1) (by omega) (by omega)
        rw [Function.iterate_succ_apply, hexit2] at this
        exact Bool.noConfusion this
      obtain ⟨fuelB, hexB, hB1, hB2⟩ := hlatB
      have hwalk : (board_state.empty (make_board (n + 1))).mark_captured_cells
          (make_board (n + 1)) (fuelB + (4 * n + 1)) (hexB.to_cartesian (make_board (n + 1)))
          it2 = some { board_state.empty (make_board (n + 1)) with
            cells := set_bits (board_state.empty (make_board (n + 1))).cells
              (visited (make_board (n + 1)) it2 (it2 (it^[i + 1] a)) m2) } := by
        unfold board_state.mark_captured_cells
        rw [hB2, mark_loop_exact _ it2 _ m2 _ _ hpre2 hexit2 (by omega)]
      refine ⟨fuelB + (4 * n + 1), hexB, _, from_index_mono _ fuelB _ B hexB hB1, hwalk, ?_⟩
      · show (set_bits _ _).get_bit A = true
        apply get_bit_set_bits_of_mem
        · rw [mem_visited]
          refine ⟨i, hlt, ?_⟩
          rw [← Function.iterate_succ_apply, show i.succ = i + 1 from rfl,
            hback (i + 1) (le_refl _), Nat.sub_self]
          exact hidxA
        · exact new_length hfit' A hA

/-- Witness of C7: on the board of size 2 the walk up from cell 0 marks cell 1, and the
walk down from cell 1 marks cell 0. -/
theorem C7_capture_symmetry_witness :
    ∃ fuel2 hexB st2, from_index (make_board 2) fuel2 1 = some hexB ∧
      (board_state.empty (make_board 2)).mark_captured_cells (make_board 2) fuel2
        (hexB.to_cartesian (make_board 2)) ray_down = some st2 ∧
      st2.cells.get_bit 0 = true :=
  C7_capture_symmetry 2 (by decide) (by decide) 0 1 (by decide) (by decide) ray_up ray_down
    (0, -2) (by simp [rays]) (by simp [rays]) 4 ⟨0, 0⟩ ⟨[], ⟨[2]⟩, 0⟩ (by decide) (by decide)
    (by decide)

/-! ## The bitmap as a set -/

theorem cell_count_lt (size : Nat) : (make_board size).cell_count < 4294967296 := by
  unfold make_board
  dsimp only
  unfold uint_add UINT_MOD
  omega

theorem clear_mask_testBit :
    ∀ k, k < 8 → ∀ l, l < 8 →
      Nat.testBit (18446744073709551616 - 1 - 1 <<< k) l = decide (l ≠ k) := by
  decide

theorem clear_bit_getD (m : bitmap) (i a : Nat) :
    (m.clear_bit i)._data.getD a 0 =
      if a = i / 8 ∧ a < m._data.length then
        m._data.getD (i / 8) 0 &&& (18446744073709551616 - 1 - 1 <<< (i % 8))
      else m._data.getD a 0 := by
  unfold bitmap.clear_bit SIZEOF_SIZE_T SIZE_MOD
  dsimp only
  rw [List.getD_eq_getElem?_getD, List.getD_eq_getElem?_getD,
    List.getD_eq_getElem?_getD, List.getElem?_set]
  by_cases h1 : i / 8 = a
  · subst h1
    by_cases h2 : i / 8 < m._data.length
    · simp [h2]
    · simp [h2, List.getElem?_eq_none (Nat.le_of_not_lt h2)]
  · rw [if_neg h1, if_neg (by intro h; exact h1 h.1.symm)]

/-- After `clear_bit(i)` exactly the bits other than `i` that were set are set. -/
theorem get_bit_clear_bit (m : bitmap) (i j : Nat) :
    (m.clear_bit i).get_bit j = true ↔ j ≠ i ∧ m.get_bit j = true := by
  rw [get_bit_eq, clear_bit_getD, get_bit_eq]
  by_cases hc : j / 8 = i / 8 ∧ j / 8 < m._data.length
  · rw [if_pos hc, Nat.testBit_and,
      clear_mask_testBit (i % 8) (Nat.mod_lt _ (by omega)) (j % 8) (Nat.mod_lt _ (by omega)),
      Bool.and_eq_true, decide_eq_true_eq, hc.1]
    constructor
    · rintro ⟨h1, h2⟩
      refine ⟨?_, h1⟩
      intro h3; rw [h3] at h2; exact h2 rfl
    · rintro ⟨h1, h2⟩
      refine ⟨h2, ?_⟩
      intro h3
      have h8 := hc.1
      omega
  · rw [if_neg hc]
    constructor
    · intro h
      refine ⟨?_, h⟩
      intro h3
      subst h3
      have hlen : ¬ j / 8 < m._data.length := fun h4 => hc ⟨rfl, h4⟩
      rw [List.getD_eq_getElem?_getD, List.getElem?_eq_none (Nat.le_of_not_lt hlen)] at h
      simp at h
    · intro h; exact h.2

theorem clear_bit_length (m : bitmap) (i : Nat) :
    (m.clear_bit i)._data.length = m._data.length := by
  unfold bitmap.clear_bit; simp

/-- C11. The bitmap of a board is a set of linear indices: a fresh bitmap has every bit
clear; for `i`, `j` below the cell count and a bitmap of the allocated length, after
`set_bit(i)` bit `j` is set iff `j = i` or it was set, after `clear_bit(i)` bit `j` is set
iff `j ≠ i` and it was set; two different indices never have the same word and position; the
word index `i / sizeof(size_t)` is below `get_array_size(cell_count)`; and `set_bit`,
`clear_bit` keep the length of the vector. -/
theorem C11_bitmap_faithful (size : Nat) (m : bitmap)
    (hm : m._data.length = bitmap.get_array_size (make_board size).cell_count)
    (i j : Nat) (hi : i < (make_board size).cell_count)
    (hj : j < (make_board size).cell_count) :
    (bitmap.new (make_board size)).get_bit j = false ∧
    ((bitmap.new (make_board size))._data.length
      = bitmap.get_array_size (make_board size).cell_count) ∧
    ((m.set_bit i).get_bit j = true ↔ (j = i ∨ m.get_bit j = true)) ∧
    ((m.clear_bit i).get_bit j = true ↔ (j ≠ i ∧ m.get_bit j = true)) ∧
    (i ≠ j → (i / SIZEOF_SIZE_T, i % SIZEOF_SIZE_T) ≠ (j / SIZEOF_SIZE_T, j % SIZEOF_SIZE_T)) ∧
    i / SIZEOF_SIZE_T < bitmap.get_array_size (make_board size).cell_count ∧
    (m.set_bit i)._data.length = m._data.length ∧
    (m.clear_bit i)._data.length = m._data.length := by
  have hcc := cell_count_lt size
  have hin : i / SIZEOF_SIZE_T < bitmap.get_array_size (make_board size).cell_count := by
    unfold bitmap.get_array_size SIZEOF_SIZE_T SIZE_MOD
    omega
  have hin8 : i / 8 < m._data.length := by rw [hm]; exact hin
  refine ⟨get_bit_new _ j, by simp [bitmap.new], ?_, get_bit_clear_bit m i j, ?_, hin,
    set_bit_length m i, clear_bit_length m i⟩
  · constructor
    · exact get_bit_set_bit m i j
    · rintro (h | h)
      · rw [h]; exact get_bit_set_bit_self m i hin8
      · exact get_bit_set_bit_of_get_bit m i j h
  · intro hne heq
    unfold SIZEOF_SIZE_T at heq
    have h1 := (Prod.mk.inj heq).1
    have h2 := (Prod.mk.inj heq).2
    omega

/-- Witness of C11: the bitmap of the board of size 2 after `set_bit(3)`, bits 3 and 5. -/
theorem C11_bitmap_faithful_witness :
    (bitmap.new (make_board 2)).get_bit 5 = false ∧
    ((bitmap.new (make_board 2))._data.length
      = bitmap.get_array_size (make_board 2).cell_count) ∧
    ((((bitmap.new (make_board 2)).set_bit 3).set_bit 3).get_bit 5 = true ↔
      (5 = 3 ∨ ((bitmap.new (make_board 2)).set_bit 3).get_bit 5 = true)) ∧
    ((((bitmap.new (make_board 2)).set_bit 3).clear_bit 3).get_bit 5 = true ↔
      (5 ≠ 3 ∧ ((bitmap.new (make_board 2)).set_bit 3).get_bit 5 = true)) ∧
    (3 ≠ 5 → (3 / SIZEOF_SIZE_T, 3 % SIZEOF_SIZE_T) ≠ (5 / SIZEOF_SIZE_T, 5 % SIZEOF_SIZE_T)) ∧
    3 / SIZEOF_SIZE_T < bitmap.get_array_size (make_board 2).cell_count ∧
    (((bitmap.new (make_board 2)).set_bit 3).set_bit 3)._data.length
      = ((bitmap.new (make_board 2)).set_bit 3)._data.length ∧
    (((bitmap.new (make_board 2)).set_bit 3).clear_bit 3)._data.length
      = ((bitmap.new (make_board 2)).set_bit 3)._data.length :=
  C11_bitmap_faithful 2 ((bitmap.new (make_board 2)).set_bit 3) (by decide) 3 5 (by decide)
    (by decide)

/-! ## The cursor, the small boards and the binary search -/

/-- C12. For every size from 1 on (cell count fitting `uint`) and every state with its cursor
below the cell count: `advance_index` returns; the new cursor is greater than the old one
and at most the cell count, it is the cell count or rests on a clear bit, every index
strictly between the old and the new cursor has its bit set, and queens and bitmap are
unchanged. The cursor that `place_queen` leaves obeys the same bounds, so the cursor never
decreases under either. -/
theorem C12_cursor_advance (size : Nat) (hsize : 1 ≤ size)
    (hfit : 3 * size * (size - 1) + 1 < 4294967296) (st : board_state)
    (hidx : st.index < (make_board size).cell_count) :
    (∃ fuel res, st.advance_index (make_board size) fuel = some res) ∧
    (∀ fuel res, st.advance_index (make_board size) fuel = some res →
      st.index < res.index ∧ res.index ≤ (make_board size).cell_count ∧
      (res.index = (make_board size).cell_count ∨ res.cells.get_bit res.index = false) ∧
      (∀ j, st.index < j → j < res.index → res.cells.get_bit j = true) ∧
      res.queens = st.queens ∧ res.cells = st.cells) ∧
    (∀ fuel res, st.place_queen (make_board size) fuel = some res →
      st.index < res.index ∧ res.index ≤ (make_board size).cell_count ∧
      (res.index = (make_board size).cell_count ∨ res.cells.get_bit res.index = false) ∧
      (∀ j, st.index < j → j < res.index → res.cells.get_bit j = true)) := by
  obtain ⟨n, rfl, hfit'⟩ := size_succ hsize hfit
  rw [board_cell_count hfit'] at hidx ⊢
  refine ⟨?_, ?_, ?_⟩
  · obtain ⟨res, h⟩ := advance_index_terminates hfit' (3 * (n + 1) * n + 1) st hidx (le_refl _)
    exact ⟨_, res, h⟩
  · intro fuel res h
    obtain ⟨a1, a2, a3, a4, a5, a6⟩ := advance_index_some hfit' fuel st res hidx h
    refine ⟨a3, a4, ?_, ?_, a1, a2⟩
    · rcases Nat.eq_or_lt_of_le a4 with h1 | h1
      · left; exact h1
      · right; rw [a2]; exact a6 h1
    · intro j h1 h2; rw [a2]; exact a5 j h1 h2
  · intro fuel res h
    obtain ⟨p1, p2, p3, p4, p5, p6, p7, p8, p9⟩ := place_queen_some hfit' fuel st res hidx h
    refine ⟨p6, p7, ?_, p8⟩
    rcases Nat.eq_or_lt_of_le p7 with h1 | h1
    · left; exact h1
    · right; exact p9 h1

/-- Witness of C12: the empty state of the board of size 2. -/
theorem C12_cursor_advance_witness :
    (∃ fuel res, (board_state.empty (make_board 2)).advance_index (make_board 2) fuel
      = some res) ∧
    (∀ fuel res, (board_state.empty (make_board 2)).advance_index (make_board 2) fuel
        = some res →
      (board_state.empty (make_board 2)).index < res.index ∧
      res.index ≤ (make_board 2).cell_count ∧
      (res.index = (make_board 2).cell_count ∨ res.cells.get_bit res.index = false) ∧
      (∀ j, (board_state.empty (make_board 2)).index < j → j < res.index →
        res.cells.get_bit j = true) ∧
      res.queens = (board_state.empty (make_board 2)).queens ∧
      res.cells = (board_state.empty (make_board 2)).cells) ∧
    (∀ fuel res, (board_state.empty (make_board 2)).place_queen (make_board 2) fuel
        = some res →
      (board_state.empty (make_board 2)).index < res.index ∧
      res.index ≤ (make_board 2).cell_count ∧
      (res.index = (make_board 2).cell_count ∨ res.cells.get_bit res.index = false) ∧
      (∀ j, (board_state.empty (make_board 2)).index < j → j < res.index →
        res.cells.get_bit j = true)) :=
  C12_cursor_advance 2 (by decide) (by decide) (board_state.empty (make_board 2)) (by decide)

/-- C13. For size 2 the board has 7 cells and `solve` asks for 3 queens; `solve` either
reports 3 queens no two of which attack each other, or it reports `No solution!` and no 3
cells of the board are pairwise non-attacking. (The second is what happens.) -/
theorem C13_size_two :
    (make_board 2).cell_count = 7 ∧ (make_board 2).horizontal_size = 3 ∧
    ((∃ fuel qs, solve fuel 2 = some (outcome.solved qs) ∧ qs.length = 3 ∧
        ∀ a, a ∈ qs → ∀ b, b ∈ qs → a ≠ b → ¬ attacks (make_board 2) a b) ∨
     (∃ fuel, solve fuel 2 = some outcome.no_solution ∧
        ¬ ∃ P : Finset Nat, P.card = 3 ∧ (∀ p, p ∈ P → p < (make_board 2).cell_count) ∧
          (∀ p, p ∈ P → ∀ q, q ∈ P → p ≠ q → ¬ attacks (make_board 2) p q))) := by
  refine ⟨by decide, by decide, Or.inr ⟨16, by decide, ?_⟩⟩
  rintro ⟨P, h1, h2, h3⟩
  have hfit : 3 * (1 + 1) * 1 + 1 < 4294967296 := by decide
  have hP : is_solution (make_board (1 + 1)) P := ⟨h1, h2, h3⟩
  have hrun : solve_loop (make_board (1 + 1)) 16 16 [board_state.empty (make_board (1 + 1))]
      = some outcome.no_solution := by decide
  exact solve_loop_no_solution hfit 16 P hP 16 _ stack_inv_initial hrun (tracked_initial _ P)

/-- C14. For size 1 the board has one cell and one column, and `solve` reports the solution
`[0]` in the first iteration of its loop (one unit of loop fuel is enough, so no second state
is pushed). -/
theorem C14_size_one :
    (make_board 1).cell_count = 1 ∧ (make_board 1).horizontal_size = 1 ∧
    (∀ inner, 1 ≤ inner →
      solve_loop (make_board 1) inner 1 [board_state.empty (make_board 1)]
        = some (outcome.solved [0])) ∧
    (∀ fuel, 1 ≤ fuel → solve fuel 1 = some (outcome.solved [0])) ∧
    (board_state.empty (make_board 1)).place_queen (make_board 1) 1
      = some ⟨[0], ⟨[1]⟩, 1⟩ := by
  have h1 : solve_loop (make_board 1) 1 1 [board_state.empty (make_board 1)]
      = some (outcome.solved [0]) := by decide
  refine ⟨by decide, by decide, ?_, ?_, by decide⟩
  · intro inner hi
    obtain ⟨k, rfl⟩ := Nat.exists_eq_add_of_le hi
    exact solve_loop_mono _ 1 k 1 0 _ _ h1
  · intro fuel hf
    obtain ⟨k, rfl⟩ := Nat.exists_eq_add_of_le hf
    exact solve_loop_mono _ 1 k 1 k _ _ h1

theorem from_index_search_some {n : Nat} (hfit : 3 * (n + 1) * n + 1 < 4294967296)
    (index c : Nat) (hc : c ≤ 2 * n) (h1 : cum n c ≤ index) (h2 : index < cum n (c + 1))
    (fuel : Nat) (r : lookup)
    (hr : from_index_search (make_board (n + 1)) fuel index = some r) :
    r = lookup.found ⟨c, index - cum n c⟩ := by
  unfold from_index_search at hr
  have e1 := from_index_loop_mono _ index fuel (2 * n + 2) _ _ r hr
  rw [board_horizontal_size hfit] at e1
  rw [from_index_loop_correct hfit index c hc h1 h2 _ 0 (2 * n + 1) (by omega) (by omega)
    (by omega) (by omega)] at e1
  exact (Option.some.inj e1).symm

/-- C16. For every size from 1 on (cell count fitting `uint`) and every index below the cell
count there is exactly one column `c < 2 * size - 1` whose range `[table[c], table[c + 1])`
holds the index. With fuel `2 * size` the binary search of `from_index` returns that column
and the offset `index - table[c]`; with any fuel it returns nothing else, so it never reads
outside the table and never leaves through the `must not reach here` exit; and `to_index`
of the result is the index. -/
theorem C16_binary_search (size : Nat) (hsize : 1 ≤ size)
    (hfit : 3 * size * (size - 1) + 1 < 4294967296) (index : Nat)
    (hi : index < (make_board size).cell_count) :
    (make_board size).cumulative_cell_count.length = 2 * size ∧
    ∃ c lo up, c < 2 * size - 1 ∧
      (make_board size).cumulative_cell_count[c]? = some lo ∧
      (make_board size).cumulative_cell_count[c + 1]? = some up ∧
      lo ≤ index ∧ index < up ∧
      (∀ c2 lo2 up2, c2 < 2 * size - 1 →
        (make_board size).cumulative_cell_count[c2]? = some lo2 →
        (make_board size).cumulative_cell_count[c2 + 1]? = some up2 →
        lo2 ≤ index → index < up2 → c2 = c) ∧
      (∀ fuel, 2 * size ≤ fuel →
        from_index_search (make_board size) fuel index
          = some (lookup.found ⟨c, index - lo⟩)) ∧
      (∀ fuel r, from_index_search (make_board size) fuel index = some r →
        r = lookup.found ⟨c, index - lo⟩) ∧
      (∀ fuel, 2 * size ≤ fuel →
        from_index (make_board size) fuel index = some ⟨c, index - lo⟩) ∧
      (⟨c, index - lo⟩ : hexagonal_coords).to_index (make_board size) = index := by
  obtain ⟨n, rfl, hfit'⟩ := size_succ hsize hfit
  rw [board_cell_count hfit'] at hi
  obtain ⟨c, r, hc, hr, he⟩ := index_split n index hi
  have h1 : cum n c ≤ index := by omega
  have h2 : index < cum n (c + 1) := by rw [cum_succ]; omega
  refine ⟨by rw [board_table hfit']; simp; omega, c, cum n c, cum n (c + 1), by omega,
    board_table_get hfit' c (by omega), board_table_get hfit' (c + 1) (by omega), h1, h2,
    ?_, ?_, ?_, ?_, ?_⟩
  · intro c2 lo2 up2 hc2 e1 e2 h3 h4
    rw [board_table_get hfit' c2 (by omega)] at e1
    rw [board_table_get hfit' (c2 + 1) (by omega)] at e2
    rw [← Option.some.inj e1] at h3
    rw [← Option.some.inj e2] at h4
    exact column_unique n h3 h4 h1 h2
  · intro fuel hf
    unfold from_index_search
    rw [board_horizontal_size hfit']
    exact from_index_loop_correct hfit' index c hc h1 h2 fuel 0 (2 * n + 1) (by omega)
      (by omega) (by omega) (by omega)
  · intro fuel res hres
    exact from_index_search_some hfit' index c hc h1 h2 fuel res hres
  · intro fuel hf
    exact from_index_eq hfit' index c hc h1 h2 fuel (by omega)
  · have e : index - cum n c = r := by omega
    rw [e, to_index_eq hfit' c r hc hr]; omega

/-- Witness of C16: size 2, index 5 (column 2, offset 0). -/
theorem C16_binary_search_witness :
    (make_board 2).cumulative_cell_count.length = 2 * 2 ∧
    ∃ c lo up, c < 2 * 2 - 1 ∧
      (make_board 2).cumulative_cell_count[c]? = some lo ∧
      (make_board 2).cumulative_cell_count[c + 1]? = some up ∧
      lo ≤ 5 ∧ 5 < up ∧
      (∀ c2 lo2 up2, c2 < 2 * 2 - 1 →
        (make_board 2).cumulative_cell_count[c2]? = some lo2 →
        (make_board 2).cumulative_cell_count[c2 + 1]? = some up2 →
        lo2 ≤ 5 → 5 < up2 → c2 = c) ∧
      (∀ fuel, 2 * 2 ≤ fuel →
        from_index_search (make_board 2) fuel 5 = some (lookup.found ⟨c, 5 - lo⟩)) ∧
      (∀ fuel r, from_index_search (make_board 2) fuel 5 = some r →
        r = lookup.found ⟨c, 5 - lo⟩) ∧
      (∀ fuel, 2 * 2 ≤ fuel → from_index (make_board 2) fuel 5 = some ⟨c, 5 - lo⟩) ∧
      (⟨c, 5 - lo⟩ : hexagonal_coords).to_index (make_board 2) = 5 :=
  C16_binary_search 2 (by decide) (by decide) 5 (by decide)

theorem to_hexagonal_numerator_eq (b : Board) (c : cartesian_coords) :
    c.to_hexagonal b = ⟨c.x, to_hexagonal_numerator b c / 2⟩ := by
  unfold cartesian_coords.to_hexagonal to_hexagonal_numerator
  rfl

/-- C17 (failing input). On the board of size 3 `inside_board` accepts the lattice
coordinate `(0, 3)`, at which the numerator of the lattice-to-hexagonal conversion is 3, an
odd number: the division by 2 is not exact, the conversion gives the hexagonal row 1 and the
index 1, whose lattice coordinate is `(0, 4)`. The same happens for size 17 at `(0, 17)`,
with numerator 31. -/
theorem C17_odd_size_numerator :
    ((⟨0, 3⟩ : cartesian_coords).inside_board (make_board 3) = true ∧
      to_hexagonal_numerator (make_board 3) ⟨0, 3⟩ = 3 ∧
      (⟨0, 3⟩ : cartesian_coords).to_hexagonal (make_board 3) = ⟨0, 1⟩ ∧
      (⟨0, 1⟩ : hexagonal_coords).to_index (make_board 3) = 1 ∧
      (⟨0, 1⟩ : hexagonal_coords).to_cartesian (make_board 3) = ⟨0, 4⟩) ∧
    ((⟨0, 17⟩ : cartesian_coords).inside_board (make_board 17) = true ∧
      to_hexagonal_numerator (make_board 17) ⟨0, 17⟩ = 31) := by
  decide

/-! ## The stacks that the loop reaches -/

/-- The loop of `solve` is the iteration of `solve_step`. -/
theorem solve_loop_step (b : Board) (inner fuel : Nat) (stack : List board_state) :
    solve_loop b inner (fuel + 1) stack =
      match solve_step b inner stack with
      | none => none
      | some (step_result.finished out) => some out
      | some (step_result.next stack2) => solve_loop b inner fuel stack2 := by
  cases stack with
  | nil => simp [solve_loop, solve_step]
  | cons st rest =>
    conv_lhs => unfold solve_loop
    simp only [solve_step]
    by_cases hc : st.index ≥ b.cell_count
    · rw [if_pos hc, if_pos hc]
      cases rest with
      | nil => rfl
      | cons top below =>
        dsimp only
        cases ha : top.advance_index b inner with
        | none => rfl
        | some res => rfl
    · rw [if_neg hc, if_neg hc]
      cases hp : st.place_queen b inner with
      | none => rfl
      | some res =>
        dsimp only
        by_cases hl : res.queens.length = b.horizontal_size
        · rw [if_pos hl, if_pos hl]
        · rw [if_neg hl, if_neg hl]

/-- After `k` iterations the loop of `solve` continues from the stack `stack_after k`. -/
theorem solve_loop_stack_after (b : Board) (inner : Nat) :
    ∀ (k : Nat) (stack : List board_state), stack_after b inner k = some stack →
      ∀ fuel, solve_loop b inner (fuel + k) [board_state.empty b]
        = solve_loop b inner fuel stack := by
  intro k
  induction k with
  | zero =>
    intro stack h fuel
    simp only [stack_after] at h
    rw [← Option.some.inj h]; rfl
  | succ k ih =>
    intro stack h fuel
    simp only [stack_after] at h
    cases hk : stack_after b inner k with
    | none => rw [hk] at h; simp at h
    | some s =>
      rw [hk] at h
      dsimp only at h
      have e : fuel + (k + 1) = (fuel + 1) + k := by omega
      rw [e, ih s hk (fuel + 1), solve_loop_step]
      cases hs : solve_step b inner s with
      | none => rw [hs] at h; simp at h
      | some r =>
        rw [hs] at h
        cases r with
        | finished out => simp at h
        | next s2 =>
          simp only [Option.some.injEq] at h
          rw [h]

theorem state_shape_empty {n : Nat} :
    state_shape n (board_state.empty (make_board (n + 1))) := by
  refine ⟨by simp [board_state.empty], ?_, rfl, by simp [board_state.empty], ?_⟩
  · intro q hq; simp [board_state.empty] at hq
  · intro _; exact get_bit_new _ _

theorem stack_shape_initial {n : Nat} :
    stack_shape n [board_state.empty (make_board (n + 1))] := by
  refine ⟨state_shape_empty, rfl, ?_, trivial⟩
  intro s hs; simp at hs

theorem state_shape_place {n : Nat} (hfit : 3 * (n + 1) * n + 1 < 4294967296)
    (fuel : Nat) (st res : board_state) (hs : state_shape n st)
    (hidx : st.index < 3 * (n + 1) * n + 1)
    (h : st.place_queen (make_board (n + 1)) fuel = some res) : state_shape n res := by
  obtain ⟨p1, p2, p3, p4, p5, p6, p7, p8, p9⟩ := place_queen_some hfit fuel st res hidx h
  obtain ⟨s1, s2, s3, s4, s5⟩ := hs
  have hlen : st.index / 8 < st.cells._data.length := by
    rw [s3]; exact new_length hfit st.index hidx
  refine ⟨?_, ?_, by rw [p2, s3], p7, p9⟩
  · rw [p1, List.pairwise_append]
    refine ⟨s1, by simp, ?_⟩
    intro a ha b hb
    rw [List.mem_singleton] at hb
    rw [hb]; exact (s2 a ha).1
  · intro q hq
    rw [p1, List.mem_append, List.mem_singleton] at hq
    rcases hq with hq | hq
    · obtain ⟨h1, h2, h3⟩ := s2 q hq
      exact ⟨by omega, h2, p3 q h3⟩
    · rw [hq]; exact ⟨p6, hidx, p4 hlen⟩

theorem state_shape_advance {n : Nat} (hfit : 3 * (n + 1) * n + 1 < 4294967296)
    (fuel : Nat) (st res : board_state) (hs : state_shape n st)
    (hidx : st.index < 3 * (n + 1) * n + 1)
    (h : st.advance_index (make_board (n + 1)) fuel = some res) : state_shape n res := by
  obtain ⟨a1, a2, a3, a4, a5, a6⟩ := advance_index_some hfit fuel st res hidx h
  obtain ⟨s1, s2, s3, s4, s5⟩ := hs
  refine ⟨by rw [a1]; exact s1, ?_, by rw [a2]; exact s3, a4, by rw [a2]; exact a6⟩
  intro q hq
  rw [a1] at hq
  obtain ⟨h1, h2, h3⟩ := s2 q hq
  exact ⟨by omega, h2, by rw [a2]; exact h3⟩

/-- One step of the loop keeps the invariant and the shape of the stack. -/
theorem solve_step_inv {n : Nat} (hfit : 3 * (n + 1) * n + 1 < 4294967296) (inner : Nat)
    (stack stack2 : List board_state) (hinv : stack_inv n stack) (hsh : stack_shape n stack)
    (h : solve_step (make_board (n + 1)) inner stack = some (step_result.next stack2)) :
    stack_inv n stack2 ∧ stack_shape n stack2 := by
  cases stack with
  | nil => simp [solve_step] at h
  | cons st rest =>
    simp only [solve_step] at h
    rw [board_cell_count hfit, board_horizontal_size hfit] at h
    by_cases hc : st.index ≥ 3 * (n + 1) * n + 1
    · rw [if_pos hc] at h
      cases rest with
      | nil =>
        simp only [Option.some.injEq, step_result.next.injEq] at h
        rw [← h]
        exact ⟨⟨by simp, by simp⟩, trivial⟩
      | cons top below =>
        dsimp only at h
        cases ha : top.advance_index (make_board (n + 1)) inner with
        | none => rw [ha] at h; simp at h
        | some res =>
          rw [ha] at h
          simp only [Option.some.injEq, step_result.next.injEq] at h
          rw [← h]
          refine ⟨stack_inv_pop hfit inner st top res below hinv ha, ?_⟩
          obtain ⟨-, -, -, t1, t2, t3, t4⟩ := hsh
          have htop := stack_inv_top_lt st top below hinv
          obtain ⟨a1, -⟩ := advance_index_some hfit inner top res htop ha
          exact ⟨state_shape_advance hfit inner top res t1 htop ha, by rw [a1]; exact t2,
            by rw [a1]; exact t3, t4⟩
    · rw [if_neg hc] at h
      cases hp : st.place_queen (make_board (n + 1)) inner with
      | none => rw [hp] at h; simp at h
      | some res =>
        rw [hp] at h
        dsimp only at h
        by_cases hl : res.queens.length = 2 * n + 1
        · rw [if_pos hl] at h; simp at h
        · rw [if_neg hl] at h
          simp only [Option.some.injEq, step_result.next.injEq] at h
          rw [← h]
          refine ⟨stack_inv_push hfit inner st res rest hinv (by omega) hp hl, ?_⟩
          obtain ⟨p1, -⟩ := place_queen_some hfit inner st res (by omega) hp
          refine ⟨state_shape_place hfit inner st res hsh.1 (by omega) hp, ?_, ?_, hsh⟩
          · rw [p1, List.length_append, List.length_singleton, hsh.2.1]; rfl
          · intro s hs
            simp only [List.head?_cons, Option.some.injEq] at hs
            rw [← hs]
            exact ⟨p1, by omega⟩

/-- Every stack that the loop reaches has the invariant and the shape. -/
theorem stack_after_inv {n : Nat} (hfit : 3 * (n + 1) * n + 1 < 4294967296) (inner : Nat) :
    ∀ (k : Nat) (stack : List board_state),
      stack_after (make_board (n + 1)) inner k = some stack →
      stack_inv n stack ∧ stack_shape n stack := by
  intro k
  induction k with
  | zero =>
    intro stack h
    simp only [stack_after] at h
    rw [← Option.some.inj h]
    exact ⟨stack_inv_initial, stack_shape_initial⟩
  | succ k ih =>
    intro stack h
    simp only [stack_after] at h
    cases hk : stack_after (make_board (n + 1)) inner k with
    | none => rw [hk] at h; simp at h
    | some s =>
      rw [hk] at h
      dsimp only at h
      obtain ⟨i1, i2⟩ := ih s hk
      cases hs : solve_step (make_board (n + 1)) inner s with
      | none => rw [hs] at h; simp at h
      | some r =>
        rw [hs] at h
        cases r with
        | finished out => simp at h
        | next s2 =>
          simp only [Option.some.injEq] at h
          rw [← h]
          exact solve_step_inv hfit inner s s2 i1 i2 hs

/-- C15. For every size from 1 on (cell count fitting `uint`): whenever the loop of `solve`
reaches a stack whose top state does not satisfy `index >= cell_count`, so that the
iteration takes the branch that places a queen, the cursor of the top state is below the
cell count and its bit in the bitmap of the top state is clear. -/
theorem C15_place_queen_precondition (size : Nat) (hsize : 1 ≤ size)
    (hfit : 3 * size * (size - 1) + 1 < 4294967296) (inner k : Nat) (st : board_state)
    (rest : List board_state)
    (h : stack_after (make_board size) inner k = some (st :: rest))
    (hbranch : ¬ st.index ≥ (make_board size).cell_count) :
    st.index < (make_board size).cell_count ∧ st.cells.get_bit st.index = false := by
  obtain ⟨n, rfl, hfit'⟩ := size_succ hsize hfit
  rw [board_cell_count hfit'] at hbranch ⊢
  obtain ⟨-, hsh⟩ := stack_after_inv hfit' inner k _ h
  exact ⟨by omega, hsh.1.2.2.2.2 (by omega)⟩

/-- Witness of C15: size 2 after two iterations, when the root state has its cursor on
cell 1. -/
theorem C15_place_queen_precondition_witness :
    (⟨[], ⟨[0]⟩, 1⟩ : board_state).index < (make_board 2).cell_count ∧
    (⟨[], ⟨[0]⟩, 1⟩ : board_state).cells.get_bit (⟨[], ⟨[0]⟩, 1⟩ : board_state).index = false :=
  C15_place_queen_precondition 2 (by decide) (by decide) 16 2 ⟨[], ⟨[0]⟩, 1⟩ [] (by decide)
    (by decide)

theorem stack_shape_get {n : Nat} :
    ∀ (stack : List board_state), stack_shape n stack →
      (∀ p st, stack[p]? = some st →
        st.queens.length + p + 1 = stack.length ∧ state_shape n st) ∧
      (∀ p st su, stack[p]? = some su → stack[p + 1]? = some st →
        su.queens = st.queens ++ [st.index]) := by
  intro stack
  induction stack with
  | nil => intro _; constructor <;> intro p <;> simp
  | cons top rest ih =>
    intro h
    obtain ⟨h1, h2, h3, h4⟩ := h
    obtain ⟨i1, i2⟩ := ih h4
    constructor
    · intro p st hp
      cases p with
      | zero =>
        simp only [List.getElem?_cons_zero, Option.some.injEq] at hp
        rw [← hp]
        exact ⟨by simp [h2], h1⟩
      | succ p =>
        simp only [List.getElem?_cons_succ] at hp
        obtain ⟨j1, j2⟩ := i1 p st hp
        exact ⟨by simp only [List.length_cons]; omega, j2⟩
    · intro p st su hp hq
      cases p with
      | zero =>
        simp only [List.getElem?_cons_zero, Option.some.injEq] at hp
        simp only [List.getElem?_cons_succ] at hq
        rw [← hp]
        cases rest with
        | nil => simp at hq
        | cons s rest2 =>
          simp only [List.getElem?_cons_zero, Option.some.injEq] at hq
          rw [← hq]
          exact (h3 s rfl).1
      | succ p =>
        simp only [List.getElem?_cons_succ] at hp hq
        exact i2 p st su hp hq

/-- C20. For every size from 1 on (cell count fitting `uint`), in every stack that the loop of
`solve` reaches (listed from the top, so that the state at position `p` has depth
`length - 1 - p`): a state has as many queens as its depth; its queens are strictly
increasing, each of them below the cursor of the state and with its bit set in the bitmap of
the state; and the queens of a state are a prefix of the queens of the state above it. -/
theorem C20_stack_invariant (size : Nat) (hsize : 1 ≤ size)
    (hfit : 3 * size * (size - 1) + 1 < 4294967296) (inner k : Nat)
    (stack : List board_state)
    (h : stack_after (make_board size) inner k = some stack) :
    (∀ p st, stack[p]? = some st →
      st.queens.length = stack.length - 1 - p ∧
      List.Pairwise (fun a b => a < b) st.queens ∧
      (∀ q, q ∈ st.queens → q < st.index ∧ st.cells.get_bit q = true)) ∧
    (∀ p st su, stack[p]? = some su → stack[p + 1]? = some st →
      st.queens <+: su.queens) := by
  obtain ⟨n, rfl, hfit'⟩ := size_succ hsize hfit
  obtain ⟨-, hsh⟩ := stack_after_inv hfit' inner k _ h
  obtain ⟨g1, g2⟩ := stack_shape_get stack hsh
  constructor
  · intro p st hp
    obtain ⟨j1, j2, j3, -⟩ := g1 p st hp
    exact ⟨by omega, j2, fun q hq => ⟨(j3 q hq).1, (j3 q hq).2.2⟩⟩
  · intro p st su hp hq
    rw [g2 p st su hp hq]
    exact List.prefix_append _ _

/-- Witness of C20: size 2 after one iteration, with the state of the first queen on top of
the root state. -/
theorem C20_stack_invariant_witness :
    (∀ p st, ([⟨[0], ⟨[127]⟩, 7⟩, ⟨[], ⟨[0]⟩, 0⟩] : List board_state)[p]? = some st →
      st.queens.length
        = ([⟨[0], ⟨[127]⟩, 7⟩, ⟨[], ⟨[0]⟩, 0⟩] : List board_state).length - 1 - p ∧
      List.Pairwise (fun a b => a < b) st.queens ∧
      (∀ q, q ∈ st.queens → q < st.index ∧ st.cells.get_bit q = true)) ∧
    (∀ p st su, ([⟨[0], ⟨[127]⟩, 7⟩, ⟨[], ⟨[0]⟩, 0⟩] : List board_state)[p]? = some su →
      ([⟨[0], ⟨[127]⟩, 7⟩, ⟨[], ⟨[0]⟩, 0⟩] : List board_state)[p + 1]? = some st →
      st.queens <+: su.queens) :=
  C20_stack_invariant 2 (by decide) (by decide) 16 1 [⟨[0], ⟨[127]⟩, 7⟩, ⟨[], ⟨[0]⟩, 0⟩]
    (by decide)

/-! ## The first solution is the least one -/

/-- The queens of the top state start with the queens and the cursor of each state below. -/
theorem stack_shape_prefix {n : Nat} :
    ∀ (rest : List board_state) (st : board_state), stack_shape n (st :: rest) →
      ∀ s, s ∈ rest → ∃ more, st.queens = s.queens ++ s.index :: more := by
  intro rest
  induction rest with
  | nil => intro st _ s hs; simp at hs
  | cons s1 rest2 ih =>
    intro st h s hs
    obtain ⟨-, -, h3, h4⟩ := h
    obtain ⟨e1, -⟩ := h3 s1 rfl
    rcases List.mem_cons.1 hs with h5 | h5
    · rw [h5]; exact ⟨[], e1⟩
    · obtain ⟨more, e2⟩ := ih s1 h4 s h5
      refine ⟨more ++ [s1.index], ?_⟩
      rw [e1, e2]; simp

/-- A cell of a solution after the queens of a state has a clear bit in the state. -/
theorem list_bit_clear {n : Nat} (st : board_state) (hok : state_ok n st)
    (p : List Nat) (hp : is_solution_list (make_board (n + 1)) p) (t : List Nat)
    (he : p = st.queens ++ t) (y : Nat) (hy : y ∈ t) : st.cells.get_bit y = false := by
  obtain ⟨-, s2, -, s4⟩ := hp
  rw [he, List.pairwise_append] at s2
  have hlt : ∀ q, q ∈ st.queens → q < y := fun q hq => s2.2.2 q hq y hy
  cases hb : st.cells.get_bit y with
  | false => rfl
  | true =>
    exfalso
    rcases hok.2.2.2 y hb with h1 | ⟨q, hq, h1⟩
    · exact absurd (hlt y h1) (lt_irrefl _)
    · have hne : q ≠ y := Nat.ne_of_lt (hlt q hq)
      exact s4 q (by rw [he]; exact List.mem_append_left _ hq) y
        (by rw [he]; exact List.mem_append_right _ hy) hne h1

theorem not_ahead_of_exhausted {n : Nat} (hfit : 3 * (n + 1) * n + 1 < 4294967296)
    (st : board_state) (hok : state_ok n st) (hidx : st.index ≥ 3 * (n + 1) * n + 1)
    (p : List Nat) (hp : is_solution_list (make_board (n + 1)) p) :
    ¬ ahead st st.index p := by
  rintro ⟨t, he, ht⟩
  obtain ⟨s1, -, s3, -⟩ := hp
  rw [board_horizontal_size hfit] at s1
  rw [board_cell_count hfit] at s3
  cases t with
  | nil =>
    rw [he, List.append_nil] at s1
    have := hok.1
    omega
  | cons x t2 =>
    have h1 := ht x (List.mem_cons_self _ _)
    have h2 := s3 x (by rw [he]; exact List.mem_append_right _ (List.mem_cons_self _ _))
    omega

/-- One step of the loop keeps every solution ahead of the search. -/
theorem tracked_list_step {n : Nat} (hfit : 3 * (n + 1) * n + 1 < 4294967296) (inner : Nat)
    (stack stack2 : List board_state) (hinv : stack_inv n stack)
    (h : solve_step (make_board (n + 1)) inner stack = some (step_result.next stack2))
    (p : List Nat) (hp : is_solution_list (make_board (n + 1)) p)
    (ht : tracked_list stack p) : tracked_list stack2 p := by
  cases stack with
  | nil => exact absurd ht (by simp [tracked_list])
  | cons st rest =>
    simp only [solve_step] at h
    rw [board_cell_count hfit, board_horizontal_size hfit] at h
    by_cases hc : st.index ≥ 3 * (n + 1) * n + 1
    · rw [if_pos hc] at h
      have hdead := not_ahead_of_exhausted hfit st (hinv.1 st (List.mem_cons_self _ _)) hc p hp
      cases rest with
      | nil =>
        rcases ht with he | ⟨s, hs, -⟩
        · exact absurd he hdead
        · simp at hs
      | cons top below =>
        dsimp only at h
        cases ha : top.advance_index (make_board (n + 1)) inner with
        | none => rw [ha] at h; simp at h
        | some res =>
          rw [ha] at h
          simp only [Option.some.injEq, step_result.next.injEq] at h
          rw [← h]
          have htop := stack_inv_top_lt st top below hinv
          obtain ⟨a1, a2, a3, a4, a5, a6⟩ := advance_index_some hfit inner top res htop ha
          have hoktop := hinv.1 top (List.mem_cons_of_mem _ (List.mem_cons_self _ _))
          rcases ht with he | ⟨s, hs, t, e1, e2⟩
          · exact absurd he hdead
          · rcases List.mem_cons.1 hs with h1 | h1
            · left
              rw [h1] at e1 e2
              refine ⟨t, by rw [a1]; exact e1, ?_⟩
              intro y hy
              by_contra hlt
              have h2 := e2 y hy
              have h3 := a5 y (by omega) (by omega)
              rw [list_bit_clear top hoktop p hp t e1 y hy] at h3
              exact Bool.noConfusion h3
            · right; exact ⟨s, h1, t, e1, e2⟩
    · rw [if_neg hc] at h
      cases hq : st.place_queen (make_board (n + 1)) inner with
      | none => rw [hq] at h; simp at h
      | some res =>
        rw [hq] at h
        dsimp only at h
        by_cases hl : res.queens.length = 2 * n + 1
        · rw [if_pos hl] at h; simp at h
        · rw [if_neg hl] at h
          simp only [Option.some.injEq, step_result.next.injEq] at h
          rw [← h]
          obtain ⟨p1, p2, p3, p4, p5, p6, p7, p8, p9⟩ :=
            place_queen_some hfit inner st res (by omega) hq
          have hres := state_ok_place hfit inner st res (hinv.1 st (List.mem_cons_self _ _))
            (by omega) hq hl
          rcases ht with ⟨t, e1, e2⟩ | ⟨s, hs, he⟩
          · by_cases hin : st.index ∈ t
            · left
              have hpw := hp.2.1
              rw [e1, List.pairwise_append] at hpw
              obtain ⟨-, htp, -⟩ := hpw
              cases t with
              | nil => simp at hin
              | cons x t2 =>
                have hx : x = st.index := by
                  rcases List.mem_cons.1 hin with h1 | h1
                  · exact h1.symm
                  · have h2 := (List.pairwise_cons.1 htp).1 st.index h1
                    have h3 := e2 x (List.mem_cons_self _ _)
                    omega
                subst hx
                have e3 : p = res.queens ++ t2 := by rw [e1, p1]; simp
                refine ⟨t2, e3, ?_⟩
                intro y hy
                by_contra hlt
                have h2 := (List.pairwise_cons.1 htp).1 y hy
                have h3 := p8 y h2 (by omega)
                rw [list_bit_clear res hres p hp t2 e3 y hy] at h3
                exact Bool.noConfusion h3
            · right
              refine ⟨st, List.mem_cons_self _ _, t, e1, ?_⟩
              intro y hy
              have h1 := e2 y hy
              have h2 : y ≠ st.index := by intro h3; rw [h3] at hy; exact hin hy
              omega
          · right; exact ⟨s, List.mem_cons_of_mem _ hs, he⟩

/-- The queens reported by a step are lexicographically at most every solution ahead. -/
theorem solve_step_least {n : Nat} (hfit : 3 * (n + 1) * n + 1 < 4294967296) (inner : Nat)
    (stack : List board_state) (qs : List Nat) (hinv : stack_inv n stack)
    (hsh : stack_shape n stack)
    (h : solve_step (make_board (n + 1)) inner stack
      = some (step_result.finished (outcome.solved qs)))
    (p : List Nat) (hp : is_solution_list (make_board (n + 1)) p)
    (ht : tracked_list stack p) : qs = p ∨ List.Lex (fun a b => a < b) qs p := by
  cases stack with
  | nil => exact absurd ht (by simp [tracked_list])
  | cons st rest =>
    simp only [solve_step] at h
    rw [board_cell_count hfit, board_horizontal_size hfit] at h
    by_cases hc : st.index ≥ 3 * (n + 1) * n + 1
    · rw [if_pos hc] at h
      cases rest with
      | nil => simp at h
      | cons top below =>
        dsimp only at h
        cases ha : top.advance_index (make_board (n + 1)) inner with
        | none => rw [ha] at h; simp at h
        | some res => rw [ha] at h; simp at h
    · rw [if_neg hc] at h
      cases hq : st.place_queen (make_board (n + 1)) inner with
      | none => rw [hq] at h; simp at h
      | some res =>
        rw [hq] at h
        dsimp only at h
        by_cases hl : res.queens.length = 2 * n + 1
        · rw [if_pos hl] at h
          simp only [Option.some.injEq, step_result.finished.injEq, outcome.solved.injEq] at h
          obtain ⟨p1, -⟩ := place_queen_some hfit inner st res (by omega) hq
          rw [← h, p1]
          rw [p1, List.length_append, List.length_singleton] at hl
          have hplen := hp.1
          rw [board_horizontal_size hfit] at hplen
          rcases ht with ⟨t, e1, e2⟩ | ⟨s, hs, t, e1, e2⟩
          · have htl : t.length = 1 := by
              have := congrArg List.length e1
              rw [List.length_append] at this
              omega
            obtain ⟨x, hx⟩ := List.length_eq_one.1 htl
            subst hx
            have hxi := e2 x (List.mem_singleton_self _)
            rcases Nat.eq_or_lt_of_le hxi with h1 | h1
            · left; rw [e1, h1]
            · right; rw [e1]
              exact List.Lex.append_left _ (List.Lex.rel h1) _
          · right
            obtain ⟨more, e3⟩ := stack_shape_prefix rest st hsh s hs
            have hslen : s.queens.length < st.queens.length := by
              have := congrArg List.length e3
              rw [List.length_append, List.length_cons] at this
              omega
            cases t with
            | nil =>
              exfalso
              have := congrArg List.length e1
              rw [List.append_nil] at this
              omega
            | cons x t2 =>
              have hx := e2 x (List.mem_cons_self _ _)
              rw [e1, e3, List.append_assoc, List.cons_append]
              exact List.Lex.append_left _ (List.Lex.rel (by omega)) _
        · rw [if_neg hl] at h; simp at h

/-- The queens that the loop reports are lexicographically at most every solution that is
ahead of the stack. -/
theorem solve_loop_least {n : Nat} (hfit : 3 * (n + 1) * n + 1 < 4294967296) (inner : Nat)
    (qs p : List Nat) (hp : is_solution_list (make_board (n + 1)) p) :
    ∀ (fuel : Nat) (stack : List board_state), stack_inv n stack → stack_shape n stack →
      solve_loop (make_board (n + 1)) inner fuel stack = some (outcome.solved qs) →
      tracked_list stack p → qs = p ∨ List.Lex (fun a b => a < b) qs p := by
  intro fuel
  induction fuel with
  | zero => intro stack _ _ h; simp [solve_loop] at h
  | succ fuel ih =>
    intro stack hinv hsh h ht
    rw [solve_loop_step] at h
    cases hs : solve_step (make_board (n + 1)) inner stack with
    | none => rw [hs] at h; simp at h
    | some r =>
      rw [hs] at h
      cases r with
      | finished out =>
        simp only [Option.some.injEq] at h
        rw [h] at hs
        exact solve_step_least hfit inner stack qs hinv hsh hs p hp ht
      | next s2 =>
        dsimp only at h
        obtain ⟨i1, i2⟩ := solve_step_inv hfit inner stack s2 hinv hsh hs
        exact ih s2 i1 i2 h (tracked_list_step hfit inner stack s2 hinv hs p hp ht)

theorem tracked_list_initial (b : Board) (p : List Nat) :
    tracked_list [board_state.empty b] p := by
  left
  exact ⟨p, by simp [board_state.empty], fun x _ => Nat.zero_le _⟩

/-- C19. For every size from 1 on (cell count fitting `uint`): the queens `qs` that `solve`
reports are lexicographically less than or equal to every strictly increasing list `p` of
`2 * size - 1` linear indices below the cell count that are pairwise non-attacking. -/
theorem C19_first_solution_least (size : Nat) (hsize : 1 ≤ size)
    (hfit : 3 * size * (size - 1) + 1 < 4294967296) (fuel : Nat) (qs p : List Nat)
    (h : solve fuel size = some (outcome.solved qs))
    (hlen : p.length = 2 * size - 1)
    (hinc : List.Pairwise (fun x y => x < y) p)
    (hcell : ∀ x, x ∈ p → x < (make_board size).cell_count)
    (hna : ∀ x, x ∈ p → ∀ y, y ∈ p → x ≠ y → ¬ attacks (make_board size) x y) :
    qs = p ∨ List.Lex (fun a b => a < b) qs p := by
  obtain ⟨n, rfl, hfit'⟩ := size_succ hsize hfit
  have hp : is_solution_list (make_board (n + 1)) p := by
    refine ⟨?_, hinc, hcell, hna⟩
    rw [board_horizontal_size hfit', hlen]; omega
  exact solve_loop_least hfit' fuel qs p hp fuel _ stack_inv_initial stack_shape_initial h
    (tracked_list_initial _ p)

/-! ## The exact attack set on boards of even size -/

theorem steps_ray (d : Int × Int) (h : d ∈ steps) : ∃ it, (it, d) ∈ rays := by
  simp only [steps, List.mem_cons, List.mem_singleton, List.not_mem_nil, or_false] at h
  rcases h with h | h | h | h | h | h | h | h | h | h | h | h <;> subst h
  · exact ⟨ray_up, by simp [rays]⟩
  · exact ⟨ray_down, by simp [rays]⟩
  · exact ⟨ray_left, by simp [rays]⟩
  · exact ⟨ray_right, by simp [rays]⟩
  · exact ⟨major_up_left, by simp [rays]⟩
  · exact ⟨major_up_right, by simp [rays]⟩
  · exact ⟨major_down_left, by simp [rays]⟩
  · exact ⟨major_down_right, by simp [rays]⟩
  · exact ⟨minor_up_left, by simp [rays]⟩
  · exact ⟨minor_up_right, by simp [rays]⟩
  · exact ⟨minor_down_left, by simp [rays]⟩
  · exact ⟨minor_down_right, by simp [rays]⟩

/-- The hexagon is convex along the rays: the lattice points between two cells on a ray are
inside the hexagon and have the parity of the cells. -/
theorem between_cells (n : Nat) (it : cartesian_coords → cartesian_coords) (d : Int × Int)
    (h : (it, d) ∈ rays) (a b : cartesian_coords) (ha : is_cell n a) (hb : is_cell n b)
    (k : Nat) (ex : (b.x : Int) = a.x + k * d.1) (ey : (b.y : Int) = a.y + k * d.2)
    (m : Nat) (hm : m ≤ k) (X Y : Int) (hX : X = a.x + m * d.1) (hY : Y = a.y + m * d.2) :
    0 ≤ X ∧ X ≤ 2 * n ∧ 0 ≤ Y ∧ Y ≤ 4 * n ∧ (X + Y + n) % 2 = 0 ∧ n ≤ X + Y ∧
      X + Y ≤ 5 * n ∧ X ≤ Y + n ∧ Y ≤ X + 3 * n := by
  obtain ⟨a1, a2, a3, a4, a5, a6⟩ := ha
  obtain ⟨b1, b2, b3, b4, b5, b6⟩ := hb
  rcases ray_mem it d h with h | h | h | h | h | h | h | h | h | h | h | h <;>
    obtain ⟨-, rfl⟩ := h <;> dsimp only at ex ey hX hY <;> subst hX hY <;>
    refine ⟨?_, ?_, ?_, ?_, ?_, ?_, ?_, ?_, ?_⟩ <;> omega

/-- The walk from a cell towards a cell on the same ray visits the integer points between
them, without wrapping around. -/
theorem iterate_forward {n : Nat} (hfit : 3 * (n + 1) * n + 1 < 4294967296)
    (it : cartesian_coords → cartesian_coords) (d : Int × Int) (h : (it, d) ∈ rays)
    (a b : cartesian_coords) (ha : is_cell n a) (hb : is_cell n b)
    (k : Nat) (ex : (b.x : Int) = a.x + k * d.1) (ey : (b.y : Int) = a.y + k * d.2) :
    ∀ m, m ≤ k → ((it^[m] a).x : Int) = a.x + m * d.1 ∧ ((it^[m] a).y : Int) = a.y + m * d.2 := by
  have hn := size_bound hfit
  intro m
  induction m with
  | zero => intro _; simp
  | succ m ih =>
    intro hm
    obtain ⟨cx, cy⟩ := ih (by omega)
    obtain ⟨c1, c2, c3, c4, -⟩ := between_cells n it d h a b ha hb k ex ey m (by omega) _ _
      rfl rfl
    obtain ⟨t1, t2, t3, t4, -⟩ := between_cells n it d h a b ha hb k ex ey (m + 1) hm _ _
      rfl rfl
    rw [Function.iterate_succ_apply']
    obtain ⟨sx, sy⟩ := ray_step it d h (it^[m] a) (by omega) (by omega)
    have e1 : ((m + 1 : Nat) : Int) * d.1 = m * d.1 + d.1 := by push_cast; ring
    have e2 : ((m + 1 : Nat) : Int) * d.2 = m * d.2 + d.2 := by push_cast; ring
    rw [e1] at t1 t2 ⊢
    rw [e2] at t3 t4 ⊢
    constructor <;> omega

/-- On a board of even size the points of a walk between two cells are accepted by
`inside_board`. -/
theorem inside_forward {n : Nat} (hfit : 3 * (n + 1) * n + 1 < 4294967296)
    (hodd : n % 2 = 1)
    (it : cartesian_coords → cartesian_coords) (d : Int × Int) (h : (it, d) ∈ rays)
    (a b : cartesian_coords) (ha : is_cell n a) (hb : is_cell n b)
    (k : Nat) (ex : (b.x : Int) = a.x + k * d.1) (ey : (b.y : Int) = a.y + k * d.2)
    (m : Nat) (hm : m ≤ k) : (it^[m] a).inside_board (make_board (n + 1)) = true := by
  obtain ⟨cx, cy⟩ := iterate_forward hfit it d h a b ha hb k ex ey m hm
  obtain ⟨c1, c2, c3, c4, c5, c6, c7, c8, c9⟩ :=
    between_cells n it d h a b ha hb k ex ey m hm _ _ rfl rfl
  rw [← cx] at c1 c2 c5 c6 c7 c8 c9
  rw [← cy] at c3 c4 c5 c6 c7 c8 c9
  apply inside_of_is_cell hfit
  · refine ⟨?_, ?_, ?_, ?_, ?_, ?_⟩ <;> omega
  · omega

/-- A ray walk sets the bit of every coordinate it reaches while on the board. -/
theorem mark_captured_cells_marks (b : Board) (it : cartesian_coords → cartesian_coords)
    (a : cartesian_coords) (fuel : Nat) (st res : board_state)
    (hres : st.mark_captured_cells b fuel a it = some res) (k : Nat) (hk : 1 ≤ k)
    (hin : ∀ m, 1 ≤ m → m ≤ k → (it^[m] a).inside_board b = true)
    (hlen : index_at b (it^[k] a) / 8 < st.cells._data.length) :
    res.cells.get_bit (index_at b (it^[k] a)) = true := by
  unfold board_state.mark_captured_cells at hres
  cases hm : mark_loop b it fuel (it a) st.cells with
  | none => rw [hm] at hres; simp at hres
  | some cells =>
    rw [hm] at hres
    have hr : res.cells = cells := by rw [← Option.some.inj hres]
    obtain ⟨m0, -, hpre, hexit, hc⟩ := mark_loop_some b it fuel _ _ _ hm
    have hlt : k - 1 < m0 := by
      by_contra hcon
      have := hin (m0 + 1) (by omega) (by omega)
      rw [Function.iterate_succ_apply, hexit] at this
      exact Bool.noConfusion this
    rw [hr, hc]
    apply get_bit_set_bits_of_mem _ _ _ _ hlen
    rw [mem_visited]
    refine ⟨k - 1, hlt, ?_⟩
    rw [← Function.iterate_succ_apply]
    have e : (k - 1).succ = k := by omega
    rw [e]

theorem mark_captured_cells_keeps (b : Board) (it : cartesian_coords → cartesian_coords)
    (a : cartesian_coords) (fuel : Nat) (st res : board_state)
    (hres : st.mark_captured_cells b fuel a it = some res) :
    res.cells._data.length = st.cells._data.length ∧
    ∀ j, st.cells.get_bit j = true → res.cells.get_bit j = true := by
  unfold board_state.mark_captured_cells at hres
  cases hm : mark_loop b it fuel (it a) st.cells with
  | none => rw [hm] at hres; simp at hres
  | some cells =>
    rw [hm] at hres
    have hr : res.cells = cells := by rw [← Option.some.inj hres]
    obtain ⟨m0, -, -, -, hc⟩ := mark_loop_some b it fuel _ _ _ hm
    rw [hr, hc]
    exact ⟨set_bits_length _ _, fun j hj => get_bit_set_bits_of_get_bit _ _ j hj⟩

/-- After the walks of a list of rays, the bit of every coordinate reached by one of them
while on the board is set. -/
theorem mark_fold_marks (b : Board) (a : cartesian_coords) (fuel : Nat)
    (it : cartesian_coords → cartesian_coords) (k : Nat) (hk : 1 ≤ k)
    (hin : ∀ m, 1 ≤ m → m ≤ k → (it^[m] a).inside_board b = true) :
    ∀ (l : List (cartesian_coords → cartesian_coords)), it ∈ l →
      ∀ (st res : board_state),
      l.foldlM (fun s f => s.mark_captured_cells b fuel a f) st = some res →
      index_at b (it^[k] a) / 8 < st.cells._data.length →
      res.cells.get_bit (index_at b (it^[k] a)) = true := by
  have keep : ∀ (l : List (cartesian_coords → cartesian_coords)) (st res : board_state),
      l.foldlM (fun s f => s.mark_captured_cells b fuel a f) st = some res →
      res.cells._data.length = st.cells._data.length ∧
      ∀ j, st.cells.get_bit j = true → res.cells.get_bit j = true := by
    intro l
    induction l with
    | nil =>
      intro st res h
      rw [List.foldlM_nil] at h
      rw [← Option.some.inj h]
      exact ⟨rfl, fun _ hj => hj⟩
    | cons f l ih =>
      intro st res h
      rw [List.foldlM_cons] at h
      cases h1 : st.mark_captured_cells b fuel a f with
      | none => rw [h1] at h; simp at h
      | some s1 =>
        rw [h1] at h
        obtain ⟨k1, k2⟩ := mark_captured_cells_keeps b f a fuel st s1 h1
        obtain ⟨k3, k4⟩ := ih s1 res h
        exact ⟨k3.trans k1, fun j hj => k4 j (k2 j hj)⟩
  intro l
  induction l with
  | nil => intro h; simp at h
  | cons f l ih =>
    intro hmem st res h hlen
    rw [List.foldlM_cons] at h
    cases h1 : st.mark_captured_cells b fuel a f with
    | none => rw [h1] at h; simp at h
    | some s1 =>
      rw [h1] at h
      obtain ⟨k1, k2⟩ := mark_captured_cells_keeps b f a fuel st s1 h1
      by_cases hf : it = f
      · subst hf
        have := mark_captured_cells_marks b it a fuel st s1 h1 k hk hin hlen
        exact (keep l s1 res h).2 _ this
      · rcases List.mem_cons.1 hmem with h2 | h2
        · exact absurd h2 hf
        · exact ih h2 s1 res h (by rw [k1]; exact hlen)

/-- On a board of even size `place_queen` sets the bit of every cell that the new queen
attacks. -/
theorem place_queen_marks {n : Nat} (hfit : 3 * (n + 1) * n + 1 < 4294967296)
    (hodd : n % 2 = 1) (fuel : Nat) (st res : board_state)
    (hidx : st.index < 3 * (n + 1) * n + 1)
    (hlen : st.cells._data.length = (bitmap.new (make_board (n + 1)))._data.length)
    (h : st.place_queen (make_board (n + 1)) fuel = some res)
    (j : Nat) (hj : j < 3 * (n + 1) * n + 1)
    (hatt : attacks (make_board (n + 1)) st.index j) : res.cells.get_bit j = true := by
  rw [place_queen_eq] at h
  cases h1 : from_index (make_board (n + 1)) fuel st.index with
  | none => rw [h1] at h; simp at h
  | some hx =>
    rw [h1, Option.some_bind] at h
    cases h2 : (⟨st.queens ++ [st.index], st.cells.set_bit st.index, st.index⟩ :
        board_state).mark_all (make_board (n + 1)) fuel (hx.to_cartesian (make_board (n + 1)))
      with
    | none => rw [h2] at h; simp at h
    | some s3 =>
      rw [h2, Option.some_bind] at h
      have hlat : lattice_of (make_board (n + 1)) st.index
          (hx.to_cartesian (make_board (n + 1))) := ⟨fuel, hx, h1, rfl⟩
      generalize hx.to_cartesian (make_board (n + 1)) = a at h2 hlat
      obtain ⟨ci, cj, l1, l2, d, hd, k, hk, ex, ey⟩ := hatt
      have hci : ci = a := lattice_of_unique hfit st.index hidx ci a l1 hlat
      subst hci
      obtain ⟨hcella, -⟩ := lattice_of_props hfit st.index hidx ci l1
      obtain ⟨hcellj, hidxj⟩ := lattice_of_props hfit j hj cj l2
      obtain ⟨it, hit⟩ := steps_ray d hd
      have ex2 : (cj.x : Int) = ci.x + k * d.1 := by omega
      have ey2 : (cj.y : Int) = ci.y + k * d.2 := by omega
      obtain ⟨fx, fy⟩ := iterate_forward hfit it d hit ci cj hcella hcellj k ex2 ey2 k
        (le_refl _)
      have hend : it^[k] ci = cj := coords_ext _ _ (by omega) (by omega)
      have hin : ∀ m, 1 ≤ m → m ≤ k →
          (it^[m] ci).inside_board (make_board (n + 1)) = true :=
        fun m _ hm => inside_forward hfit hodd it d hit ci cj hcella hcellj k ex2 ey2 m hm
      have hidxk : index_at (make_board (n + 1)) (it^[k] ci) = j := by
        rw [hend]; exact hidxj
      rw [mark_all_eq] at h2
      have hbit := mark_fold_marks (make_board (n + 1)) ci fuel it k hk hin
        (rays.map Prod.fst) (List.mem_map_of_mem Prod.fst hit) _ s3 h2 (by
          rw [hidxk]
          show j / 8 < (st.cells.set_bit st.index)._data.length
          rw [set_bit_length, hlen]
          exact new_length hfit j hj)
      rw [hidxk] at hbit
      have hs3 : s3.index < 3 * (n + 1) * n + 1 := by
        have := mark_fold_some hfit st.index hidx ci l1 fuel _ rays_fst _ s3 h2
        rw [this.2.1]; exact hidx
      obtain ⟨-, a2, -⟩ := advance_index_some hfit fuel s3 res hs3 h
      rw [a2]; exact hbit

/-- A ray step that would leave the unsigned range below zero gives a coordinate that
`inside_board` rejects. -/
theorem wrap_rejected {n : Nat} (hfit : 3 * (n + 1) * n + 1 < 4294967296)
    (it : cartesian_coords → cartesian_coords) (d : Int × Int) (h : (it, d) ∈ rays)
    (c : cartesian_coords) (hx : c.x < 4294967296) (hy : c.y < 4294967296)
    (hneg : (c.x : Int) + d.1 < 0 ∨ (c.y : Int) + d.2 < 0) :
    (it c).inside_board (make_board (n + 1)) = false := by
  have hn := size_bound hfit
  obtain ⟨sx, sy⟩ := ray_step it d h c hx hy
  obtain ⟨d1, d2, d3, d4, -, -⟩ := ray_vector it d h
  cases hb : (it c).inside_board (make_board (n + 1)) with
  | false => rfl
  | true =>
    exfalso
    obtain ⟨b1, b2, -⟩ := (inside_board_iff hfit _).1 hb
    rcases hneg with h1 | h1 <;> omega

/-- C18. For every even size (cell count fitting `uint`) and every index `i` below the cell
count, `place_queen` on the empty state with cursor `i` returns, and the bits set in its
bitmap are exactly the bit of `i` and the bits of the cells `j` that `i` attacks under the
twelve-direction rule. A ray step that would take a coordinate below zero wraps around to a
coordinate that `inside_board` rejects. -/
theorem C18_exact_attack_set (size : Nat) (hsize : 1 ≤ size) (heven : size % 2 = 0)
    (hfit : 3 * size * (size - 1) + 1 < 4294967296) (i : Nat)
    (hi : i < (make_board size).cell_count) :
    (∃ fuel res, (⟨[], bitmap.new (make_board size), i⟩ : board_state).place_queen
      (make_board size) fuel = some res) ∧
    (∀ fuel res, (⟨[], bitmap.new (make_board size), i⟩ : board_state).place_queen
        (make_board size) fuel = some res →
      res.queens = [i] ∧
      ∀ j, res.cells.get_bit j = true ↔
        (j = i ∨ (j < (make_board size).cell_count ∧ attacks (make_board size) i j))) ∧
    (∀ it d, (it, d) ∈ rays → ∀ c : cartesian_coords, c.x < 4294967296 → c.y < 4294967296 →
      ((c.x : Int) + d.1 < 0 ∨ (c.y : Int) + d.2 < 0) →
      (it c).inside_board (make_board size) = false) := by
  obtain ⟨n, rfl, hfit'⟩ := size_succ hsize hfit
  have hodd : n % 2 = 1 := by omega
  rw [board_cell_count hfit'] at hi ⊢
  have hge := cell_count_ge n
  refine ⟨?_, ?_, ?_⟩
  · obtain ⟨res, h⟩ := place_queen_terminates hfit' (3 * (n + 1) * n + 1 + 1)
      (⟨[], bitmap.new (make_board (n + 1)), i⟩ : board_state) hi (by omega) (by omega)
      (by omega)
    exact ⟨_, res, h⟩
  · intro fuel res h
    obtain ⟨p1, p2, p3, p4, p5, -⟩ := place_queen_some hfit' fuel _ res hi h
    dsimp only at p1 p2 p3 p4 p5
    refine ⟨by rw [p1]; rfl, ?_⟩
    intro j
    constructor
    · intro hj
      rcases p5 j hj with h1 | h1 | h1
      · rw [get_bit_new] at h1; exact Bool.noConfusion h1
      · left; exact h1
      · right; exact h1
    · rintro (h1 | ⟨h1, h2⟩)
      · rw [h1]; exact p4 (new_length hfit' i hi)
      · exact place_queen_marks hfit' hodd fuel _ res hi rfl h j h1 h2
  · intro it d hd c hx hy hneg
    exact wrap_rejected hfit' it d hd c hx hy hneg

/-- Witness of C18: size 2, cell 0. -/
theorem C18_exact_attack_set_witness :
    (∃ fuel res, (⟨[], bitmap.new (make_board 2), 0⟩ : board_state).place_queen
      (make_board 2) fuel = some res) ∧
    (∀ fuel res, (⟨[], bitmap.new (make_board 2), 0⟩ : board_state).place_queen
        (make_board 2) fuel = some res →
      res.queens = [0] ∧
      ∀ j, res.cells.get_bit j = true ↔
        (j = 0 ∨ (j < (make_board 2).cell_count ∧ attacks (make_board 2) 0 j))) ∧
    (∀ it d, (it, d) ∈ rays → ∀ c : cartesian_coords, c.x < 4294967296 → c.y < 4294967296 →
      ((c.x : Int) + d.1 < 0 ∨ (c.y : Int) + d.2 < 0) →
      (it c).inside_board (make_board 2) = false) :=
  C18_exact_attack_set 2 (by decide) (by decide) (by decide) 0 (by decide)

/-! ## Deciding attacks -/

theorem attack_coords_of (ci cj : cartesian_coords) (d : Int × Int) (hd : d ∈ steps)
    (k : Nat) (hk : 0 < k) (ex : (cj.x : Int) - ci.x = k * d.1)
    (ey : (cj.y : Int) - ci.y = k * d.2) : attack_coords ci cj = true := by
  unfold attack_coords
  rw [List.any_eq_true]
  refine ⟨d, hd, ?_⟩
  unfold attack_step
  rw [List.any_eq_true]
  refine ⟨k, ?_, by simp only [decide_eq_true_eq]; exact ⟨hk, ex, ey⟩⟩
  rw [List.mem_range]
  obtain ⟨it, hit⟩ := steps_ray d hd
  obtain ⟨hd1, hd2, hd3, hd4, hd5, -⟩ := ray_vector it d hit
  rcases hd5 with h0 | h0
  · have hc : d.1 = -2 ∨ d.1 = -1 ∨ d.1 = 1 ∨ d.1 = 2 := by omega
    rcases hc with hc | hc | hc | hc <;> rw [hc] at ex <;> omega
  · have hc : d.2 = -3 ∨ d.2 = -2 ∨ d.2 = -1 ∨ d.2 = 1 ∨ d.2 = 2 ∨ d.2 = 3 := by omega
    rcases hc with hc | hc | hc | hc | hc | hc <;> rw [hc] at ey <;> omega

/-- Cells that attack each other are found by `attack_index`. -/
theorem attack_index_of_attacks {n : Nat} (hfit : 3 * (n + 1) * n + 1 < 4294967296)
    (fuel : Nat) (hf : 2 * n + 2 ≤ fuel) (i j : Nat) (hi : i < 3 * (n + 1) * n + 1)
    (hj : j < 3 * (n + 1) * n + 1) (h : attacks (make_board (n + 1)) i j) :
    attack_index (make_board (n + 1)) fuel i j = true := by
  obtain ⟨ci, cj, l1, l2, d, hd, k, hk, ex, ey⟩ := h
  obtain ⟨c1, r1, hc1, hr1, rfl⟩ := index_split n i hi
  obtain ⟨c2, r2, hc2, hr2, rfl⟩ := index_split n j hj
  unfold attack_index
  rw [from_index_split hfit c1 r1 hc1 hr1 fuel hf, from_index_split hfit c2 r2 hc2 hr2 fuel hf]
  dsimp only
  have e1 := (lattice_of_split hfit c1 r1 hc1 hr1 ci).1 l1
  have e2 := (lattice_of_split hfit c2 r2 hc2 hr2 cj).1 l2
  rw [to_cartesian_eq hfit c1 r1 hc1 hr1, to_cartesian_eq hfit c2 r2 hc2 hr2, ← e1, ← e2]
  exact attack_coords_of ci cj d hd k hk ex ey

set_option maxRecDepth 100000 in
theorem size_four_no_attack :
    ∀ x, x ∈ [1, 8, 9, 18, 27, 28, 35] → ∀ y, y ∈ [1, 8, 9, 18, 27, 28, 35] →
      x ≠ y → attack_index (make_board 4) 8 x y = false := by
  decide

/-- The queens that `solve` reports for size 4 do not attack each other. -/
theorem size_four_valid :
    ∀ x, x ∈ [1, 8, 9, 18, 27, 28, 35] → ∀ y, y ∈ [1, 8, 9, 18, 27, 28, 35] →
      x ≠ y → ¬ attacks (make_board 4) x y := by
  intro x hx y hy hne hatt
  have hfit : 3 * (3 + 1) * 3 + 1 < 4294967296 := by decide
  have hx2 : x < 3 * (3 + 1) * 3 + 1 := by
    simp only [List.mem_cons, List.mem_singleton, List.not_mem_nil, or_false] at hx
    omega
  have hy2 : y < 3 * (3 + 1) * 3 + 1 := by
    simp only [List.mem_cons, List.mem_singleton, List.not_mem_nil, or_false] at hy
    omega
  have h1 := attack_index_of_attacks hfit 8 (by decide) x y hx2 hy2 hatt
  rw [size_four_no_attack x hx y hy hne] at h1
  exact Bool.noConfusion h1

/-- Witness of C19: size 4, with the reported queens themselves as the list `p`. -/
theorem C19_first_solution_least_witness :
    [1, 8, 9, 18, 27, 28, 35] = [1, 8, 9, 18, 27, 28, 35] ∨
      List.Lex (fun a b => a < b) [1, 8, 9, 18, 27, 28, 35] [1, 8, 9, 18, 27, 28, 35] :=
  C19_first_solution_least 4 (by decide) (by decide) 241 [1, 8, 9, 18, 27, 28, 35]
    [1, 8, 9, 18, 27, 28, 35] solve_size_four (by decide) (by decide) (by decide)
    size_four_valid

/-- Witness of C10: the seven queens that `solve` reports for size 4, no two of which attack
each other. -/
theorem C10_maximum_witness :
    ({1, 8, 9, 18, 27, 28, 35} : Finset Nat).card ≤ 2 * 4 - 1 ∧
      (make_board 4).horizontal_size = 2 * 4 - 1 :=
  C10_maximum 4 (by decide) (by decide) {1, 8, 9, 18, 27, 28, 35} (by decide)
    (fun p hp q hq hne =>
      size_four_valid p (by simpa using hp) q (by simpa using hq) hne)

end Queens
